import Mathlib

/-!
# WASAPILoopback: capture-to-output streaming pipeline

A shallow embedding of `src/main/assets/WASAPILoopback.cpp` and theorems about it.

* A `std::vector<T>` is a list; a function that fills a vector passed by reference returns
  the new value.
* `std::fwrite` of one frame to `stdout` is modelled by appending the frame to the list of
  frames written.
* `float` and `double` are IEEE-754 binary32 and binary64 with round-to-nearest-even, every
  operation rounded once to the type of its operands (the build targets SSE2 and does not fuse
  multiplications and additions); see `FP`.
* `uint32_t` and `size_t` arithmetic that can wrap is written with an explicit `%`.
* Behaviour that C++ leaves undefined (reading past the end of a buffer, converting a
  floating-point value that does not fit the integer type) is the result `none`.
* The calls of the capture loop into Windows are modelled by the answers they give in one
  iteration (`IterEnv`); `fail`, which prints and calls `exit(1)`, is the outcome
  `IterResult.fatal`.
* The constants of the Windows headers compared by `parseFormat` are parameters (`WinConsts`).
-/

namespace WASAPILoopback

/-! ## Config -/

/-- The constant `TARGET_RATE` (Hz). -/
def TARGET_RATE : Nat := 24000

/-- The constant `CHUNK_SAMPLES`: samples per 100 ms at 24 kHz. -/
def CHUNK_SAMPLES : Nat := 2400

/-- The constant `CHUNK_BYTES = CHUNK_SAMPLES * 2` (s16le). -/
def CHUNK_BYTES : Nat := CHUNK_SAMPLES * 2

/-! ## emitChunks -/

/-- The `while (carry.size() - offset >= CHUNK_SAMPLES)` loop of `emitChunks`.  Every iteration
writes the `CHUNK_SAMPLES` samples at `carry.data() + offset` and advances `offset`.  The result
is the list of frames written, in order, and the final `offset`.  The first argument bounds the
number of iterations; `emitChunks` passes `carry.size()`, which the loop can never exhaust
because every iteration consumes `CHUNK_SAMPLES > 0` samples. -/
def emitLoop : Nat → List Int → Nat → List (List Int) × Nat
  | 0, _, offset => ([], offset)
  | fuel + 1, carry, offset =>
    if CHUNK_SAMPLES ≤ carry.length - offset then
      let p := (carry.drop offset).take CHUNK_SAMPLES
      let r := emitLoop fuel carry (offset + CHUNK_SAMPLES)
      (p :: r.1, r.2)
    else ([], offset)

/-- The function `emitChunks(s16, carry)`: returns the frames written to `stdout` and the new
value of `carry`. -/
def emitChunks (s16 carry : List Int) : List (List Int) × List Int :=
  let carry1 := if !carry.isEmpty then carry ++ s16 else s16
  let r := emitLoop carry1.length carry1 0
  let carry2 := if 0 < r.2 then carry1.drop r.2 else carry1
  (r.1, carry2)

/-- Feeding a sequence of batches to `emitChunks` in order, threading the carry buffer and
collecting the emitted frames; the first component of the state is the frames emitted so far. -/
def feed (st : List (List Int) × List Int) (batches : List (List Int)) :
    List (List Int) × List Int :=
  batches.foldl (fun s b => (s.1 ++ (emitChunks b s.2).1, (emitChunks b s.2).2)) st

/-! ## IEEE-754 arithmetic

`float` and `double` values are modelled by `FP`: a finite value is the rational number it
denotes, and the two infinities and NaN are separate constructors.  Negative zero is identified
with zero: the program never divides by a computed zero and never inspects the sign of a zero,
and comparisons and conversions to integers do not distinguish the two.  Every arithmetic
operation computes the exact rational result and rounds it to the destination format, to
nearest with ties to even, as the default rounding mode of the target prescribes. -/

/-- A binary floating-point format: precision in bits and the exponent range of normal
numbers. -/
structure Fmt where
  prec : Nat
  emin : Int
  emax : Int

/-- The format of `float`. -/
def binary32 : Fmt := ⟨24, -126, 127⟩

/-- The format of `double`. -/
def binary64 : Fmt := ⟨53, -1022, 1023⟩

/-- A floating-point value. -/
inductive FP where
  | fin (q : ℚ)
  | inf (neg : Bool)
  | nan
  deriving DecidableEq

/-- Rounding of a rational number to the nearest integer, ties to even. -/
def rne (q : ℚ) : Int :=
  if q - ⌊q⌋ < 1 / 2 then ⌊q⌋
  else if 1 / 2 < q - ⌊q⌋ then ⌊q⌋ + 1
  else if ⌊q⌋ % 2 = 0 then ⌊q⌋ else ⌊q⌋ + 1

/-- Loop computing `⌊log₂ n⌋` (and `0` for `n = 0`); the first argument bounds the number of
halvings. -/
def log2Loop : Nat → Nat → Nat
  | 0, _ => 0
  | fuel + 1, n => if n < 2 then 0 else log2Loop fuel (n / 2) + 1

/-- Loop computing `⌈log₂ n⌉` (and `0` for `n = 0`); the first argument bounds the number of
halvings. -/
def clog2Loop : Nat → Nat → Nat
  | 0, _ => 0
  | fuel + 1, n => if n < 2 then 0 else clog2Loop fuel ((n + 1) / 2) + 1

/-- The binary exponent `⌊log₂ |q|⌋` of a non-zero rational number (`0` for `q = 0`). -/
def expo (q : ℚ) : Int :=
  if 1 ≤ |q| then (log2Loop ⌊|q|⌋₊ ⌊|q|⌋₊ : Int) else -(clog2Loop ⌈|q|⁻¹⌉₊ ⌈|q|⁻¹⌉₊ : Int)

/-- The exponent of the unit in the last place used to represent `q` in format `f`:
`max ⌊log₂ |q|⌋ emin - (prec - 1)`; below `2 ^ emin` the spacing is that of the subnormals. -/
def qexp (f : Fmt) (q : ℚ) : Int :=
  max (expo q) f.emin - ((f.prec : Int) - 1)

/-- Rounding to nearest-even in format `f` with unbounded exponent. -/
def roundQ (f : Fmt) (q : ℚ) : ℚ :=
  (rne (q / (2 : ℚ) ^ qexp f q) : ℚ) * (2 : ℚ) ^ qexp f q

/-- The largest finite number of format `f`. -/
def maxFinite (f : Fmt) : ℚ :=
  ((2 : ℚ) ^ f.prec - 1) * (2 : ℚ) ^ (f.emax - ((f.prec : Int) - 1))

/-- Rounding of an exact result to format `f`: a rounded value beyond the largest finite
number overflows to the infinity of its sign. -/
def FP.round (f : Fmt) (q : ℚ) : FP :=
  if maxFinite f < |roundQ f q| then FP.inf (decide (q < 0)) else FP.fin (roundQ f q)

/-- Loop computing `⌊√n⌋` bit by bit: `r` is the root found so far and the first argument the
number of lower bits still to decide. -/
def isqrtLoop : Nat → Nat → Nat → Nat
  | 0, _, r => r
  | k + 1, n, r =>
    if (r + 2 ^ k) * (r + 2 ^ k) ≤ n then isqrtLoop k n (r + 2 ^ k) else isqrtLoop k n r

/-- The integer square root `⌊√n⌋`. -/
def isqrt (n : Nat) : Nat := isqrtLoop (log2Loop n n / 2 + 1) n 0

/-- The significand of the rounded square root of `t`: `r = ⌊√t⌋` or `r + 1` according to
the side of `(r + 1/2)² = r² + r + 1/4` on which `t` lies (ties to even). -/
def sqrtMant (t : ℚ) : Nat :=
  let r : Nat := isqrt ⌊t⌋₊
  let mid : ℚ := (r : ℚ) * r + r + 1 / 4
  if t < mid then r else if mid < t then r + 1 else if r % 2 = 0 then r else r + 1

/-- The correctly rounded square root of `q ≥ 0` in format `f`: with `2 ^ x` the unit in the
last place of `√q`, the significand is the rounded square root of `q / 4 ^ x`. -/
def sqrtQ (f : Fmt) (q : ℚ) : ℚ :=
  let x : Int := max (expo q / 2) f.emin - ((f.prec : Int) - 1)
  (sqrtMant (q / (2 : ℚ) ^ (2 * x)) : ℚ) * (2 : ℚ) ^ x

namespace FP

/-- Negation. -/
def neg : FP → FP
  | fin q => fin (-q)
  | inf s => inf (!s)
  | nan => nan

/-- Addition in format `f`. -/
def add (f : Fmt) : FP → FP → FP
  | fin a, fin b => round f (a + b)
  | fin _, inf s => inf s
  | inf s, fin _ => inf s
  | inf s, inf t => if s = t then inf s else nan
  | _, _ => nan

/-- Subtraction in format `f`. -/
def sub (f : Fmt) (a b : FP) : FP := add f a (neg b)

/-- Multiplication in format `f`. -/
def mul (f : Fmt) : FP → FP → FP
  | fin a, fin b => round f (a * b)
  | fin a, inf s => if a = 0 then nan else inf (xor (decide (a < 0)) s)
  | inf s, fin b => if b = 0 then nan else inf (xor s (decide (b < 0)))
  | inf s, inf t => inf (xor s t)
  | _, _ => nan

/-- Division in format `f` (a zero divisor is the positive zero). -/
def div (f : Fmt) : FP → FP → FP
  | fin a, fin b =>
    if b = 0 then (if a = 0 then nan else inf (decide (a < 0))) else round f (a / b)
  | fin _, inf _ => fin 0
  | inf s, fin b => inf (xor s (decide (b < 0)))
  | _, _ => nan

/-- The comparison `a < b`; false when an operand is NaN. -/
def lt : FP → FP → Bool
  | fin a, fin b => decide (a < b)
  | fin _, inf s => !s
  | inf s, fin _ => s
  | inf s, inf t => s && !t
  | _, _ => false

/-- The function `std::floor`. -/
def floor : FP → FP
  | fin q => fin (⌊q⌋ : ℚ)
  | x => x

/-- The function `std::sqrt` in format `f`. -/
def sqrt (f : Fmt) : FP → FP
  | fin q => if q < 0 then nan else fin (sqrtQ f q)
  | inf s => if s then nan else inf false
  | nan => nan

/-- Conversion of an unsigned integer to format `f`. -/
def ofNat (f : Fmt) (n : Nat) : FP := round f (n : ℚ)

/-- Conversion of a signed integer to format `f`. -/
def ofInt (f : Fmt) (v : Int) : FP := round f (v : ℚ)

/-- The conversion `static_cast<float>` of a `double`. -/
def toFloat : FP → FP
  | fin q => round binary32 q
  | x => x

/-- Truncation toward zero of a rational number. -/
def truncQ (q : ℚ) : Int := if 0 ≤ q then ⌊q⌋ else ⌈q⌉

/-- The conversion `int(x)` of a `float`: the value truncated toward zero; undefined (`none`)
when that is not an `int` or `x` is not finite. -/
def toInt : FP → Option Int
  | fin q => if -2 ^ 31 ≤ truncQ q ∧ truncQ q < 2 ^ 31 then some (truncQ q) else none
  | _ => none

/-- The conversion `static_cast<size_t>` of a `double`: the value truncated toward zero;
undefined (`none`) when that is not a `size_t` or `x` is not finite. -/
def toSizeT : FP → Option Nat
  | fin q => if 0 ≤ truncQ q ∧ truncQ q < 2 ^ 64 then some (truncQ q).toNat else none
  | _ => none

/-- The function `std::min(a, b)`, which is `(b < a) ? b : a`. -/
def stdMin (a b : FP) : FP := if lt b a then b else a

/-- The function `std::max(a, b)`, which is `(a < b) ? b : a`. -/
def stdMax (a b : FP) : FP := if lt a b then b else a

end FP

/-! ## Conversion stages -/

/-- The inner loop of `downmixToMono` for frame `i`, followed by the division: the sum in
`double` of `in[i * chans + c]` for `c < chans`, the index computed in `uint32_t`, divided by
`std::max<uint32_t>(1, chans)` and converted to `float`.  Reading past the end of `in` is
undefined (`none`). -/
def downmixFrame (inp : List FP) (chans i : Nat) : Option FP :=
  ((List.range chans).foldlM
      (fun acc c => (inp[(i * chans + c) % 2 ^ 32]?).map (fun x => FP.add binary64 acc x))
      (FP.fin 0)).map
    (fun acc => FP.toFloat (FP.div binary64 acc (FP.ofNat binary64 (max 1 chans))))

/-- The function `downmixToMono(in, frames, chans, outMono)`: returns `outMono`. -/
def downmixToMono (inp : List FP) (frames chans : Nat) : Option (List FP) :=
  (List.range frames).mapM (downmixFrame inp chans)

/-- The body of the loop of `linearResample` for output index `i`. -/
def resampleAt (inMono : List FP) (ratio : FP) (i : Nat) : Option FP := do
  let srcPos := FP.div binary64 (FP.ofNat binary64 i) ratio
  let i0 ← FP.toSizeT (FP.floor srcPos)
  let i1 := min ((i0 + 1) % 2 ^ 64) ((inMono.length + (2 ^ 64 - 1)) % 2 ^ 64)
  let t := FP.sub binary64 srcPos (FP.ofNat binary64 i0)
  let a ← inMono[i0]?
  let b ← inMono[i1]?
  pure (FP.toFloat (FP.add binary64 (FP.mul binary64 (FP.sub binary64 (FP.fin 1) t) a)
    (FP.mul binary64 t b)))

/-- The value `ratio = double(TARGET_RATE) / double(srcRate)` of `linearResample`. -/
def resampleRatio (srcRate : Nat) : FP :=
  FP.div binary64 (FP.ofNat binary64 TARGET_RATE) (FP.ofNat binary64 srcRate)

/-- The value `outCount` of `linearResample`. -/
def resampleCount (n srcRate : Nat) : Option Nat :=
  FP.toSizeT (FP.floor (FP.mul binary64 (FP.ofNat binary64 n) (resampleRatio srcRate)))

/-- The function `linearResample(inMono, srcRate, outMono)`: returns `outMono`. -/
def linearResample (inMono : List FP) (srcRate : Nat) : Option (List FP) :=
  if srcRate = TARGET_RATE then some inMono
  else do
    let outCount ← resampleCount inMono.length srcRate
    (List.range outCount).mapM (resampleAt inMono (resampleRatio srcRate))

/-- The conversion `static_cast<int16_t>` of an `int`. -/
def toInt16 (v : Int) : Int := (v + 32768) % 65536 - 32768

/-- The value `v` computed by `floatMonoToS16` for one sample: the sample clamped to `[-1, 1]`,
scaled by `32768.f` when negative and by `32767.f` otherwise, converted to `int`. -/
def quantizeInt (s : FP) : Option Int :=
  let x := FP.stdMax (FP.fin (-1)) (FP.stdMin (FP.fin 1) s)
  if FP.lt x (FP.fin 0) then FP.toInt (FP.mul binary32 x (FP.fin 32768))
  else FP.toInt (FP.mul binary32 x (FP.fin 32767))

/-- The function `floatMonoToS16(inMono, outS16)`: returns `outS16`. -/
def floatMonoToS16 (inMono : List FP) : Option (List Int) :=
  inMono.mapM (fun s => (quantizeInt s).map toInt16)

/-! ## Silence gate -/

/-- The statement `rms += float(v) * float(v)`. -/
def gateStep (rms : FP) (v : Int) : FP :=
  FP.add binary32 rms (FP.mul binary32 (FP.ofInt binary32 v) (FP.ofInt binary32 v))

/-- The accumulation `for (auto v : s16) rms += float(v) * float(v)` from `rms = 0.f`. -/
def gateSum (s16 : List Int) : FP := s16.foldl gateStep (FP.fin 0)

/-- The value `rms = std::sqrt(rms / float(s16.size()))`. -/
def gateRms (s16 : List Int) : FP :=
  FP.sqrt binary32 (FP.div binary32 (gateSum s16) (FP.ofNat binary32 s16.length))

/-- The silence gate of the capture loop: true when the packet is skipped (`continue`), that
is when `s16` is not empty and `rms < 250.f`. -/
def gateSuppress (s16 : List Int) : Bool :=
  !s16.isEmpty && FP.lt (gateRms s16) (FP.fin 250)

/-- A sample that is a finite number in `[-1, 1]`. -/
def FP.InUnit (x : FP) : Prop := ∃ q : ℚ, x = FP.fin q ∧ -1 ≤ q ∧ q ≤ 1

instance FP.decInUnit (x : FP) : Decidable x.InUnit :=
  match x with
  | FP.fin q =>
    if h : -1 ≤ q ∧ q ≤ 1 then isTrue ⟨q, rfl, h⟩
    else isFalse (fun ⟨_, hq, h2⟩ => h (FP.fin.inj hq ▸ h2))
  | FP.inf _ => isFalse (fun ⟨_, hq, _⟩ => FP.noConfusion hq)
  | FP.nan => isFalse (fun ⟨_, hq, _⟩ => FP.noConfusion hq)

/-- A value that is `+∞` or a finite number not below `c`. -/
def FP.GeQ (x : FP) (c : ℚ) : Prop := x = FP.inf false ∨ ∃ q : ℚ, x = FP.fin q ∧ c ≤ q

instance FP.decGeQ (x : FP) (c : ℚ) : Decidable (x.GeQ c) :=
  match x with
  | FP.fin q =>
    if h : c ≤ q then isTrue (Or.inr ⟨q, rfl, h⟩)
    else isFalse (fun h2 => h2.elim (fun e => FP.noConfusion e)
      (fun ⟨_, hq, h3⟩ => h (FP.fin.inj hq ▸ h3)))
  | FP.inf true => isFalse (fun h2 => h2.elim (fun e => Bool.noConfusion (FP.inf.inj e))
      (fun ⟨_, hq, _⟩ => FP.noConfusion hq))
  | FP.inf false => isTrue (Or.inl rfl)
  | FP.nan => isFalse (fun h2 => h2.elim (fun e => FP.noConfusion e)
      (fun ⟨_, hq, _⟩ => FP.noConfusion hq))

/-- The exact sum of squares `Σ s[i]²` of a packet, to which the claims about the silence gate
compare the gate. -/
def sumSquares (s : List Int) : Int := (s.map (fun v => v * v)).sum

/-! ## Capture loop: one packet -/

/-- The fields of `WavFmt` read by the capture loop and set by `parseFormat`. -/
structure WavFmt where
  isFloat : Bool
  isExt : Bool
  srcRate : Nat
  srcChans : Nat

/-- What `GetBuffer` returns: whether `flags` has `AUDCLNT_BUFFERFLAGS_SILENT`, the frame
count `numFrames`, and the buffer `pData`, given by the samples found when it is read as
`float*` and when it is read as `int16_t*`. -/
structure Packet where
  silent : Bool
  numFrames : Nat
  floatData : List FP
  pcmData : List Int

/-- The conversion of the packet to `interleavedFloat`: zeros for a silent packet, their count
computed in `uint32_t`; otherwise the first `numFrames * srcChans` samples of the buffer, an
`int16_t` sample `v` becoming `v / 32768.0f`.  Reading past the end of the buffer is undefined
(`none`). -/
def decodePacket (mix : WavFmt) (pkt : Packet) : Option (List FP) :=
  if pkt.silent then
    some (List.replicate ((pkt.numFrames * mix.srcChans) % 2 ^ 32) (FP.fin 0))
  else if mix.isFloat then
    if pkt.numFrames * mix.srcChans ≤ pkt.floatData.length then
      some (pkt.floatData.take (pkt.numFrames * mix.srcChans))
    else none
  else
    if pkt.numFrames * mix.srcChans ≤ pkt.pcmData.length then
      some ((pkt.pcmData.take (pkt.numFrames * mix.srcChans)).map
        (fun v => FP.div binary32 (FP.ofInt binary32 v) (FP.fin 32768)))
    else none

/-- One iteration of the capture loop from the acquired packet to `emitChunks`: the frames
written to `stdout` and the new carry buffer.  A packet stopped by the silence gate writes
nothing and leaves the carry buffer as it is. -/
def processPacket (mix : WavFmt) (pkt : Packet) (carry : List Int) :
    Option (List (List Int) × List Int) := do
  let interleavedFloat ← decodePacket mix pkt
  let monoSrc ← downmixToMono interleavedFloat pkt.numFrames mix.srcChans
  let mono24k ← linearResample monoSrc mix.srcRate
  let s16 ← floatMonoToS16 mono24k
  if gateSuppress s16 then pure ([], carry) else pure (emitChunks s16 carry)

/-- An all-zero packet: the silent flag is not set, and the buffer holds the
`numFrames * srcChans` samples of the packet in the encoding of the mix format, all of them
zero. -/
def Packet.AllZero (mix : WavFmt) (pkt : Packet) : Prop :=
  pkt.silent = false ∧
    ((mix.isFloat = true ∧ pkt.numFrames * mix.srcChans ≤ pkt.floatData.length ∧
        ∀ x ∈ pkt.floatData.take (pkt.numFrames * mix.srcChans), x = FP.fin 0) ∨
      (mix.isFloat = false ∧ pkt.numFrames * mix.srcChans ≤ pkt.pcmData.length ∧
        ∀ v ∈ pkt.pcmData.take (pkt.numFrames * mix.srcChans), v = 0))

instance Packet.decAllZero (mix : WavFmt) (pkt : Packet) : Decidable (pkt.AllZero mix) := by
  unfold Packet.AllZero
  infer_instance

/-- The comparison `a <= b`; false when an operand is NaN. -/
def FP.le : FP → FP → Bool
  | FP.fin a, FP.fin b => decide (a ≤ b)
  | FP.fin _, FP.inf s => !s
  | FP.inf s, FP.fin _ => s
  | FP.inf s, FP.inf t => s || !t
  | _, _ => false

/-- A `float`: a finite value that binary32 represents, an infinity or NaN. -/
def FP.IsFloat : FP → Prop
  | FP.fin q => roundQ binary32 q = q ∧ |q| ≤ maxFinite binary32
  | _ => True

instance FP.decIsFloat (x : FP) : Decidable x.IsFloat :=
  match x with
  | FP.fin q => inferInstanceAs (Decidable (roundQ binary32 q = q ∧ |q| ≤ maxFinite binary32))
  | FP.inf _ => isTrue trivial
  | FP.nan => isTrue trivial

/-- The value `i0 = static_cast<size_t>(std::floor(i / ratio))` of the loop of
`linearResample`. -/
def resampleI0 (ratio : FP) (i : Nat) : Option Nat :=
  FP.toSizeT (FP.floor (FP.div binary64 (FP.ofNat binary64 i) ratio))

/-- The value written to `outMono[i]` by the loop of `linearResample`, from the weight `t` and
the two samples read. -/
def interpolate (t a b : FP) : FP :=
  FP.toFloat (FP.add binary64 (FP.mul binary64 (FP.sub binary64 (FP.fin 1) t) a)
    (FP.mul binary64 t b))

/-- The value of `interpolate` on finite arguments when no rounding overflows: the weight
`1 - t`, the two products and their sum rounded to `double`, the result rounded to `float`. -/
def interpQ (t a b : ℚ) : ℚ :=
  roundQ binary32 (roundQ binary64
    (roundQ binary64 (roundQ binary64 (1 + -t) * a) + roundQ binary64 (t * b)))

/-- The value of a finite sample (`0` for an infinity or NaN). -/
def FP.toQ : FP → ℚ
  | FP.fin q => q
  | _ => 0

/-- The exact sum of the `k` first samples of frame `i` of an interleaved buffer of `chans`
channels. -/
def frameSum (inp : List FP) (chans i k : Nat) : ℚ :=
  ((List.range k).map (fun c => (inp.getD (i * chans + c) (FP.fin 0)).toQ)).sum

/-- The mean of one frame as the specification words it: the sum of the samples of the frame,
accumulated in `double` in channel order, divided by the channel count and narrowed to
`float`. -/
def specMean (frame : List FP) : FP :=
  FP.toFloat (FP.div binary64 (frame.foldl (FP.add binary64) (FP.fin 0))
    (FP.ofNat binary64 frame.length))

/-- The downmix as the specification words it: `mono[i]` is the mean of the samples
`interleaved[i * channelCount + c]` for `c` in `[0, channelCount)`, for each frame index `i`
below `frameCount`. -/
def specDownmix (interleaved : List FP) (frameCount channelCount : Nat) : List FP :=
  (List.range frameCount).map
    (fun i => specMean ((interleaved.drop (i * channelCount)).take channelCount))

/-! ## parseFormat -/

/-- A `GUID`, as the number its 128 bits denote. -/
structure Guid where
  val : Nat
  deriving DecidableEq

/-- The record `WAVEFORMATEX`. -/
structure WAVEFORMATEX where
  wFormatTag : Nat
  nChannels : Nat
  nSamplesPerSec : Nat
  nAvgBytesPerSec : Nat
  nBlockAlign : Nat
  wBitsPerSample : Nat
  cbSize : Nat
  deriving DecidableEq

/-- The record `WAVEFORMATEXTENSIBLE`: a `WAVEFORMATEX` followed by the extension. -/
structure WAVEFORMATEXTENSIBLE where
  Format : WAVEFORMATEX
  Samples : Nat
  dwChannelMask : Nat
  SubFormat : Guid
  deriving DecidableEq

/-- The constants of the Windows headers that `parseFormat` compares with; their values are
not part of the program and are left open. -/
structure WinConsts where
  WAVE_FORMAT_EXTENSIBLE : Nat
  WAVE_FORMAT_IEEE_FLOAT : Nat
  KSDATAFORMAT_SUBTYPE_IEEE_FLOAT : Guid
  KSDATAFORMAT_SUBTYPE_PCM : Guid

/-- The function `parseFormat(wfx)`.  The argument is the memory at `wfx` read as a
`WAVEFORMATEXTENSIBLE`; its extension is read only when the format tag is
`WAVE_FORMAT_EXTENSIBLE`.  The result is the fields `isFloat`, `isExt`, `srcRate`, `srcChans`
of `F` and the field `wfxe`. -/
def parseFormat (k : WinConsts) (wfx : WAVEFORMATEXTENSIBLE) : WavFmt × WAVEFORMATEXTENSIBLE :=
  if wfx.Format.wFormatTag = k.WAVE_FORMAT_EXTENSIBLE then
    (⟨decide (wfx.SubFormat = k.KSDATAFORMAT_SUBTYPE_IEEE_FLOAT), true,
      wfx.Format.nSamplesPerSec, wfx.Format.nChannels⟩, wfx)
  else
    (⟨decide (wfx.Format.wFormatTag = k.WAVE_FORMAT_IEEE_FLOAT), false,
      wfx.Format.nSamplesPerSec, wfx.Format.nChannels⟩,
     ⟨wfx.Format, 0, 0,
      if wfx.Format.wFormatTag = k.WAVE_FORMAT_IEEE_FLOAT then k.KSDATAFORMAT_SUBTYPE_IEEE_FLOAT
      else k.KSDATAFORMAT_SUBTYPE_PCM⟩)

/-! ## Capture loop -/

/-- The conversion stages of one iteration: the packet decoded, downmixed, resampled and
quantized to `s16`. -/
def convertPacket (mix : WavFmt) (pkt : Packet) : Option (List Int) := do
  let interleavedFloat ← decodePacket mix pkt
  let monoSrc ← downmixToMono interleavedFloat pkt.numFrames mix.srcChans
  let mono24k ← linearResample monoSrc mix.srcRate
  floatMonoToS16 mono24k

/-- The calls of the capture loop followed by `fail`. -/
inductive FailSite where
  | getNextPacketSize
  | getBuffer
  deriving DecidableEq

/-- What the environment answers during one iteration of the capture loop: whether the
`HRESULT` of `GetNextPacketSize` is a failure and the packet size it reports, whether the
`HRESULT` of `GetBuffer` is a failure and the packet it delivers, whether the `HRESULT` of
`ReleaseBuffer` is a failure, the value of `ferror(stdout)` after `emitChunks`, and whether
`GetAsyncKeyState(VK_ESCAPE)` has its high bit set. -/
structure IterEnv where
  pollFailed : Bool
  packetFrames : Nat
  getFailed : Bool
  pkt : Packet
  releaseFailed : Bool
  ferrorStdout : Bool
  escapeDown : Bool

/-- The outcome of one iteration of the capture loop: `fail` was called (a message on
`stderr` and `exit(1)`), or the iteration ended with the given value of `running`, frames
written and carry buffer; `slept` tells whether `Sleep(3)` was called. -/
inductive IterResult where
  | fatal (site : FailSite)
  | next (running : Bool) (frames : List (List Int)) (carry : List Int) (slept : Bool)
  deriving DecidableEq

/-- One iteration of the body of `while (running)`.  The value returned by `ReleaseBuffer` is
not looked at.  Both `continue` statements end the iteration before the two statements that
set `running = false`. -/
def loopIteration (mix : WavFmt) (env : IterEnv) (carry : List Int) : Option IterResult :=
  if env.pollFailed then some (IterResult.fatal FailSite.getNextPacketSize)
  else if env.packetFrames = 0 then some (IterResult.next true [] carry true)
  else if env.getFailed then some (IterResult.fatal FailSite.getBuffer)
  else
    (convertPacket mix env.pkt).map (fun s16 =>
      if gateSuppress s16 then IterResult.next true [] carry false
      else
        IterResult.next (!(env.ferrorStdout || env.escapeDown))
          (emitChunks s16 carry).1 (emitChunks s16 carry).2 false)

/-- How a run of the capture loop ended: `running` became false and the loop was left, `fail`
ended the process, or the iterations considered were all executed with `running` still true. -/
inductive LoopEnd where
  | stopped
  | fatal (site : FailSite)
  | stillRunning
  deriving DecidableEq

/-- The capture loop `while (running) { … }` on the answers of the environment for successive
iterations: how it ended, all frames written, and the last carry buffer. -/
def captureLoop (mix : WavFmt) : List IterEnv → List Int → Option (LoopEnd × List (List Int) × List Int)
  | [], carry => some (LoopEnd.stillRunning, [], carry)
  | env :: rest, carry =>
    match loopIteration mix env carry with
    | none => none
    | some (IterResult.fatal site) => some (LoopEnd.fatal site, [], carry)
    | some (IterResult.next running frames carry1 _) =>
      if running then
        (captureLoop mix rest carry1).map (fun r => (r.1, frames ++ r.2.1, r.2.2))
      else some (LoopEnd.stopped, frames, carry1)

/-! ## Theorems: emitChunks -/

theorem emitLoop_spec (fuel : Nat) (carry : List Int) :
    ∀ offset : Nat, carry.length - offset ≤ fuel →
      (∀ f ∈ (emitLoop fuel carry offset).1, f.length = CHUNK_SAMPLES) ∧
      (emitLoop fuel carry offset).1.flatten ++ carry.drop (emitLoop fuel carry offset).2
        = carry.drop offset ∧
      carry.length - (emitLoop fuel carry offset).2 < CHUNK_SAMPLES := by
  induction fuel with
  | zero =>
    intro offset h
    have hc : 0 < CHUNK_SAMPLES := by decide
    simp only [emitLoop]
    refine ⟨by simp, by simp, by omega⟩
  | succ fuel ih =>
    intro offset h
    by_cases hge : CHUNK_SAMPLES ≤ carry.length - offset
    · have hc : 0 < CHUNK_SAMPLES := by decide
      obtain ⟨h1, h2, h3⟩ := ih (offset + CHUNK_SAMPLES) (by omega)
      simp only [emitLoop, if_pos hge]
      refine ⟨?_, ?_, h3⟩
      · intro f hf
        rcases List.mem_cons.1 hf with rfl | hf
        · rw [List.length_take, List.length_drop]; omega
        · exact h1 f hf
      · rw [List.flatten_cons, List.append_assoc, h2, ← List.drop_drop,
          List.take_append_drop]
    · simp only [emitLoop, if_neg hge]
      refine ⟨by simp, by simp, by omega⟩

theorem emitChunks_spec (s16 carry : List Int) :
    (∀ f ∈ (emitChunks s16 carry).1, f.length = CHUNK_SAMPLES) ∧
    (emitChunks s16 carry).1.flatten ++ (emitChunks s16 carry).2 = carry ++ s16 ∧
    (emitChunks s16 carry).2.length < CHUNK_SAMPLES := by
  have hc1 : (if !carry.isEmpty then carry ++ s16 else s16) = carry ++ s16 := by
    cases carry <;> simp
  obtain ⟨h1, h2, h3⟩ := emitLoop_spec (carry ++ s16).length (carry ++ s16) 0 (by omega)
  have hdrop : (if 0 < (emitLoop (carry ++ s16).length (carry ++ s16) 0).2
      then (carry ++ s16).drop (emitLoop (carry ++ s16).length (carry ++ s16) 0).2
      else carry ++ s16)
      = (carry ++ s16).drop (emitLoop (carry ++ s16).length (carry ++ s16) 0).2 := by
    split_ifs with h0
    · rfl
    · have : (emitLoop (carry ++ s16).length (carry ++ s16) 0).2 = 0 := by omega
      rw [this, List.drop_zero]
  simp only [emitChunks, hc1, hdrop]
  refine ⟨h1, ?_, ?_⟩
  · simpa using h2
  · rw [List.length_drop]; exact h3

theorem feed_spec (batches : List (List Int)) :
    ∀ st : List (List Int) × List Int,
      (feed st batches).1.flatten ++ (feed st batches).2 = st.1.flatten ++ st.2 ++ batches.flatten ∧
      ((∀ f ∈ st.1, f.length = CHUNK_SAMPLES) →
        ∀ f ∈ (feed st batches).1, f.length = CHUNK_SAMPLES) ∧
      (st.2.length < CHUNK_SAMPLES → (feed st batches).2.length < CHUNK_SAMPLES) := by
  induction batches with
  | nil => intro st; simp [feed]
  | cons b bs ih =>
    intro st
    obtain ⟨e1, e2, e3⟩ := emitChunks_spec b st.2
    obtain ⟨i1, i2, i3⟩ := ih (st.1 ++ (emitChunks b st.2).1, (emitChunks b st.2).2)
    have hfeed : feed st (b :: bs)
        = feed (st.1 ++ (emitChunks b st.2).1, (emitChunks b st.2).2) bs := by
      simp [feed]
    rw [hfeed]
    refine ⟨?_, ?_, fun _ => i3 e3⟩
    · rw [i1]
      simp only [List.flatten_append, List.flatten_cons, List.append_assoc]
      rw [← List.append_assoc (emitChunks b st.2).1.flatten, e2]
      simp only [List.append_assoc]
    · intro hst
      apply i2
      intro f hf
      rcases List.mem_append.1 hf with hf | hf
      · exact hst f hf
      · exact e1 f hf

/-- Claim C1 (chunker exactness).  Starting from an empty carry buffer, for every finite sequence
of batches passed in order to `emitChunks`, the concatenation of all emitted frames (in emission
order) followed by the final carry buffer equals the concatenation of all input batches. -/
theorem C1_chunker_exactness (batches : List (List Int)) :
    (feed ([], []) batches).1.flatten ++ (feed ([], []) batches).2 = batches.flatten := by
  have h := (feed_spec batches ([], [])).1
  simpa using h

/-- Claim C2 (chunker frame-length invariant).  For every carry buffer and every input batch, each
frame emitted by one `emitChunks` call has exactly `CHUNK_SAMPLES = 2400` samples
(`CHUNK_BYTES = 4800` bytes at two bytes per sample) and the carry buffer after the call is
shorter than 2400; hence after any sequence of batches fed from the empty carry buffer the
carry buffer is shorter than one frame. -/
theorem C2_chunker_frame_length :
    (∀ s16 carry : List Int,
      (∀ f ∈ (emitChunks s16 carry).1, f.length = 2400 ∧ 2 * f.length = CHUNK_BYTES
        ∧ CHUNK_BYTES = 4800) ∧
      (emitChunks s16 carry).2.length < 2400) ∧
    (∀ batches : List (List Int),
      (∀ f ∈ (feed ([], []) batches).1, f.length = 2400) ∧
      (feed ([], []) batches).2.length < 2400) := by
  refine ⟨fun s16 carry => ?_, fun batches => ?_⟩
  · obtain ⟨e1, _, e3⟩ := emitChunks_spec s16 carry
    refine ⟨fun f hf => ?_, e3⟩
    have := e1 f hf
    refine ⟨this, ?_, by decide⟩
    rw [this]; decide
  · obtain ⟨_, i2, i3⟩ := feed_spec batches ([], [])
    exact ⟨i2 (by simp), i3 (by decide)⟩

/-- Witness of C2: a batch of 5000 samples on a carry of two samples writes two frames of 2400
samples and keeps 202 samples. -/
theorem C2_chunker_frame_length_witness :
    (emitChunks (List.replicate 5000 1) [3, 4]).1.length = 2 ∧
    (emitChunks (List.replicate 5000 1) [3, 4]).2.length = 202 ∧
    (∀ f ∈ (emitChunks (List.replicate 5000 1) [3, 4]).1, f.length = 2400 ∧
      2 * f.length = CHUNK_BYTES ∧ CHUNK_BYTES = 4800) ∧
    (emitChunks (List.replicate 5000 1) [3, 4]).2.length < 2400 :=
  ⟨by decide!, by decide!, (C2_chunker_frame_length.1 (List.replicate 5000 1) [3, 4]).1,
    (C2_chunker_frame_length.1 (List.replicate 5000 1) [3, 4]).2⟩

/-! ## Theorems: rounding -/

theorem rne_intCast (k : Int) : rne (k : ℚ) = k := by
  simp [rne]

theorem floor_le_rne (q : ℚ) : ⌊q⌋ ≤ rne q := by
  unfold rne; split_ifs <;> omega

theorem rne_le_floor_add_one (q : ℚ) : rne q ≤ ⌊q⌋ + 1 := by
  unfold rne; split_ifs <;> omega

theorem rne_mono {a b : ℚ} (h : a ≤ b) : rne a ≤ rne b := by
  have hf : ⌊a⌋ ≤ ⌊b⌋ := Int.floor_mono h
  rcases lt_or_eq_of_le hf with hlt | heq
  · have h1 := rne_le_floor_add_one a
    have h2 := floor_le_rne b
    omega
  · unfold rne
    rw [heq]
    have hd : a - (⌊b⌋ : ℚ) ≤ b - (⌊b⌋ : ℚ) := by linarith
    split_ifs <;> first | omega | (exfalso; linarith)

theorem abs_rne_sub_le (q : ℚ) : |(rne q : ℚ) - q| ≤ 1 / 2 := by
  have h0 : (0 : ℚ) ≤ q - ⌊q⌋ := by linarith [Int.floor_le q]
  have h1 : q - ⌊q⌋ < 1 := by linarith [Int.lt_floor_add_one q]
  rw [abs_le]
  unfold rne
  split_ifs <;> push_cast <;> constructor <;> linarith

theorem rne_neg (q : ℚ) : rne (-q) = -rne q := by
  by_cases hq : (⌊q⌋ : ℚ) = q
  · rw [← hq, ← Int.cast_neg, rne_intCast, rne_intCast]
  · have hlt : (⌊q⌋ : ℚ) < q := lt_of_le_of_ne (Int.floor_le q) hq
    have hfl : ⌊-q⌋ = -⌊q⌋ - 1 := by
      rw [Int.floor_eq_iff]
      push_cast
      constructor <;> linarith [Int.lt_floor_add_one q]
    unfold rne
    rw [hfl]
    push_cast
    split_ifs <;> first | omega | (exfalso; linarith)

theorem log2Loop_eq (fuel : Nat) : ∀ n : Nat, n ≤ fuel → log2Loop fuel n = Nat.log 2 n := by
  induction fuel with
  | zero => intro n h; simp [log2Loop, Nat.le_zero.1 h]
  | succ fuel ih =>
    intro n h
    by_cases h2 : n < 2
    · simp [log2Loop, h2, Nat.log_of_lt h2]
    · have hle : 2 ≤ n := by omega
      rw [Nat.log_of_one_lt_of_le (by norm_num) hle]
      simp only [log2Loop, if_neg h2]
      rw [ih (n / 2) (by omega)]

theorem clog2Loop_eq (fuel : Nat) : ∀ n : Nat, n ≤ fuel → clog2Loop fuel n = Nat.clog 2 n := by
  induction fuel with
  | zero => intro n h; simp [clog2Loop, Nat.le_zero.1 h]
  | succ fuel ih =>
    intro n h
    by_cases h2 : n < 2
    · simp [clog2Loop, h2, Nat.clog_of_right_le_one (Nat.lt_succ_iff.1 h2)]
    · have hle : 2 ≤ n := by omega
      rw [Nat.clog_of_two_le (by norm_num) hle]
      simp only [clog2Loop, if_neg h2]
      rw [ih ((n + 1) / 2) (by omega)]
      rfl

theorem expo_eq_log (q : ℚ) : expo q = Int.log 2 |q| := by
  unfold expo Int.log
  rw [log2Loop_eq _ _ le_rfl, clog2Loop_eq _ _ le_rfl]

theorem zpow_expo_le {q : ℚ} (hq : q ≠ 0) : (2 : ℚ) ^ expo q ≤ |q| := by
  rw [expo_eq_log]
  exact_mod_cast Int.zpow_log_le_self (b := 2) (by norm_num) (abs_pos.2 hq)

theorem lt_zpow_expo_succ (q : ℚ) : |q| < (2 : ℚ) ^ (expo q + 1) := by
  rw [expo_eq_log]
  exact_mod_cast Int.lt_zpow_succ_log_self (b := 2) (by norm_num) |q|

theorem expo_neg (q : ℚ) : expo (-q) = expo q := by
  rw [expo_eq_log, expo_eq_log, abs_neg]

theorem expo_mono {a b : ℚ} (ha : a ≠ 0) (h : |a| ≤ |b|) : expo a ≤ expo b := by
  rw [expo_eq_log, expo_eq_log]
  exact Int.log_mono_right (abs_pos.2 ha) h

/-- The exponent is determined by the binade. -/
theorem expo_eq_of_bounds {q : ℚ} {e : Int} (h1 : (2 : ℚ) ^ e ≤ |q|) (h2 : |q| < (2 : ℚ) ^ (e + 1)) :
    expo q = e := by
  have hpos : (0 : ℚ) < |q| := lt_of_lt_of_le (by positivity) h1
  rw [expo_eq_log]
  apply le_antisymm
  · have := (Int.lt_zpow_iff_log_lt (b := 2) (by norm_num) hpos (x := e + 1)).1 (by exact_mod_cast h2)
    omega
  · exact (Int.zpow_le_iff_le_log (b := 2) (by norm_num) hpos).1 (by exact_mod_cast h1)

theorem roundQ_zero (f : Fmt) : roundQ f 0 = 0 := by
  simp [roundQ, rne]

theorem qexp_neg (f : Fmt) (q : ℚ) : qexp f (-q) = qexp f q := by
  simp [qexp, expo_neg]

theorem roundQ_neg (f : Fmt) (q : ℚ) : roundQ f (-q) = -roundQ f q := by
  simp only [roundQ, qexp_neg, neg_div, rne_neg]
  push_cast
  ring

/-- A multiple of the unit in the last place of `q` that bounds `q` from above bounds its
rounding. -/
theorem roundQ_le_of_le (f : Fmt) {q : ℚ} (k : Int) (h : q ≤ k * (2 : ℚ) ^ qexp f q) :
    roundQ f q ≤ k * (2 : ℚ) ^ qexp f q := by
  have hu : (0 : ℚ) < (2 : ℚ) ^ qexp f q := by positivity
  have h1 : q / (2 : ℚ) ^ qexp f q ≤ (k : ℚ) := by rwa [div_le_iff₀ hu]
  have h2 : rne (q / (2 : ℚ) ^ qexp f q) ≤ k := by
    have := rne_mono h1
    rwa [rne_intCast] at this
  unfold roundQ
  exact mul_le_mul_of_nonneg_right (by exact_mod_cast h2) hu.le

/-- A multiple of the unit in the last place of `q` that bounds `q` from below bounds its
rounding. -/
theorem le_roundQ_of_le (f : Fmt) {q : ℚ} (k : Int) (h : k * (2 : ℚ) ^ qexp f q ≤ q) :
    k * (2 : ℚ) ^ qexp f q ≤ roundQ f q := by
  have hu : (0 : ℚ) < (2 : ℚ) ^ qexp f q := by positivity
  have h1 : (k : ℚ) ≤ q / (2 : ℚ) ^ qexp f q := by rwa [le_div_iff₀ hu]
  have h2 : k ≤ rne (q / (2 : ℚ) ^ qexp f q) := by
    have := rne_mono h1
    rwa [rne_intCast] at this
  unfold roundQ
  exact mul_le_mul_of_nonneg_right (by exact_mod_cast h2) hu.le

theorem roundQ_nonneg (f : Fmt) {q : ℚ} (h : 0 ≤ q) : 0 ≤ roundQ f q := by
  have := le_roundQ_of_le f (q := q) 0 (by simpa using h)
  simpa using this

theorem roundQ_nonpos (f : Fmt) {q : ℚ} (h : q ≤ 0) : roundQ f q ≤ 0 := by
  have := roundQ_le_of_le f (q := q) 0 (by simpa using h)
  simpa using this

/-- The working exponent `max (expo q) emin`. -/
theorem qexp_add (f : Fmt) (q : ℚ) : qexp f q + ((f.prec : Int) - 1) = max (expo q) f.emin := by
  unfold qexp; ring

theorem roundQ_le_zpow (f : Fmt) {q : ℚ} (hq : 0 < q) :
    roundQ f q ≤ (2 : ℚ) ^ (max (expo q) f.emin + 1) := by
  have hx := qexp_add f q
  have hlt : q < (2 : ℚ) ^ (max (expo q) f.emin + 1) := by
    calc q = |q| := (abs_of_pos hq).symm
      _ < (2 : ℚ) ^ (expo q + 1) := lt_zpow_expo_succ q
      _ ≤ (2 : ℚ) ^ (max (expo q) f.emin + 1) :=
        zpow_le_zpow_right₀ (by norm_num) (by have := le_max_left (expo q) f.emin; omega)
  have hsplit : (2 : ℚ) ^ (max (expo q) f.emin + 1)
      = ((2 ^ f.prec : Int) : ℚ) * (2 : ℚ) ^ qexp f q := by
    push_cast
    rw [← zpow_natCast, ← zpow_add₀ (by norm_num : (2 : ℚ) ≠ 0)]
    congr 1; omega
  rw [hsplit] at hlt ⊢
  exact roundQ_le_of_le f _ hlt.le

theorem zpow_le_roundQ (f : Fmt) (hp : 0 < f.prec) {q : ℚ} (hq : 0 < q)
    (he : f.emin ≤ expo q) : (2 : ℚ) ^ expo q ≤ roundQ f q := by
  have hx := qexp_add f q
  have hmax : max (expo q) f.emin = expo q := max_eq_left he
  have hle : (2 : ℚ) ^ expo q ≤ q := by
    calc (2 : ℚ) ^ expo q ≤ |q| := zpow_expo_le hq.ne'
      _ = q := abs_of_pos hq
  have hsplit : (2 : ℚ) ^ expo q = ((2 ^ (f.prec - 1) : Int) : ℚ) * (2 : ℚ) ^ qexp f q := by
    push_cast
    rw [← zpow_natCast, ← zpow_add₀ (by norm_num : (2 : ℚ) ≠ 0)]
    congr 1
    have : ((f.prec - 1 : Nat) : Int) = (f.prec : Int) - 1 := by omega
    omega
  rw [hsplit] at hle ⊢
  exact le_roundQ_of_le f _ hle

theorem roundQ_mono_pos (f : Fmt) (hp : 0 < f.prec) {a b : ℚ} (ha : 0 < a) (h : a ≤ b) :
    roundQ f a ≤ roundQ f b := by
  have hb : 0 < b := lt_of_lt_of_le ha h
  have he : expo a ≤ expo b :=
    expo_mono ha.ne' (by rwa [abs_of_pos ha, abs_of_pos hb])
  have hE : max (expo a) f.emin ≤ max (expo b) f.emin := max_le_max he le_rfl
  rcases eq_or_lt_of_le hE with heq | hlt
  · have hxe : qexp f a = qexp f b := by unfold qexp; rw [heq]
    have hu : (0 : ℚ) < (2 : ℚ) ^ qexp f b := by positivity
    unfold roundQ
    rw [hxe]
    apply mul_le_mul_of_nonneg_right _ hu.le
    exact_mod_cast rne_mono (div_le_div_of_nonneg_right h hu.le)
  · have hbe : f.emin ≤ expo b := by
      by_contra hcon
      have h1 : max (expo b) f.emin = f.emin := max_eq_right (by omega)
      have h2 := le_max_right (expo a) f.emin
      omega
    have hmax : max (expo b) f.emin = expo b := max_eq_left hbe
    calc roundQ f a ≤ (2 : ℚ) ^ (max (expo a) f.emin + 1) := roundQ_le_zpow f ha
      _ ≤ (2 : ℚ) ^ expo b := zpow_le_zpow_right₀ (by norm_num) (by omega)
      _ ≤ roundQ f b := zpow_le_roundQ f hp hb hbe

/-- Rounding to nearest is monotone. -/
theorem roundQ_mono (f : Fmt) (hp : 0 < f.prec) {a b : ℚ} (h : a ≤ b) :
    roundQ f a ≤ roundQ f b := by
  rcases lt_or_le 0 a with ha | ha
  · exact roundQ_mono_pos f hp ha h
  · rcases le_or_lt 0 b with hb | hb
    · exact le_trans (roundQ_nonpos f ha) (roundQ_nonneg f hb)
    · have := roundQ_mono_pos f hp (a := -b) (b := -a) (by linarith) (by linarith)
      rw [roundQ_neg, roundQ_neg] at this
      linarith

/-- A multiple of the unit in the last place is a fixed point of rounding. -/
theorem roundQ_of_eq_mul (f : Fmt) {q : ℚ} (k : Int) (h : q = k * (2 : ℚ) ^ qexp f q) :
    roundQ f q = q := by
  have h1 := roundQ_le_of_le f (q := q) k h.le
  have h2 := le_roundQ_of_le f (q := q) k h.ge
  rw [← h] at h1 h2
  exact le_antisymm h1 h2

/-- Numbers `m * 2 ^ j` with `|m| < 2 ^ prec` and `j` not below the exponent of the subnormals
are representable. -/
theorem roundQ_int_mul_zpow (f : Fmt) (m j : Int) (hm : |m| < 2 ^ f.prec)
    (hj : f.emin - ((f.prec : Int) - 1) ≤ j) :
    roundQ f ((m : ℚ) * (2 : ℚ) ^ j) = (m : ℚ) * (2 : ℚ) ^ j := by
  by_cases hm0 : m = 0
  · simp [hm0, roundQ_zero]
  have h2 : (2 : ℚ) ≠ 0 := by norm_num
  have hqpos : (0 : ℚ) < |(m : ℚ) * (2 : ℚ) ^ j| := by
    rw [abs_pos]; exact mul_ne_zero (by exact_mod_cast hm0) (by positivity)
  have hlt : |(m : ℚ) * (2 : ℚ) ^ j| < (2 : ℚ) ^ ((f.prec : Int) + j) := by
    rw [abs_mul, abs_of_pos (by positivity : (0 : ℚ) < (2 : ℚ) ^ j), zpow_add₀ h2]
    apply mul_lt_mul_of_pos_right _ (by positivity)
    rw [zpow_natCast]
    exact_mod_cast hm
  have he : expo ((m : ℚ) * (2 : ℚ) ^ j) < (f.prec : Int) + j := by
    rw [expo_eq_log]
    exact (Int.lt_zpow_iff_log_lt (b := 2) (by norm_num) hqpos).1 (by exact_mod_cast hlt)
  have hx : qexp f ((m : ℚ) * (2 : ℚ) ^ j) ≤ j := by
    unfold qexp
    have := max_le (by omega : expo ((m : ℚ) * (2 : ℚ) ^ j) ≤ j + ((f.prec : Int) - 1))
      (by omega : f.emin ≤ j + ((f.prec : Int) - 1))
    omega
  obtain ⟨d, hd⟩ := Int.eq_ofNat_of_zero_le (sub_nonneg.2 hx)
  apply roundQ_of_eq_mul f (m * 2 ^ d)
  push_cast
  rw [mul_assoc, ← zpow_natCast, ← zpow_add₀ h2, ← hd]
  congr 2; ring

/-- Integers of magnitude below `2 ^ prec` are representable. -/
theorem roundQ_intCast (f : Fmt) (m : Int) (hm : |m| < 2 ^ f.prec)
    (hj : f.emin - ((f.prec : Int) - 1) ≤ 0) : roundQ f (m : ℚ) = m := by
  have := roundQ_int_mul_zpow f m 0 hm hj
  simpa using this

/-- The error of rounding a number in the normal range is at most half a unit in the last
place, which is at most `2 ^ (-prec)` times its magnitude. -/
theorem abs_roundQ_sub_le (f : Fmt) {q : ℚ} (hq : q ≠ 0) (he : f.emin ≤ expo q) :
    |roundQ f q - q| ≤ |q| * (2 : ℚ) ^ (-(f.prec : Int)) := by
  have h2 : (2 : ℚ) ≠ 0 := by norm_num
  have hu : (0 : ℚ) < (2 : ℚ) ^ qexp f q := by positivity
  have hr := abs_rne_sub_le (q / (2 : ℚ) ^ qexp f q)
  have heq : roundQ f q - q
      = ((rne (q / (2 : ℚ) ^ qexp f q) : ℚ) - q / (2 : ℚ) ^ qexp f q) * (2 : ℚ) ^ qexp f q := by
    unfold roundQ
    field_simp
  have hx : qexp f q = expo q + (1 + -(f.prec : Int)) := by
    unfold qexp; rw [max_eq_left he]; ring
  rw [heq, abs_mul, abs_of_pos hu]
  calc |(rne (q / (2 : ℚ) ^ qexp f q) : ℚ) - q / (2 : ℚ) ^ qexp f q| * (2 : ℚ) ^ qexp f q
      ≤ 1 / 2 * (2 : ℚ) ^ qexp f q := mul_le_mul_of_nonneg_right hr hu.le
    _ = (2 : ℚ) ^ expo q * (2 : ℚ) ^ (-(f.prec : Int)) := by
        rw [hx, zpow_add₀ h2, zpow_add₀ h2]; simp; ring
    _ ≤ |q| * (2 : ℚ) ^ (-(f.prec : Int)) :=
        mul_le_mul_of_nonneg_right (zpow_expo_le hq) (by positivity)

theorem maxFinite_repr (f : Fmt) (he : f.emin ≤ f.emax) :
    roundQ f (maxFinite f) = maxFinite f := by
  have h : maxFinite f = ((2 ^ f.prec - 1 : Int) : ℚ) * (2 : ℚ) ^ (f.emax - ((f.prec : Int) - 1)) := by
    unfold maxFinite; push_cast; rfl
  rw [h]
  apply roundQ_int_mul_zpow
  · have h1 : (1 : Int) ≤ 2 ^ f.prec := one_le_pow₀ (by norm_num)
    rw [abs_of_nonneg (by omega)]
    omega
  · omega

/-- A result bounded in magnitude by the largest finite number does not overflow. -/
theorem round_eq_fin (f : Fmt) (hp : 0 < f.prec) (he : f.emin ≤ f.emax) {q : ℚ}
    (h : |q| ≤ maxFinite f) : FP.round f q = FP.fin (roundQ f q) := by
  have h1 : roundQ f q ≤ maxFinite f := by
    have := roundQ_mono f hp (le_trans (le_abs_self q) h)
    rwa [maxFinite_repr f he] at this
  have h2 : -maxFinite f ≤ roundQ f q := by
    have := roundQ_mono f hp (a := -maxFinite f) (b := q) (by linarith [neg_abs_le q])
    rwa [roundQ_neg, maxFinite_repr f he] at this
  unfold FP.round
  rw [if_neg]
  rw [not_lt, abs_le]
  exact ⟨h2, h1⟩

/-! ## Theorems: loops over lists with undefined behaviour -/

theorem mapM_option_cons {α β : Type} (g : α → Option β) (a : α) (l : List α) :
    (a :: l).mapM g = (g a).bind (fun b => (l.mapM g).bind (fun bs => some (b :: bs))) := by
  rw [List.mapM_cons]
  rfl

theorem mapM_option_nil {α β : Type} (g : α → Option β) : ([] : List α).mapM g = some [] :=
  rfl

/-- A loop all of whose iterations are defined is defined, and its results are the results of
the iterations in order. -/
theorem mapM_option_eq_map {α β : Type} (g : α → Option β) (h : α → β) (l : List α)
    (hl : ∀ a ∈ l, g a = some (h a)) : l.mapM g = some (l.map h) := by
  induction l with
  | nil => rfl
  | cons a l ih =>
    rw [mapM_option_cons, hl a (List.mem_cons_self a l),
      ih (fun b hb => hl b (List.mem_cons_of_mem a hb))]
    rfl

theorem mapM_option_exists {α β : Type} (g : α → Option β) (Q : β → Prop) (l : List α)
    (hl : ∀ a ∈ l, ∃ b, g a = some b ∧ Q b) :
    ∃ bs, l.mapM g = some bs ∧ bs.length = l.length ∧ ∀ b ∈ bs, Q b := by
  induction l with
  | nil => exact ⟨[], rfl, rfl, by simp⟩
  | cons a l ih =>
    obtain ⟨b, hb, hq⟩ := hl a (List.mem_cons_self a l)
    obtain ⟨bs, hbs, hlen, hall⟩ := ih (fun c hc => hl c (List.mem_cons_of_mem a hc))
    refine ⟨b :: bs, ?_, by simp [hlen], ?_⟩
    · rw [mapM_option_cons, hb, hbs]; rfl
    · intro c hc
      rcases List.mem_cons.1 hc with rfl | hc
      · exact hq
      · exact hall c hc

/-- A loop one of whose iterations is undefined is undefined. -/
theorem mapM_option_none {α β : Type} (g : α → Option β) (l : List α) (a : α) (ha : a ∈ l)
    (hg : g a = none) : l.mapM g = none := by
  induction l with
  | nil => cases ha
  | cons c l ih =>
    rw [mapM_option_cons]
    rcases List.mem_cons.1 ha with rfl | hc
    · rw [hg]; rfl
    · rw [ih hc]
      cases g c <;> rfl

theorem foldlM_option_range_succ {β : Type} (g : β → Nat → Option β) (b : β) (n : Nat) :
    (List.range (n + 1)).foldlM g b = ((List.range n).foldlM g b).bind (fun x => g x n) := by
  rw [List.range_succ, List.foldlM_append]
  cases hx : List.foldlM g b (List.range n) with
  | none => rfl
  | some x =>
    show (List.foldlM g x [n]) = g x n
    rw [List.foldlM_cons]
    cases g x n <;> rfl

/-- A counted loop that maintains an invariant indexed by the iteration number. -/
theorem foldlM_option_range_inv {β : Type} (g : β → Nat → Option β) (P : Nat → β → Prop)
    (b : β) (n : Nat) (h0 : P 0 b)
    (hstep : ∀ k x, k < n → P k x → ∃ y, g x k = some y ∧ P (k + 1) y) :
    ∃ y, (List.range n).foldlM g b = some y ∧ P n y := by
  induction n with
  | zero => exact ⟨b, rfl, h0⟩
  | succ n ih =>
    obtain ⟨x, hx, hp⟩ := ih (fun k x hk hP => hstep k x (by omega) hP)
    obtain ⟨y, hy, hq⟩ := hstep n x (by omega) hp
    refine ⟨y, ?_, hq⟩
    rw [foldlM_option_range_succ, hx]
    exact hy

/-! ## Theorems: floatMonoToS16 -/

theorem maxFinite_binary32 : maxFinite binary32 = 340282346638528859811704183484516925440 := by
  decide!

theorem maxFinite_binary64 : (2 : ℚ) ^ 64 ≤ maxFinite binary64 := by
  decide!

/-- Rounding to `float` keeps a value between two representable integer bounds. -/
theorem roundQ32_bounds {q : ℚ} (a b : Int) (ha : |a| < 2 ^ 24) (hb : |b| < 2 ^ 24)
    (h1 : (a : ℚ) ≤ q) (h2 : q ≤ (b : ℚ)) :
    (a : ℚ) ≤ roundQ binary32 q ∧ roundQ binary32 q ≤ (b : ℚ) := by
  have ra := roundQ_intCast binary32 a ha (by decide)
  have rb := roundQ_intCast binary32 b hb (by decide)
  have m1 := roundQ_mono binary32 (by decide) h1
  have m2 := roundQ_mono binary32 (by decide) h2
  rw [ra] at m1
  rw [rb] at m2
  exact ⟨m1, m2⟩

theorem toInt16_of_range {v : Int} (h1 : -32768 ≤ v) (h2 : v ≤ 32767) : toInt16 v = v := by
  unfold toInt16; omega

theorem clamp_fin (q : ℚ) :
    FP.stdMax (FP.fin (-1)) (FP.stdMin (FP.fin 1) (FP.fin q)) = FP.fin (max (-1) (min 1 q)) := by
  unfold FP.stdMin
  by_cases h1 : q < 1
  · simp only [FP.lt, decide_eq_true_eq, h1, if_true, FP.stdMax]
    rw [min_eq_right h1.le]
    by_cases h2 : -1 < q
    · simp [h2, max_eq_right h2.le]
    · simp [h2, max_eq_left (not_lt.1 h2)]
  · simp only [FP.lt, decide_eq_true_eq, h1, if_false, FP.stdMax]
    rw [min_eq_left (not_lt.1 h1)]
    norm_num

theorem truncQ_bounds {q : ℚ} (a b : Int) (ha : a ≤ 0) (hb : 0 ≤ b) (h1 : (a : ℚ) ≤ q)
    (h2 : q ≤ (b : ℚ)) : a ≤ FP.truncQ q ∧ FP.truncQ q ≤ b := by
  unfold FP.truncQ
  split_ifs with h
  · exact ⟨le_trans ha (Int.floor_nonneg.2 h), Int.floor_le_iff.2 (by linarith)⟩
  · have hq : q ≤ 0 := (not_le.1 h).le
    exact ⟨Int.le_ceil_iff.2 (by linarith), le_trans (Int.ceil_le.2 (by exact_mod_cast hq)) hb⟩

/-- The quantizer on a finite sample: the value converted to `int` lies between `-32768` and
`0` for a negative clamped sample and between `0` and `32767` otherwise. -/
theorem quantizeInt_fin (q : ℚ) :
    ∃ v : Int, quantizeInt (FP.fin q) = some v ∧ -32768 ≤ v ∧ v ≤ 32767 ∧
      (q < 0 → v ≤ 0) ∧ (0 ≤ q → 0 ≤ v) := by
  have hc1 : (-1 : ℚ) ≤ max (-1) (min 1 q) := le_max_left _ _
  have hc2 : max (-1) (min 1 q) ≤ (1 : ℚ) := max_le (by norm_num) (min_le_left _ _)
  unfold quantizeInt
  simp only [clamp_fin, FP.lt, FP.mul, decide_eq_true_eq]
  by_cases hneg : max (-1) (min 1 q) < 0
  · rw [if_pos hneg]
    have hb := roundQ32_bounds (q := max (-1) (min 1 q) * 32768) (-32768) 0 (by decide) (by decide)
      (by push_cast; linarith) (by push_cast; linarith)
    have hfin : FP.round binary32 (max (-1) (min 1 q) * 32768)
        = FP.fin (roundQ binary32 (max (-1) (min 1 q) * 32768)) := by
      apply round_eq_fin binary32 (by decide) (by decide)
      rw [maxFinite_binary32, abs_le]
      constructor <;> linarith
    have ht := truncQ_bounds (-32768) 0 (by decide) (by decide) hb.1 hb.2
    have hq : q < 0 := by
      by_contra hcon
      have : (0 : ℚ) ≤ max (-1) (min 1 q) := le_max_of_le_right (le_min (by norm_num) (not_lt.1 hcon))
      linarith
    refine ⟨FP.truncQ (roundQ binary32 (max (-1) (min 1 q) * 32768)), ?_, ht.1, by omega,
      fun _ => ht.2, fun h => absurd hq (not_lt.2 h)⟩
    rw [hfin]
    simp only [FP.toInt]
    rw [if_pos ⟨by omega, by omega⟩]
  · rw [if_neg hneg]
    have hnn : (0 : ℚ) ≤ max (-1) (min 1 q) := not_lt.1 hneg
    have hb := roundQ32_bounds (q := max (-1) (min 1 q) * 32767) 0 32767 (by decide) (by decide)
      (by push_cast; linarith) (by push_cast; linarith)
    have hfin : FP.round binary32 (max (-1) (min 1 q) * 32767)
        = FP.fin (roundQ binary32 (max (-1) (min 1 q) * 32767)) := by
      apply round_eq_fin binary32 (by decide) (by decide)
      rw [maxFinite_binary32, abs_le]
      constructor <;> linarith
    have ht := truncQ_bounds 0 32767 (by decide) (by decide) hb.1 hb.2
    have hq : 0 ≤ q := by
      by_contra hcon
      have h1 : min 1 q < 0 := lt_of_le_of_lt (min_le_right _ _) (not_le.1 hcon)
      have : max (-1) (min 1 q) < 0 := max_lt (by norm_num) h1
      linarith
    refine ⟨FP.truncQ (roundQ binary32 (max (-1) (min 1 q) * 32767)), ?_, by omega, ht.2,
      fun h => absurd hq (not_le.2 h), fun _ => ht.1⟩
    rw [hfin]
    simp only [FP.toInt]
    rw [if_pos ⟨by omega, by omega⟩]

theorem quantizeInt_of_one_le {q : ℚ} (h : 1 ≤ q) : quantizeInt (FP.fin q) = some 32767 := by
  have hc : max (-1) (min 1 q) = 1 := by rw [min_eq_left h]; norm_num
  have h1 : quantizeInt (FP.fin 1) = some 32767 := by decide!
  unfold quantizeInt at h1 ⊢
  rw [clamp_fin] at h1 ⊢
  rw [hc]
  rw [show max (-1 : ℚ) (min 1 1) = 1 by norm_num] at h1
  exact h1

theorem quantizeInt_of_le_neg_one {q : ℚ} (h : q ≤ -1) :
    quantizeInt (FP.fin q) = some (-32768) := by
  have hc : max (-1) (min 1 q) = -1 := by
    rw [min_eq_right (by linarith), max_eq_left h]
  have h1 : quantizeInt (FP.fin (-1)) = some (-32768) := by decide!
  unfold quantizeInt at h1 ⊢
  rw [clamp_fin] at h1 ⊢
  rw [hc]
  rw [show max (-1 : ℚ) (min 1 (-1)) = -1 by norm_num] at h1
  exact h1

/-- The quantizer is total and stays in the range of `int16_t`. -/
theorem quantizeInt_range (s : FP) :
    ∃ v : Int, quantizeInt s = some v ∧ -32768 ≤ v ∧ v ≤ 32767 := by
  cases s with
  | fin q =>
    obtain ⟨v, h, h1, h2, _⟩ := quantizeInt_fin q
    exact ⟨v, h, h1, h2⟩
  | inf s =>
    cases s
    · exact ⟨32767, by decide!, by decide, by decide⟩
    · exact ⟨-32768, by decide!, by decide, by decide⟩
  | nan => exact ⟨32767, by decide!, by decide, by decide⟩

theorem floatMonoToS16_singleton {s : FP} {v : Int} (h : quantizeInt s = some v) :
    floatMonoToS16 [s] = some [toInt16 v] := by
  unfold floatMonoToS16
  rw [mapM_option_cons, h]
  rfl

/-- Claim C5 (quantizer range).  For every input sample `x` (finite of any magnitude, infinite or
NaN) the value that `floatMonoToS16` converts to `int16_t` lies in `[-32768, 32767]`, so the
conversion does not wrap and `floatMonoToS16 [x]` is that value; the sample `0.0` quantizes
to `0`. -/
theorem C5_quantizer_range :
    (∀ x : FP, ∃ v : Int, quantizeInt x = some v ∧ -32768 ≤ v ∧ v ≤ 32767 ∧
      toInt16 v = v ∧ floatMonoToS16 [x] = some [v]) ∧
    floatMonoToS16 [FP.fin 0] = some [0] := by
  constructor
  · intro x
    obtain ⟨v, h, h1, h2⟩ := quantizeInt_range x
    refine ⟨v, h, h1, h2, toInt16_of_range h1 h2, ?_⟩
    rw [floatMonoToS16_singleton h, toInt16_of_range h1 h2]
  · have h : quantizeInt (FP.fin 0) = some 0 := by decide!
    rw [floatMonoToS16_singleton h]
    rfl

/-- Claim C6 (quantizer boundary).  `floatMonoToS16` maps the sample `1.0` to `32767` and the
sample `-1.0` to `-32768`; because of the clamp every sample `x ≥ 1.0` (also `+∞`) maps to
`32767` and every sample `x ≤ -1.0` (also `-∞`) to `-32768`. -/
theorem C6_quantizer_boundary :
    floatMonoToS16 [FP.fin 1] = some [32767] ∧
    floatMonoToS16 [FP.fin (-1)] = some [-32768] ∧
    (∀ q : ℚ, 1 ≤ q → floatMonoToS16 [FP.fin q] = some [32767]) ∧
    (∀ q : ℚ, q ≤ -1 → floatMonoToS16 [FP.fin q] = some [-32768]) ∧
    floatMonoToS16 [FP.inf false] = some [32767] ∧
    floatMonoToS16 [FP.inf true] = some [-32768] := by
  have hp : ∀ q : ℚ, 1 ≤ q → floatMonoToS16 [FP.fin q] = some [32767] := by
    intro q h
    rw [floatMonoToS16_singleton (quantizeInt_of_one_le h)]
    rfl
  have hn : ∀ q : ℚ, q ≤ -1 → floatMonoToS16 [FP.fin q] = some [-32768] := by
    intro q h
    rw [floatMonoToS16_singleton (quantizeInt_of_le_neg_one h)]
    rfl
  refine ⟨hp 1 le_rfl, hn (-1) le_rfl, hp, hn, ?_, ?_⟩
  · rw [floatMonoToS16_singleton (show quantizeInt (FP.inf false) = some 32767 by decide!)]
    rfl
  · rw [floatMonoToS16_singleton (show quantizeInt (FP.inf true) = some (-32768) by decide!)]
    rfl

/-- Witness of C6: the samples `2.0` and `-3.5` are beyond the clamp limits. -/
theorem C6_quantizer_boundary_witness :
    (1 : ℚ) ≤ 2 ∧ floatMonoToS16 [FP.fin 2] = some [32767] ∧
    (-7 / 2 : ℚ) ≤ -1 ∧ floatMonoToS16 [FP.fin (-7 / 2)] = some [-32768] :=
  ⟨by norm_num, C6_quantizer_boundary.2.2.1 2 (by norm_num), by norm_num,
    C6_quantizer_boundary.2.2.2.1 (-7 / 2) (by norm_num)⟩

/-! ## Theorems: square root -/

theorem isqrtLoop_spec (k : Nat) : ∀ n r : Nat, r * r ≤ n → n < (r + 2 ^ k) * (r + 2 ^ k) →
    isqrtLoop k n r * isqrtLoop k n r ≤ n ∧
      n < (isqrtLoop k n r + 1) * (isqrtLoop k n r + 1) := by
  induction k with
  | zero => intro n r h1 h2; simpa [isqrtLoop] using ⟨h1, h2⟩
  | succ k ih =>
    intro n r h1 h2
    simp only [isqrtLoop]
    split_ifs with h
    · apply ih n (r + 2 ^ k) h
      have : r + 2 ^ k + 2 ^ k = r + 2 ^ (k + 1) := by rw [pow_succ]; ring
      rw [this]; exact h2
    · exact ih n r h1 (not_le.1 h)

theorem isqrt_eq_sqrt (n : Nat) : isqrt n = Nat.sqrt n := by
  rw [Nat.eq_sqrt]
  unfold isqrt
  apply isqrtLoop_spec _ n 0 (Nat.zero_le n)
  rw [log2Loop_eq n n le_rfl, Nat.zero_add, ← pow_two, ← pow_mul]
  refine lt_of_lt_of_le (Nat.lt_pow_succ_log_self (by norm_num : 1 < 2) n)
    (Nat.pow_le_pow_right (by norm_num) ?_)
  omega

theorem sqrtMant_eq (t : ℚ) : sqrtMant t =
    if t < (Nat.sqrt ⌊t⌋₊ : ℚ) * Nat.sqrt ⌊t⌋₊ + Nat.sqrt ⌊t⌋₊ + 1 / 4 then Nat.sqrt ⌊t⌋₊
    else if (Nat.sqrt ⌊t⌋₊ : ℚ) * Nat.sqrt ⌊t⌋₊ + Nat.sqrt ⌊t⌋₊ + 1 / 4 < t
      then Nat.sqrt ⌊t⌋₊ + 1
    else if Nat.sqrt ⌊t⌋₊ % 2 = 0 then Nat.sqrt ⌊t⌋₊ else Nat.sqrt ⌊t⌋₊ + 1 := by
  simp only [sqrtMant, isqrt_eq_sqrt]

theorem sqrt_le_sqrtMant (t : ℚ) : Nat.sqrt ⌊t⌋₊ ≤ sqrtMant t := by
  rw [sqrtMant_eq]; split_ifs <;> omega

theorem sqrtMant_le_succ (t : ℚ) : sqrtMant t ≤ Nat.sqrt ⌊t⌋₊ + 1 := by
  rw [sqrtMant_eq]; split_ifs <;> omega

theorem sqrtMant_mono {a b : ℚ} (h : a ≤ b) : sqrtMant a ≤ sqrtMant b := by
  have hf : Nat.sqrt ⌊a⌋₊ ≤ Nat.sqrt ⌊b⌋₊ := Nat.sqrt_le_sqrt (Nat.floor_mono h)
  rcases lt_or_eq_of_le hf with hlt | heq
  · have h1 := sqrtMant_le_succ a
    have h2 := sqrt_le_sqrtMant b
    omega
  · rw [sqrtMant_eq, sqrtMant_eq, heq]
    split_ifs <;> first | omega | (exfalso; linarith)

theorem sqrtMant_le_of_lt {t : ℚ} {P : Nat} (h : t < ((2 ^ P : Nat) : ℚ) * ((2 ^ P : Nat) : ℚ)) :
    sqrtMant t ≤ 2 ^ P := by
  have h1 := sqrtMant_le_succ t
  have h2 : Nat.sqrt ⌊t⌋₊ < 2 ^ P := by
    rw [Nat.sqrt_lt]
    rcases le_or_lt t 0 with h0 | h0
    · rw [Nat.floor_eq_zero.2 (lt_of_le_of_lt h0 one_pos)]
      positivity
    · have : (⌊t⌋₊ : ℚ) < ((2 ^ P * 2 ^ P : Nat) : ℚ) := by
        push_cast
        exact lt_of_le_of_lt (Nat.floor_le h0.le) (by exact_mod_cast h)
      exact_mod_cast this
  omega

theorem le_sqrtMant_of_le {t : ℚ} {P : Nat} (h : ((2 ^ P : Nat) : ℚ) * ((2 ^ P : Nat) : ℚ) ≤ t) :
    2 ^ P ≤ sqrtMant t := by
  refine le_trans ?_ (sqrt_le_sqrtMant t)
  rw [Nat.le_sqrt]
  apply Nat.le_floor
  exact_mod_cast h

theorem sqrtQ_nonneg (f : Fmt) (q : ℚ) : 0 ≤ sqrtQ f q := by
  unfold sqrtQ; positivity

theorem sqrtQ_zero (f : Fmt) : sqrtQ f 0 = 0 := by
  have : sqrtMant 0 = 0 := by rw [sqrtMant_eq]; norm_num
  simp [sqrtQ, this]

theorem expo_half_bounds {q : ℚ} (hq : 0 < q) :
    (2 : ℚ) ^ (2 * (expo q / 2)) ≤ q ∧ q < (2 : ℚ) ^ (2 * (expo q / 2) + 2) := by
  have h1 := zpow_expo_le hq.ne'
  have h2 := lt_zpow_expo_succ q
  rw [abs_of_pos hq] at h1 h2
  exact ⟨le_trans (zpow_le_zpow_right₀ (by norm_num) (by omega)) h1,
    lt_of_lt_of_le h2 (zpow_le_zpow_right₀ (by norm_num) (by omega))⟩

theorem sqrtQ_le_zpow (f : Fmt) {q : ℚ} (hq : 0 < q) :
    sqrtQ f q ≤ (2 : ℚ) ^ (max (expo q / 2) f.emin + 1) := by
  have h2 : (2 : ℚ) ≠ 0 := by norm_num
  obtain ⟨-, hlt⟩ := expo_half_bounds hq
  have hX := le_max_left (expo q / 2) f.emin
  have hm : sqrtMant (q / (2 : ℚ) ^ (2 * (max (expo q / 2) f.emin - ((f.prec : Int) - 1))))
      ≤ 2 ^ f.prec := by
    apply sqrtMant_le_of_lt
    rw [div_lt_iff₀ (by positivity)]
    push_cast
    rw [← zpow_natCast, ← zpow_add₀ h2, ← zpow_add₀ h2]
    exact lt_of_lt_of_le hlt (zpow_le_zpow_right₀ (by norm_num) (by omega))
  unfold sqrtQ
  calc (sqrtMant (q / (2 : ℚ) ^ (2 * (max (expo q / 2) f.emin - ((f.prec : Int) - 1)))) : ℚ)
        * (2 : ℚ) ^ (max (expo q / 2) f.emin - ((f.prec : Int) - 1))
      ≤ ((2 ^ f.prec : Nat) : ℚ) * (2 : ℚ) ^ (max (expo q / 2) f.emin - ((f.prec : Int) - 1)) :=
        mul_le_mul_of_nonneg_right (by exact_mod_cast hm) (by positivity)
    _ = (2 : ℚ) ^ (max (expo q / 2) f.emin + 1) := by
        push_cast
        rw [← zpow_natCast, ← zpow_add₀ h2]
        congr 1; omega

theorem zpow_le_sqrtQ (f : Fmt) (hp : 0 < f.prec) {q : ℚ} (hq : 0 < q)
    (he : f.emin ≤ expo q / 2) : (2 : ℚ) ^ (expo q / 2) ≤ sqrtQ f q := by
  have h2 : (2 : ℚ) ≠ 0 := by norm_num
  obtain ⟨hle, -⟩ := expo_half_bounds hq
  have hmax : max (expo q / 2) f.emin = expo q / 2 := max_eq_left he
  have hcast : ((f.prec - 1 : Nat) : Int) = (f.prec : Int) - 1 := by omega
  have hm : 2 ^ (f.prec - 1)
      ≤ sqrtMant (q / (2 : ℚ) ^ (2 * (max (expo q / 2) f.emin - ((f.prec : Int) - 1)))) := by
    apply le_sqrtMant_of_le
    rw [le_div_iff₀ (by positivity)]
    push_cast
    rw [← zpow_natCast, ← zpow_add₀ h2, ← zpow_add₀ h2]
    exact le_trans (zpow_le_zpow_right₀ (by norm_num) (by omega)) hle
  unfold sqrtQ
  calc (2 : ℚ) ^ (expo q / 2)
      = ((2 ^ (f.prec - 1) : Nat) : ℚ)
          * (2 : ℚ) ^ (max (expo q / 2) f.emin - ((f.prec : Int) - 1)) := by
        push_cast
        rw [← zpow_natCast, ← zpow_add₀ h2]
        congr 1; omega
    _ ≤ (sqrtMant (q / (2 : ℚ) ^ (2 * (max (expo q / 2) f.emin - ((f.prec : Int) - 1)))) : ℚ)
          * (2 : ℚ) ^ (max (expo q / 2) f.emin - ((f.prec : Int) - 1)) :=
        mul_le_mul_of_nonneg_right (by exact_mod_cast hm) (by positivity)

/-- The rounded square root is monotone. -/
theorem sqrtQ_mono (f : Fmt) (hp : 0 < f.prec) {a b : ℚ} (ha : 0 ≤ a) (h : a ≤ b) :
    sqrtQ f a ≤ sqrtQ f b := by
  rcases eq_or_lt_of_le ha with rfl | ha
  · rw [sqrtQ_zero]; exact sqrtQ_nonneg f b
  have hb : 0 < b := lt_of_lt_of_le ha h
  have he : expo a ≤ expo b := expo_mono ha.ne' (by rwa [abs_of_pos ha, abs_of_pos hb])
  have he2 : expo a / 2 ≤ expo b / 2 := by omega
  have hE : max (expo a / 2) f.emin ≤ max (expo b / 2) f.emin := max_le_max he2 le_rfl
  rcases eq_or_lt_of_le hE with heq | hlt
  · unfold sqrtQ
    rw [heq]
    apply mul_le_mul_of_nonneg_right _ (by positivity)
    exact_mod_cast sqrtMant_mono (div_le_div_of_nonneg_right h (by positivity))
  · have hbe : f.emin ≤ expo b / 2 := by
      by_contra hcon
      have h1 : max (expo b / 2) f.emin = f.emin := max_eq_right (by omega)
      have h2 := le_max_right (expo a / 2) f.emin
      omega
    have hmax : max (expo b / 2) f.emin = expo b / 2 := max_eq_left hbe
    calc sqrtQ f a ≤ (2 : ℚ) ^ (max (expo a / 2) f.emin + 1) := sqrtQ_le_zpow f ha
      _ ≤ (2 : ℚ) ^ (expo b / 2) := zpow_le_zpow_right₀ (by norm_num) (by omega)
      _ ≤ sqrtQ f b := zpow_le_sqrtQ f hp hb hbe

/-! ## Theorems: silence gate -/

/-- Natural numbers up to `2 ^ 24` are `float`s. -/
theorem roundQ32_nat (m : Nat) (h : m ≤ 2 ^ 24) : roundQ binary32 (m : ℚ) = m := by
  rcases eq_or_lt_of_le h with rfl | hlt
  · have := roundQ_int_mul_zpow binary32 1 24 (by decide) (by decide)
    norm_num at this ⊢
    exact this
  · have := roundQ_intCast binary32 (m : Int)
      (by rw [abs_of_nonneg (Int.natCast_nonneg m)]; exact_mod_cast hlt) (by decide)
    exact_mod_cast this

/-- Integers up to `2 ^ 24` in magnitude are `float`s. -/
theorem roundQ32_int (m : Int) (h : |m| ≤ 16777216) : roundQ binary32 (m : ℚ) = m := by
  rcases le_total 0 m with h0 | h0
  · obtain ⟨k, rfl⟩ := Int.eq_ofNat_of_zero_le h0
    rw [abs_of_nonneg h0] at h
    have := roundQ32_nat k (by exact_mod_cast h)
    exact_mod_cast this
  · obtain ⟨k, hk⟩ := Int.eq_ofNat_of_zero_le (neg_nonneg.2 h0)
    rw [abs_of_nonpos h0, hk] at h
    have := roundQ32_nat k (by exact_mod_cast h)
    have hm : (m : ℚ) = -(k : ℚ) := by
      have : m = -(k : Int) := by omega
      rw [this]; push_cast; rfl
    rw [hm, roundQ_neg, this]

theorem round32_fin {q : ℚ} (h : |q| ≤ 2 ^ 64) : FP.round binary32 q = FP.fin (roundQ binary32 q) :=
  round_eq_fin binary32 (by decide) (by decide) (le_trans h (by rw [maxFinite_binary32]; norm_num))

theorem ofInt32_int16 {v : Int} (h1 : -32768 ≤ v) (h2 : v ≤ 32767) :
    FP.ofInt binary32 v = FP.fin v := by
  unfold FP.ofInt
  have hv : |(v : ℚ)| ≤ 2 ^ 15 := by
    rw [abs_le]; constructor <;> [exact_mod_cast (by omega : -(2 ^ 15 : Int) ≤ v);
      exact_mod_cast (by omega : v ≤ (2 ^ 15 : Int))]
  rw [round32_fin (le_trans hv (by norm_num)), roundQ32_int v (by rw [abs_le]; constructor <;> omega)]

/-- The square `float(v) * float(v)` of a sample: a finite non-negative number, exact when the
square is at most `16777216` and at least `16777216` otherwise. -/
theorem gate_square {v : Int} (h1 : -32768 ≤ v) (h2 : v ≤ 32767) :
    ∃ T : ℚ, FP.mul binary32 (FP.ofInt binary32 v) (FP.ofInt binary32 v) = FP.fin T ∧
      0 ≤ T ∧ ((min (v * v) 16777216 : Int) : ℚ) ≤ T ∧ (v * v ≤ 16777216 → T = ((v * v : Int) : ℚ)) := by
  have hsq : (0 : Int) ≤ v * v := mul_self_nonneg v
  have hsq2 : v * v ≤ 2 ^ 30 := by nlinarith
  have habs : |(v : ℚ) * v| ≤ 2 ^ 64 := by
    rw [abs_of_nonneg (by exact_mod_cast hsq)]
    have : ((v * v : Int) : ℚ) ≤ ((2 ^ 30 : Int) : ℚ) := by exact_mod_cast hsq2
    push_cast at this
    linarith
  refine ⟨roundQ binary32 ((v : ℚ) * v), ?_, roundQ_nonneg binary32 (by exact_mod_cast hsq), ?_, ?_⟩
  · rw [ofInt32_int16 h1 h2]
    simp only [FP.mul, round32_fin habs]
  · have hmin : |min (v * v) (16777216 : Int)| ≤ 16777216 := by
      rw [abs_of_nonneg (le_min hsq (by norm_num))]; exact min_le_right _ _
    have := roundQ_mono binary32 (by decide)
      (a := ((min (v * v) 16777216 : Int) : ℚ)) (b := (v : ℚ) * v)
      (by exact_mod_cast min_le_left (v * v) (16777216 : Int))
    rwa [roundQ32_int _ hmin] at this
  · intro hle
    have := roundQ32_int (v * v) (by rw [abs_of_nonneg hsq]; exact hle)
    push_cast at this ⊢
    exact this

/-- One step of the accumulation: when the exact sum stays within `16777216` the `float` sum is
exact, and in every case it is at least the exact sum capped at `16777216`. -/
theorem gateStep_inv {acc : FP} {E v : Int} (hE : 0 ≤ E) (h1 : -32768 ≤ v) (h2 : v ≤ 32767)
    (hex : E ≤ 16777216 → acc = FP.fin E) (hge : acc.GeQ ((min E 16777216 : Int) : ℚ)) :
    (E + v * v ≤ 16777216 → gateStep acc v = FP.fin ((E + v * v : Int) : ℚ)) ∧
      (gateStep acc v).GeQ ((min (E + v * v) 16777216 : Int) : ℚ) := by
  obtain ⟨T, hT, hT0, hTmin, hTex⟩ := gate_square h1 h2
  have hsq : (0 : Int) ≤ v * v := mul_self_nonneg v
  have hM0 : (0 : Int) ≤ min (E + v * v) 16777216 := le_min (by omega) (by norm_num)
  have hMabs : |min (E + v * v) (16777216 : Int)| ≤ 16777216 := by
    rw [abs_of_nonneg hM0]; exact min_le_right _ _
  unfold gateStep
  rw [hT]
  constructor
  · intro hle
    rw [hex (by omega), hTex (by omega)]
    simp only [FP.add]
    have hsum : ((E : Int) : ℚ) + ((v * v : Int) : ℚ) = ((E + v * v : Int) : ℚ) := by push_cast; ring
    rw [hsum, round32_fin, roundQ32_int _ (by rw [abs_of_nonneg (by omega)]; exact hle)]
    rw [abs_of_nonneg (by exact_mod_cast (by omega : (0 : Int) ≤ E + v * v))]
    have : ((E + v * v : Int) : ℚ) ≤ ((16777216 : Int) : ℚ) := by exact_mod_cast hle
    push_cast at this ⊢
    linarith
  · rcases hge with rfl | ⟨A, rfl, hA⟩
    · left; rfl
    · have hA0 : (0 : ℚ) ≤ A := le_trans (by exact_mod_cast le_min hE (by norm_num)) hA
      have hsum : ((min (E + v * v) 16777216 : Int) : ℚ) ≤ A + T := by
        have hm : min (E + v * v) (16777216 : Int) ≤ min E 16777216 + min (v * v) 16777216 := by
          rcases le_total E 16777216 with ha | ha <;> rcases le_total (v * v) 16777216 with hb | hb
          · rw [min_eq_left ha, min_eq_left hb]; exact min_le_left _ _
          · rw [min_eq_left ha, min_eq_right hb]
            exact le_trans (min_le_right _ _) (by omega)
          · rw [min_eq_right ha, min_eq_left hb]
            exact le_trans (min_le_right _ _) (by omega)
          · rw [min_eq_right ha, min_eq_right hb]
            exact le_trans (min_le_right _ _) (by norm_num)
        have hm' : ((min (E + v * v) 16777216 : Int) : ℚ)
            ≤ ((min E 16777216 : Int) : ℚ) + ((min (v * v) 16777216 : Int) : ℚ) := by
          exact_mod_cast hm
        linarith
      have hr := roundQ_mono binary32 (by decide) hsum
      rw [roundQ32_int _ hMabs] at hr
      simp only [FP.add, FP.round]
      split_ifs with hov
      · left
        have : ¬ (A + T < 0) := not_lt.2 (add_nonneg hA0 hT0)
        simp [this]
      · right
        exact ⟨_, rfl, hr⟩

theorem sumSquares_nonneg (s : List Int) : 0 ≤ sumSquares s := by
  induction s with
  | nil => simp [sumSquares]
  | cons v s ih =>
    have : sumSquares (v :: s) = v * v + sumSquares s := by simp [sumSquares]
    rw [this]
    exact add_nonneg (mul_self_nonneg v) ih

theorem gateFold_inv (s : List Int) : ∀ (acc : FP) (E : Int), 0 ≤ E →
    (∀ v ∈ s, -32768 ≤ v ∧ v ≤ 32767) →
    (E ≤ 16777216 → acc = FP.fin E) → acc.GeQ ((min E 16777216 : Int) : ℚ) →
    (E + sumSquares s ≤ 16777216 → s.foldl gateStep acc = FP.fin ((E + sumSquares s : Int) : ℚ)) ∧
      (s.foldl gateStep acc).GeQ ((min (E + sumSquares s) 16777216 : Int) : ℚ) := by
  induction s with
  | nil =>
    intro acc E _ _ hex hge
    have h0 : sumSquares [] = 0 := rfl
    rw [h0, add_zero, List.foldl_nil]
    exact ⟨hex, hge⟩
  | cons v s ih =>
    intro acc E hE h16 hex hge
    obtain ⟨hv1, hv2⟩ := h16 v (List.mem_cons_self v s)
    obtain ⟨s1, s2⟩ := gateStep_inv hE hv1 hv2 hex hge
    have hcons : sumSquares (v :: s) = v * v + sumSquares s := by simp [sumSquares]
    have := ih (gateStep acc v) (E + v * v) (add_nonneg hE (mul_self_nonneg v))
      (fun w hw => h16 w (List.mem_cons_of_mem v hw)) s1 s2
    rw [hcons, List.foldl_cons, ← add_assoc]
    exact this

/-- The accumulated `float` sum of squares of a packet of `int16_t` samples: exact when the
exact sum is at most `16777216`, and never below the exact sum capped at `16777216`. -/
theorem gateSum_spec (s : List Int) (h16 : ∀ v ∈ s, -32768 ≤ v ∧ v ≤ 32767) :
    (sumSquares s ≤ 16777216 → gateSum s = FP.fin ((sumSquares s : Int) : ℚ)) ∧
      (gateSum s).GeQ ((min (sumSquares s) 16777216 : Int) : ℚ) := by
  have := gateFold_inv s (FP.fin 0) 0 le_rfl h16 (fun _ => by simp) (Or.inr ⟨0, rfl, by simp⟩)
  rw [zero_add] at this
  exact this

theorem rms_lt_of_le {q : ℚ} (h0 : 0 ≤ q) (h1 : q ≤ 62500 - 1 / 256) :
    FP.lt (FP.sqrt binary32 (FP.fin q)) (FP.fin 250) = true := by
  have hval : sqrtQ binary32 (62500 - 1 / 256) = 250 - 1 / 65536 := by decide!
  have hm := sqrtQ_mono binary32 (by decide) h0 h1
  rw [hval] at hm
  simp only [FP.sqrt, if_neg (not_lt.2 h0), FP.lt, decide_eq_true_eq]
  linarith

theorem rms_not_lt_of_ge {y : FP} (h : y.GeQ 62500) :
    FP.lt (FP.sqrt binary32 y) (FP.fin 250) = false := by
  rcases h with rfl | ⟨q, rfl, hq⟩
  · rfl
  · have hval : sqrtQ binary32 62500 = 250 := by decide!
    have hm := sqrtQ_mono binary32 (by decide) (by norm_num : (0 : ℚ) ≤ 62500) hq
    rw [hval] at hm
    have h0 : ¬ q < 0 := not_lt.2 (by linarith)
    simp only [FP.sqrt, if_neg h0, FP.lt, decide_eq_false_iff_not, not_lt]
    exact hm

/-- The quotient `rms / float(size)` is below `62500` by at least one unit in the last place
when it is the rounding of a number in `[0, 62500 - 1/268]`. -/
theorem round32_quot_lt {q : ℚ} (h0 : 0 ≤ q) (h1 : q ≤ 62500 - 1 / 268) :
    FP.round binary32 q = FP.fin (roundQ binary32 q) ∧ 0 ≤ roundQ binary32 q ∧
      roundQ binary32 q ≤ 62500 - 1 / 256 := by
  have hval : roundQ binary32 (62500 - 1 / 268) = 62500 - 1 / 256 := by decide!
  have hm := roundQ_mono binary32 (by decide) h1
  rw [hval] at hm
  refine ⟨round32_fin ?_, roundQ_nonneg binary32 h0, hm⟩
  rw [abs_of_nonneg h0]
  linarith

/-- The quotient of a sum that is `+∞` or at least `62500 * n` by `n` is `+∞` or at least
`62500`. -/
theorem div32_geQ {y : FP} {n : ℚ} (hn : 0 < n) (h : y.GeQ (62500 * n)) :
    (FP.div binary32 y (FP.fin n)).GeQ 62500 := by
  rcases h with rfl | ⟨A, rfl, hA⟩
  · left
    have : ¬ n < 0 := not_lt.2 hn.le
    simp [FP.div, this]
  · have hq : (62500 : ℚ) ≤ A / n := by rw [le_div_iff₀ hn]; exact hA
    have hr := roundQ_mono binary32 (by decide) hq
    have h625 : roundQ binary32 62500 = 62500 := by
      have := roundQ32_nat 62500 (by norm_num)
      exact_mod_cast this
    rw [h625] at hr
    simp only [FP.div, if_neg hn.ne', FP.round]
    split_ifs with hov
    · left
      have : ¬ A / n < 0 := not_lt.2 (by linarith)
      simp [this]
    · right
      exact ⟨_, rfl, hr⟩

/-- The conversion `float(s16.size())`: exact up to `2 ^ 24`; beyond 268 it is `+∞` or a
finite number that is at least `269`. -/
theorem ofNat32_spec (n : Nat) :
    (n ≤ 16777216 → FP.ofNat binary32 n = FP.fin n) ∧
      (269 ≤ n → (FP.ofNat binary32 n).GeQ 269) := by
  constructor
  · intro h
    unfold FP.ofNat
    have hn : (n : ℚ) ≤ 16777216 := by exact_mod_cast h
    rw [round32_fin (by rw [abs_of_nonneg (Nat.cast_nonneg n)]; linarith),
      roundQ32_nat n (by norm_num; exact h)]
  · intro h
    have hq : (269 : ℚ) ≤ (n : ℚ) := by exact_mod_cast h
    have hr := roundQ_mono binary32 (by decide) hq
    have h269 : roundQ binary32 269 = 269 := by
      have := roundQ32_nat 269 (by norm_num)
      exact_mod_cast this
    rw [h269] at hr
    unfold FP.ofNat FP.round
    split_ifs with hov
    · left
      have : ¬ (n : ℚ) < 0 := not_lt.2 (Nat.cast_nonneg n)
      simp [this]
    · right
      exact ⟨_, rfl, hr⟩

theorem gateSuppress_eq {s : List Int} (hne : s ≠ []) :
    gateSuppress s = FP.lt (FP.sqrt binary32
      (FP.div binary32 (gateSum s) (FP.ofNat binary32 s.length))) (FP.fin 250) := by
  cases s with
  | nil => exact absurd rfl hne
  | cons v s => simp [gateSuppress, gateRms]

/-- The decision of the gate on a packet of `int16_t` samples whose exact sum of squares is at
most `2 ^ 24` or whose length is at most 268. -/
theorem gate_decision (s : List Int) (hne : s ≠ []) (h16 : ∀ v ∈ s, -32768 ≤ v ∧ v ≤ 32767)
    (hdom : s.length ≤ 268 ∨ sumSquares s ≤ 16777216) :
    gateSuppress s = true ↔ sumSquares s < 62500 * s.length := by
  obtain ⟨hex, hge⟩ := gateSum_spec s h16
  have hE0 := sumSquares_nonneg s
  have hlen : 0 < s.length := List.length_pos.2 hne
  have hnq : (0 : ℚ) < (s.length : ℚ) := by exact_mod_cast hlen
  obtain ⟨hof1, hof2⟩ := ofNat32_spec s.length
  rw [gateSuppress_eq hne]
  by_cases hE : sumSquares s ≤ 16777216
  · -- the accumulated sum is exact
    rw [hex hE]
    have hEq0 : (0 : ℚ) ≤ ((sumSquares s : Int) : ℚ) := by exact_mod_cast hE0
    have hEq1 : ((sumSquares s : Int) : ℚ) ≤ 16777216 := by exact_mod_cast hE
    by_cases hn : s.length ≤ 268
    · rw [hof1 (by omega)]
      have hnq2 : (s.length : ℚ) ≤ 268 := by exact_mod_cast hn
      simp only [FP.div, if_neg hnq.ne']
      by_cases hlt : sumSquares s < 62500 * s.length
      · have hq : ((sumSquares s : Int) : ℚ) / (s.length : ℚ) ≤ 62500 - 1 / 268 := by
          rw [div_le_iff₀ hnq]
          have h1 : ((sumSquares s : Int) : ℚ) ≤ 62500 * (s.length : ℚ) - 1 := by
            have : sumSquares s ≤ 62500 * s.length - 1 := by omega
            exact_mod_cast this
          nlinarith
        obtain ⟨hfin, hr0, hr1⟩ := round32_quot_lt (div_nonneg hEq0 hnq.le) hq
        rw [hfin, rms_lt_of_le hr0 hr1]
        simp [hlt]
      · have hge' : (FP.fin ((sumSquares s : Int) : ℚ)).GeQ (62500 * (s.length : ℚ)) :=
          Or.inr ⟨_, rfl, by exact_mod_cast not_lt.1 hlt⟩
        have := rms_not_lt_of_ge (div32_geQ hnq hge')
        simp only [FP.div, if_neg hnq.ne'] at this
        rw [this]
        simp [hlt]
    · -- more than 268 samples: the quotient is far below the threshold
      have hn' : 269 ≤ s.length := by omega
      have hlt : sumSquares s < 62500 * s.length := by omega
      have hsup : FP.lt (FP.sqrt binary32 (FP.div binary32 (FP.fin ((sumSquares s : Int) : ℚ))
          (FP.ofNat binary32 s.length))) (FP.fin 250) = true := by
        rcases hof2 hn' with hinf | ⟨N, hN, hN269⟩
        · rw [hinf]
          exact rms_lt_of_le le_rfl (by norm_num)
        · rw [hN]
          have hNpos : (0 : ℚ) < N := by linarith
          simp only [FP.div, if_neg hNpos.ne']
          have hq : ((sumSquares s : Int) : ℚ) / N ≤ 62500 - 1 / 268 := by
            rw [div_le_iff₀ hNpos]
            nlinarith
          obtain ⟨hfin, hr0, hr1⟩ := round32_quot_lt (div_nonneg hEq0 hNpos.le) hq
          rw [hfin]
          exact rms_lt_of_le hr0 hr1
      rw [hsup]
      simp [hlt]
  · -- the exact sum exceeds `2 ^ 24` and the packet has at most 268 samples
    have hn : s.length ≤ 268 := by
      rcases hdom with h | h
      · exact h
      · exact absurd h hE
    have hnlt : ¬ sumSquares s < 62500 * s.length := by omega
    rw [hof1 (by omega)]
    have hmin : min (sumSquares s) 16777216 = 16777216 := min_eq_right (by omega)
    rw [hmin] at hge
    have hge' : (gateSum s).GeQ (62500 * (s.length : ℚ)) := by
      have hnq2 : (s.length : ℚ) ≤ 268 := by exact_mod_cast hn
      rcases hge with h | ⟨A, hA, hA2⟩
      · exact Or.inl h
      · exact Or.inr ⟨A, hA, by push_cast at hA2; linarith⟩
    rw [rms_not_lt_of_ge (div32_geQ hnq hge')]
    simp [hnlt]

theorem replicate_ne_nil {α : Type} (n : Nat) (v : α) (hn : 0 < n) : List.replicate n v ≠ [] := by
  intro h
  have := congrArg List.length h
  rw [List.length_replicate, List.length_nil] at this
  omega

theorem sumSquares_replicate (n : Nat) (v : Int) :
    sumSquares (List.replicate n v) = n * (v * v) := by
  induction n with
  | zero => simp [sumSquares]
  | succ n ih =>
    have : sumSquares (List.replicate (n + 1) v) = v * v + sumSquares (List.replicate n v) := by
      simp [sumSquares, List.replicate_succ]
    rw [this, ih]
    push_cast
    ring

/-- Accumulating the square of the sample 250: exact as long as the sum `62500 * k` has at
most 24 significant bits. -/
theorem gateFold_250 (k : Nat) : ∀ j : Nat, j + k ≤ 1073 →
    (List.replicate k (250 : Int)).foldl gateStep (FP.fin (62500 * (j : ℚ)))
      = FP.fin (62500 * ((j + k : Nat) : ℚ)) := by
  induction k with
  | zero => intro j _; simp
  | succ k ih =>
    intro j hj
    have hsq : FP.mul binary32 (FP.ofInt binary32 250) (FP.ofInt binary32 250)
        = FP.fin 62500 := by decide!
    have hstep : gateStep (FP.fin (62500 * (j : ℚ))) 250 = FP.fin (62500 * ((j + 1 : Nat) : ℚ)) := by
      unfold gateStep
      rw [hsq]
      simp only [FP.add]
      have hsum : 62500 * (j : ℚ) + 62500 = ((15625 * (j + 1 : Nat) : Int) : ℚ) * (2 : ℚ) ^ (2 : Int) := by
        push_cast; norm_num; ring
      have hrep := roundQ_int_mul_zpow binary32 (15625 * (j + 1 : Nat)) 2
        (by rw [abs_of_nonneg (by positivity)]
            have : 15625 * ((j + 1 : Nat) : Int) < 2 ^ 24 := by omega
            exact this)
        (by decide)
      rw [round32_fin, hsum, hrep]
      · congr 1; push_cast; norm_num; ring
      · rw [abs_of_nonneg (by positivity)]
        have : (j : ℚ) ≤ 1073 := by exact_mod_cast (by omega : j ≤ 1073)
        linarith
    have hjk : j + 1 + k = j + (k + 1) := by omega
    rw [List.replicate_succ, List.foldl_cons, hstep, ih (j + 1) (by omega), hjk]

/-- Counterexample to C8 as stated: a packet of 1077 samples of constant amplitude 250 has
`Σ s[i]² = 62500 * 1077`, an RMS of exactly 250, and is suppressed by the gate. -/
theorem C8_counterexample :
    gateSuppress (List.replicate 1077 (250 : Int)) = true ∧
      ¬ (sumSquares (List.replicate 1077 (250 : Int))
          < 62500 * (List.replicate 1077 (250 : Int)).length) := by
  constructor
  · rw [gateSuppress_eq (replicate_ne_nil 1077 250 (by norm_num))]
    have hsplit : List.replicate 1077 (250 : Int)
        = List.replicate 1073 250 ++ [250, 250, 250, 250] := by
      rw [show (1077 : Nat) = 1073 + 4 by norm_num, List.replicate_add]
      rfl
    have h1073 := gateFold_250 1073 0 (by norm_num)
    have hsum : gateSum (List.replicate 1077 (250 : Int)) = FP.fin 67312496 := by
      unfold gateSum
      rw [hsplit, List.foldl_append]
      have h0 : (FP.fin 0) = FP.fin (62500 * ((0 : Nat) : ℚ)) := by norm_num
      rw [h0, h1073]
      have e1 : gateStep (FP.fin (62500 * ((0 + 1073 : Nat) : ℚ))) 250 = FP.fin 67125000 := by
        decide!
      have e2 : gateStep (FP.fin 67125000) 250 = FP.fin 67187504 := by decide!
      have e3 : gateStep (FP.fin 67187504) 250 = FP.fin 67250000 := by decide!
      have e4 : gateStep (FP.fin 67250000) 250 = FP.fin 67312496 := by decide!
      simp only [List.foldl_cons, List.foldl_nil, e1, e2, e3, e4]
    rw [hsum, List.length_replicate]
    decide!
  · rw [sumSquares_replicate, List.length_replicate]
    norm_num

theorem sumSquares_append (a b : List Int) :
    sumSquares (a ++ b) = sumSquares a + sumSquares b := by
  simp only [sumSquares, List.map_append, List.sum_append]

/-- The bound of 268 samples is sharp: the packet of 269 samples `1, 3, 433, 250, …, 250` has
`Σ s[i]² = 62500 * 269 - 1`, an RMS below 250, and passes the gate, because the last
single-precision addition rounds the sum up to `62500 * 269`. -/
theorem gate_269_rounds_up :
    gateSuppress ([1, 3, 433] ++ List.replicate 266 (250 : Int)) = false ∧
      sumSquares ([1, 3, 433] ++ List.replicate 266 (250 : Int)) = 62500 * 269 - 1 ∧
      ([1, 3, 433] ++ List.replicate 266 (250 : Int)).length = 269 := by
  have hsplit : [1, 3, 433] ++ List.replicate 266 (250 : Int)
      = ([1, 3, 433] ++ List.replicate 265 (250 : Int)) ++ [250] := by
    rw [show (266 : Nat) = 265 + 1 from rfl, List.replicate_succ', List.append_assoc]
  have hsq3 : sumSquares [1, 3, 433] = 187499 := by decide
  have hpre : sumSquares ([1, 3, 433] ++ List.replicate 265 (250 : Int)) = 16749999 := by
    rw [sumSquares_append, sumSquares_replicate, hsq3]; norm_num
  have h16 : ∀ v ∈ [1, 3, 433] ++ List.replicate 265 (250 : Int), -32768 ≤ v ∧ v ≤ 32767 := by
    intro v hv
    rcases List.mem_append.1 hv with h | h
    · simp only [List.mem_cons, List.mem_singleton, List.not_mem_nil, or_false] at h
      rcases h with rfl | rfl | rfl <;> norm_num
    · rw [List.eq_of_mem_replicate h]; norm_num
  have hsum := (gateSum_spec _ h16).1 (by rw [hpre]; norm_num)
  rw [hpre] at hsum
  have hlen : ([1, 3, 433] ++ List.replicate 266 (250 : Int)).length = 269 := by
    rw [List.length_append, List.length_replicate]; rfl
  refine ⟨?_, ?_, hlen⟩
  · have hne : [1, 3, 433] ++ List.replicate 266 (250 : Int) ≠ [] := by
      intro h
      have := congrArg List.length h
      rw [hlen] at this
      exact absurd this (by decide)
    rw [gateSuppress_eq hne, hlen]
    have hfull : gateSum ([1, 3, 433] ++ List.replicate 266 (250 : Int)) = FP.fin 16812500 := by
      rw [hsplit]
      unfold gateSum at hsum ⊢
      rw [List.foldl_append, hsum]
      have e1 : gateStep (FP.fin ((16749999 : Int) : ℚ)) 250 = FP.fin 16812500 := by decide!
      rw [List.foldl_cons, List.foldl_nil, e1]
    rw [hfull]
    decide!
  · rw [sumSquares_append, sumSquares_replicate, hsq3]; norm_num

/-! ## Theorems: downmixToMono -/

/-- A result bounded in magnitude by a representable natural number rounds to a finite value
with the same bound. -/
theorem round_fin_abs_le (f : Fmt) (hp : 0 < f.prec) (he : f.emin ≤ f.emax)
    (hj : f.emin - ((f.prec : Int) - 1) ≤ 0) (k : Nat) (hk : (k : Int) < 2 ^ f.prec)
    (hmax : (k : ℚ) ≤ maxFinite f) {q : ℚ} (h : |q| ≤ k) :
    FP.round f q = FP.fin (roundQ f q) ∧ |roundQ f q| ≤ k := by
  have hr : roundQ f ((k : Int) : ℚ) = ((k : Int) : ℚ) :=
    roundQ_intCast f k (by rw [abs_of_nonneg (Int.natCast_nonneg k)]; exact hk) hj
  have hcast : (((k : Int)) : ℚ) = (k : ℚ) := by norm_cast
  rw [hcast] at hr
  have habs := abs_le.1 h
  refine ⟨round_eq_fin f hp he (le_trans h hmax), abs_le.2 ⟨?_, ?_⟩⟩
  · have := roundQ_mono f hp habs.1
    rwa [roundQ_neg, hr] at this
  · have := roundQ_mono f hp habs.2
    rwa [hr] at this

theorem ofNat_binary64 (n : Nat) (h : n < 2 ^ 53) : FP.ofNat binary64 n = FP.fin n := by
  have := round_fin_abs_le binary64 (by decide) (by decide) (by decide) n
    (by have : (n : Int) < 2 ^ 53 := by exact_mod_cast h
        exact this)
    (le_trans (by exact_mod_cast (by omega : n ≤ 2 ^ 64)) maxFinite_binary64)
    (q := (n : ℚ)) (by rw [abs_of_nonneg (Nat.cast_nonneg n)])
  unfold FP.ofNat
  rw [this.1]
  congr 1
  have hr := roundQ_intCast binary64 (n : Int)
    (by rw [abs_of_nonneg (Int.natCast_nonneg n)]; exact_mod_cast h) (by decide)
  exact_mod_cast hr

theorem toFloat_inUnit {q : ℚ} (h : |q| ≤ 1) : (FP.toFloat (FP.fin q)).InUnit := by
  have := round_fin_abs_le binary32 (by decide) (by decide) (by decide) 1 (by decide)
    (by rw [maxFinite_binary32]; norm_num) (q := q) (by simpa using h)
  refine ⟨roundQ binary32 q, this.1, ?_⟩
  have h2 := abs_le.1 this.2
  constructor <;> [simpa using h2.1; simpa using h2.2]

theorem downmixFrame_inUnit (inp : List FP) (chans i : Nat)
    (hin : ∀ x ∈ inp, x.InUnit) (hlen : (i + 1) * chans ≤ inp.length) (hc : chans < 2 ^ 32) :
    ∃ y, downmixFrame inp chans i = some y ∧ y.InUnit := by
  obtain ⟨acc, hacc, a, ha, hab⟩ := foldlM_option_range_inv
    (fun acc c => (inp[(i * chans + c) % 2 ^ 32]?).map (fun x => FP.add binary64 acc x))
    (fun k acc => ∃ a : ℚ, acc = FP.fin a ∧ |a| ≤ k) (FP.fin 0) chans
    ⟨0, rfl, by simp⟩
    (by
      intro k x hk hP
      obtain ⟨a, rfl, hak⟩ := hP
      have hidx : (i * chans + k) % 2 ^ 32 < inp.length :=
        lt_of_le_of_lt (Nat.mod_le _ _) (by nlinarith)
      obtain ⟨q, hq, hq1, hq2⟩ := hin _ (List.getElem_mem hidx)
      have hsum : |a + q| ≤ ((k + 1 : Nat) : ℚ) := by
        push_cast
        exact le_trans (abs_add a q) (add_le_add hak (abs_le.2 ⟨hq1, hq2⟩))
      have hr := round_fin_abs_le binary64 (by decide) (by decide) (by decide) (k + 1)
        (by have : k + 1 < 2 ^ 53 := by omega
            exact_mod_cast this)
        (le_trans (by exact_mod_cast (by omega : k + 1 ≤ 2 ^ 64)) maxFinite_binary64) hsum
      refine ⟨FP.fin (roundQ binary64 (a + q)), ?_, _, rfl, by exact_mod_cast hr.2⟩
      show (inp[(i * chans + k) % 2 ^ 32]?).map (fun x => FP.add binary64 (FP.fin a) x) = _
      rw [List.getElem?_eq_getElem hidx, hq]
      simp only [Option.map_some', FP.add, hr.1])
  have hm : FP.ofNat binary64 (max 1 chans) = FP.fin ((max 1 chans : Nat) : ℚ) :=
    ofNat_binary64 _ (by have := max_lt (by norm_num : 1 < 2 ^ 53) (by omega : chans < 2 ^ 53); exact this)
  have hmpos : (0 : ℚ) < ((max 1 chans : Nat) : ℚ) := by
    exact_mod_cast lt_of_lt_of_le Nat.zero_lt_one (le_max_left 1 chans)
  have hquot : |a / ((max 1 chans : Nat) : ℚ)| ≤ 1 := by
    rw [abs_div, abs_of_pos hmpos, div_le_one hmpos]
    exact le_trans hab (by exact_mod_cast le_max_right 1 chans)
  have hr := round_fin_abs_le binary64 (by decide) (by decide) (by decide) 1 (by decide)
    (le_trans (by norm_num) maxFinite_binary64) (q := a / ((max 1 chans : Nat) : ℚ))
    (by simpa using hquot)
  refine ⟨FP.toFloat (FP.fin (roundQ binary64 (a / ((max 1 chans : Nat) : ℚ)))), ?_,
    toFloat_inUnit (by simpa using hr.2)⟩
  unfold downmixFrame
  rw [hacc, ha, hm]
  simp only [Option.map_some', FP.div, if_neg hmpos.ne', hr.1]

/-- Claim C7 (downmix bounds).  For every frame count, every channel count and every interleaved
input holding `frames * chans` samples that all lie in `[-1, 1]`, `downmixToMono` returns
`frames` samples and every one of them lies in `[-1, 1]`. -/
theorem C7_downmix_bounds (inp : List FP) (frames chans : Nat) (hc : chans < 2 ^ 32)
    (hlen : frames * chans ≤ inp.length) (hin : ∀ x ∈ inp, x.InUnit) :
    ∃ out, downmixToMono inp frames chans = some out ∧ out.length = frames ∧
      ∀ y ∈ out, y.InUnit := by
  obtain ⟨out, h1, h2, h3⟩ := mapM_option_exists (downmixFrame inp chans) FP.InUnit
    (List.range frames) (by
      intro i hi
      have hi2 : i < frames := List.mem_range.1 hi
      exact downmixFrame_inUnit inp chans i hin
        (le_trans (Nat.mul_le_mul_right chans (by omega)) hlen) hc)
  exact ⟨out, h1, by simpa using h2, h3⟩

/-- Witness of C7: two stereo frames with samples in `[-1, 1]`. -/
theorem C7_downmix_bounds_witness :
    ∃ out, downmixToMono [FP.fin (1 / 2), FP.fin (-1), FP.fin 1, FP.fin (1 / 4)] 2 2 = some out ∧
      out.length = 2 ∧ ∀ y ∈ out, y.InUnit :=
  C7_downmix_bounds [FP.fin (1 / 2), FP.fin (-1), FP.fin 1, FP.fin (1 / 4)] 2 2 (by norm_num)
    (by decide) (by
      intro x hx
      simp only [List.mem_cons, List.mem_singleton, List.not_mem_nil, or_false] at hx
      rcases hx with rfl | rfl | rfl | rfl
      · exact ⟨1 / 2, rfl, by norm_num, by norm_num⟩
      · exact ⟨-1, rfl, by norm_num, by norm_num⟩
      · exact ⟨1, rfl, by norm_num, by norm_num⟩
      · exact ⟨1 / 4, rfl, by norm_num, by norm_num⟩)

/-! ## Theorems: linearResample -/

theorem le_expo_of_zpow_le {q : ℚ} {e : Int} (h : (2 : ℚ) ^ e ≤ |q|) : e ≤ expo q := by
  have hpos : (0 : ℚ) < |q| := lt_of_lt_of_le (by positivity) h
  rw [expo_eq_log]
  exact (Int.zpow_le_iff_le_log (b := 2) (by norm_num) hpos).1 (by exact_mod_cast h)

/-- Rounding to `double` of a positive number of moderate size: the result is finite and the
relative error is at most `2 ^ (-53)`. -/
theorem round64_pos {q : ℚ} (h1 : 1 / 2 ^ 64 ≤ q) (h2 : q ≤ 2 ^ 64) :
    FP.round binary64 q = FP.fin (roundQ binary64 q) ∧
      q * (1 - 1 / 2 ^ 53) ≤ roundQ binary64 q ∧ roundQ binary64 q ≤ q * (1 + 1 / 2 ^ 53) ∧
      0 ≤ roundQ binary64 q := by
  have hq : 0 < q := lt_of_lt_of_le (by norm_num) h1
  have he : binary64.emin ≤ expo q := by
    have : (-64 : Int) ≤ expo q := le_expo_of_zpow_le (by
      rw [abs_of_pos hq]
      calc (2 : ℚ) ^ (-64 : Int) = 1 / 2 ^ 64 := by norm_num
        _ ≤ q := h1)
    have h3 : binary64.emin = -1022 := rfl
    omega
  have herr := abs_roundQ_sub_le binary64 hq.ne' he
  rw [abs_of_pos hq] at herr
  have hpow : (2 : ℚ) ^ (-(binary64.prec : Int)) = 1 / 2 ^ 53 := by
    have : (binary64.prec : Int) = 53 := rfl
    rw [this]; norm_num
  rw [hpow] at herr
  have := abs_le.1 herr
  refine ⟨round_eq_fin binary64 (by decide) (by decide) ?_, by linarith, by linarith,
    roundQ_nonneg binary64 hq.le⟩
  rw [abs_of_pos hq]
  exact le_trans h2 maxFinite_binary64

/-- The same for a non-negative number: zero is rounded to zero. -/
theorem round64_nonneg {q : ℚ} (h1 : q = 0 ∨ 1 / 2 ^ 64 ≤ q) (h2 : q ≤ 2 ^ 64) :
    FP.round binary64 q = FP.fin (roundQ binary64 q) ∧
      q * (1 - 1 / 2 ^ 53) ≤ roundQ binary64 q ∧ roundQ binary64 q ≤ q * (1 + 1 / 2 ^ 53) ∧
      0 ≤ roundQ binary64 q := by
  rcases h1 with rfl | h1
  · refine ⟨round_eq_fin binary64 (by decide) (by decide) ?_, ?_, ?_, ?_⟩
    · rw [abs_zero]; exact le_trans (by norm_num) maxFinite_binary64
    · rw [roundQ_zero]; norm_num
    · rw [roundQ_zero]; norm_num
    · exact (roundQ_zero binary64).ge
  · exact round64_pos h1 h2

/-- The ratio computed by `linearResample` is finite, positive and within relative error
`2 ^ (-53)` of `24000 / srcRate`. -/
theorem resampleRatio_spec (sr : Nat) (h0 : 0 < sr) (h1 : sr < 2 ^ 32) :
    ∃ r : ℚ, resampleRatio sr = FP.fin r ∧ r = roundQ binary64 (24000 / (sr : ℚ)) ∧
      24000 / (sr : ℚ) * (1 - 1 / 2 ^ 53) ≤ r ∧ r ≤ 24000 / (sr : ℚ) * (1 + 1 / 2 ^ 53) := by
  have hsr : (0 : ℚ) < (sr : ℚ) := by exact_mod_cast h0
  have hsr2 : (sr : ℚ) < 2 ^ 32 := by exact_mod_cast h1
  have hq1 : (1 : ℚ) / 2 ^ 64 ≤ 24000 / (sr : ℚ) := by
    rw [div_le_div_iff₀ (by norm_num) hsr]
    nlinarith
  have hq2 : 24000 / (sr : ℚ) ≤ 2 ^ 64 := by
    rw [div_le_iff₀ hsr]
    have : (1 : ℚ) ≤ sr := by exact_mod_cast h0
    nlinarith
  obtain ⟨hfin, hlo, hhi, _⟩ := round64_pos hq1 hq2
  refine ⟨roundQ binary64 (24000 / (sr : ℚ)), ?_, rfl, hlo, hhi⟩
  unfold resampleRatio
  rw [ofNat_binary64 TARGET_RATE (by decide), ofNat_binary64 sr (by omega)]
  simp only [FP.div, if_neg hsr.ne']
  rw [← hfin]
  congr 2

theorem toSizeT_floor_fin {y : ℚ} (h0 : 0 ≤ y) (h1 : y < 2 ^ 64) :
    FP.toSizeT (FP.floor (FP.fin y)) = some ⌊y⌋.toNat ∧ ((⌊y⌋.toNat : Int) = ⌊y⌋) ∧
      ((⌊y⌋.toNat : ℚ) ≤ y) ∧ y < (⌊y⌋.toNat : ℚ) + 1 := by
  have hf0 : 0 ≤ ⌊y⌋ := Int.floor_nonneg.2 h0
  have hf1 : ⌊y⌋ < 2 ^ 64 := Int.floor_lt.2 (by exact_mod_cast h1)
  have hcast : ((⌊y⌋.toNat : Int) = ⌊y⌋) := Int.toNat_of_nonneg hf0
  have hcq : ((⌊y⌋.toNat : ℚ) = ((⌊y⌋ : Int) : ℚ)) := by exact_mod_cast congrArg (Int.cast (R := ℚ)) hcast
  refine ⟨?_, hcast, ?_, ?_⟩
  · simp only [FP.floor, FP.toSizeT, FP.truncQ]
    have hnn : (0 : ℚ) ≤ ((⌊y⌋ : Int) : ℚ) := by exact_mod_cast hf0
    rw [if_pos hnn, Int.floor_intCast, if_pos ⟨hf0, hf1⟩]
  · rw [hcq]; exact Int.floor_le y
  · rw [hcq]; exact Int.lt_floor_add_one y

/-- The product `inMono.size() * ratio` of `linearResample`, scaled by the source rate, is
within `1 / 16` of `n * 24000`. -/
theorem resampleProduct_spec (n sr : Nat) (h0 : 0 < sr) (h1 : sr < 2 ^ 32) (hn : n < 2 ^ 32)
    (r : ℚ) (hlo : 24000 / (sr : ℚ) * (1 - 1 / 2 ^ 53) ≤ r)
    (hhi : r ≤ 24000 / (sr : ℚ) * (1 + 1 / 2 ^ 53)) :
    FP.round binary64 ((n : ℚ) * r) = FP.fin (roundQ binary64 ((n : ℚ) * r)) ∧
      0 ≤ roundQ binary64 ((n : ℚ) * r) ∧ roundQ binary64 ((n : ℚ) * r) < 2 ^ 64 ∧
      (n : ℚ) * 24000 - 1 / 16 ≤ roundQ binary64 ((n : ℚ) * r) * sr ∧
      roundQ binary64 ((n : ℚ) * r) * sr ≤ (n : ℚ) * 24000 + 1 / 16 := by
  have hsr : (0 : ℚ) < (sr : ℚ) := by exact_mod_cast h0
  have hsr1 : (1 : ℚ) ≤ (sr : ℚ) := by exact_mod_cast h0
  have hsr2 : (sr : ℚ) < 2 ^ 32 := by exact_mod_cast h1
  have hn0 : (0 : ℚ) ≤ (n : ℚ) := Nat.cast_nonneg n
  have hn2 : (n : ℚ) < 2 ^ 32 := by exact_mod_cast hn
  -- the ratio scaled by the source rate
  have hc1 : 24000 / (sr : ℚ) * (1 - 1 / 2 ^ 53) * sr = 24000 * (1 - 1 / 2 ^ 53) := by
    field_simp; ring
  have hc2 : 24000 / (sr : ℚ) * (1 + 1 / 2 ^ 53) * sr = 24000 * (1 + 1 / 2 ^ 53) := by
    field_simp; ring
  have hrs_lo : 24000 * (1 - 1 / 2 ^ 53) ≤ r * sr := by
    rw [← hc1]; exact mul_le_mul_of_nonneg_right hlo hsr.le
  have hrs_hi : r * sr ≤ 24000 * (1 + 1 / 2 ^ 53) := by
    rw [← hc2]; exact mul_le_mul_of_nonneg_right hhi hsr.le
  have hrpos : 0 < r := by
    by_contra hcon
    have : r * sr ≤ 0 := mul_nonpos_of_nonpos_of_nonneg (not_lt.1 hcon) hsr.le
    linarith
  have hr_lo : 1 / 2 ^ 20 ≤ r := by
    have h3 : r * sr ≤ r * 2 ^ 32 := mul_le_mul_of_nonneg_left hsr2.le hrpos.le
    linarith
  have hr_hi : r ≤ 2 ^ 15 := by
    have h3 : r * 1 ≤ r * sr := mul_le_mul_of_nonneg_left hsr1 hrpos.le
    linarith
  have hq : (n : ℚ) * r = 0 ∨ 1 / 2 ^ 64 ≤ (n : ℚ) * r := by
    rcases Nat.eq_zero_or_pos n with h | h
    · left; simp [h]
    · right
      have hn1 : (1 : ℚ) ≤ (n : ℚ) := by exact_mod_cast h
      have : 1 * r ≤ (n : ℚ) * r := mul_le_mul_of_nonneg_right hn1 hrpos.le
      linarith
  have hq2 : (n : ℚ) * r ≤ 2 ^ 47 := by
    have : (n : ℚ) * r ≤ 2 ^ 32 * 2 ^ 15 := mul_le_mul hn2.le hr_hi hrpos.le (by norm_num)
    linarith
  obtain ⟨hfin, hylo, hyhi, hy0⟩ := round64_nonneg hq (le_trans hq2 (by norm_num))
  have hnr0 : 0 ≤ (n : ℚ) * r := mul_nonneg hn0 hrpos.le
  have hy2 : roundQ binary64 ((n : ℚ) * r) < 2 ^ 64 := by
    have : (n : ℚ) * r * (1 + 1 / 2 ^ 53) ≤ 2 ^ 47 * (1 + 1 / 2 ^ 53) :=
      mul_le_mul_of_nonneg_right hq2 (by norm_num)
    linarith
  -- scaled by the source rate
  have hnrs_lo : (n : ℚ) * (24000 * (1 - 1 / 2 ^ 53)) ≤ (n : ℚ) * r * sr := by
    rw [mul_assoc]; exact mul_le_mul_of_nonneg_left hrs_lo hn0
  have hnrs_hi : (n : ℚ) * r * sr ≤ (n : ℚ) * (24000 * (1 + 1 / 2 ^ 53)) := by
    rw [mul_assoc]; exact mul_le_mul_of_nonneg_left hrs_hi hn0
  have hys_lo : (n : ℚ) * r * (1 - 1 / 2 ^ 53) * sr ≤ roundQ binary64 ((n : ℚ) * r) * sr :=
    mul_le_mul_of_nonneg_right hylo hsr.le
  have hys_hi : roundQ binary64 ((n : ℚ) * r) * sr ≤ (n : ℚ) * r * (1 + 1 / 2 ^ 53) * sr :=
    mul_le_mul_of_nonneg_right hyhi hsr.le
  have e1 : (n : ℚ) * r * (1 - 1 / 2 ^ 53) * sr = (n : ℚ) * r * sr * (1 - 1 / 2 ^ 53) := by ring
  have e2 : (n : ℚ) * r * (1 + 1 / 2 ^ 53) * sr = (n : ℚ) * r * sr * (1 + 1 / 2 ^ 53) := by ring
  have hA : (n : ℚ) * (24000 * (1 - 1 / 2 ^ 53)) * (1 - 1 / 2 ^ 53)
      ≤ (n : ℚ) * r * sr * (1 - 1 / 2 ^ 53) := mul_le_mul_of_nonneg_right hnrs_lo (by norm_num)
  have hB : (n : ℚ) * r * sr * (1 + 1 / 2 ^ 53)
      ≤ (n : ℚ) * (24000 * (1 + 1 / 2 ^ 53)) * (1 + 1 / 2 ^ 53) :=
    mul_le_mul_of_nonneg_right hnrs_hi (by norm_num)
  refine ⟨hfin, hy0, hy2, ?_, ?_⟩
  · have : (n : ℚ) * 24000 - 1 / 16 ≤ (n : ℚ) * (24000 * (1 - 1 / 2 ^ 53)) * (1 - 1 / 2 ^ 53) := by
      nlinarith
    linarith
  · have : (n : ℚ) * (24000 * (1 + 1 / 2 ^ 53)) * (1 + 1 / 2 ^ 53) ≤ (n : ℚ) * 24000 + 1 / 16 := by
      nlinarith
    linarith

/-- The value `outCount` of `linearResample`: it is defined, it is `n * 24000 / srcRate` or one
less, and it is `n * 24000 / srcRate` when `srcRate` does not divide `n * 24000` or when
`24000 / srcRate` is a `double`. -/
theorem resampleCount_spec (n sr : Nat) (h0 : 0 < sr) (h1 : sr < 2 ^ 32) (hn : n < 2 ^ 32) :
    ∃ c : Nat, resampleCount n sr = some c ∧ c * sr ≤ n * 24000 ∧
      c ≤ n * 24000 / sr ∧ n * 24000 / sr ≤ c + 1 ∧
      (¬ sr ∣ n * 24000 → c = n * 24000 / sr) ∧
      (roundQ binary64 (24000 / (sr : ℚ)) = 24000 / (sr : ℚ) → c = n * 24000 / sr) := by
  obtain ⟨r, hr, hreq, hlo, hhi⟩ := resampleRatio_spec sr h0 h1
  obtain ⟨hfin, hy0, hy2, hylo, hyhi⟩ := resampleProduct_spec n sr h0 h1 hn r hlo hhi
  obtain ⟨hsz, hcast, hcle, hclt⟩ := toSizeT_floor_fin hy0 hy2
  have hsr : (0 : ℚ) < (sr : ℚ) := by exact_mod_cast h0
  have hsr1 : (1 : ℚ) ≤ (sr : ℚ) := by exact_mod_cast h0
  have hcount : resampleCount n sr = some ⌊roundQ binary64 ((n : ℚ) * r)⌋.toNat := by
    unfold resampleCount
    rw [hr, ofNat_binary64 n (by omega)]
    simp only [FP.mul]
    rw [hfin, hsz]
  -- the count times the source rate is at most `n * 24000`
  have hmul : ⌊roundQ binary64 ((n : ℚ) * r)⌋.toNat * sr ≤ n * 24000 := by
    have h3 : (⌊roundQ binary64 ((n : ℚ) * r)⌋.toNat : ℚ) * sr ≤ (n : ℚ) * 24000 + 1 / 16 :=
      le_trans (mul_le_mul_of_nonneg_right hcle hsr.le) hyhi
    have h4 : ((⌊roundQ binary64 ((n : ℚ) * r)⌋.toNat * sr : Nat) : ℚ)
        < ((n * 24000 + 1 : Nat) : ℚ) := by
      push_cast; linarith
    have h5 := Nat.cast_lt.1 h4
    omega
  have hle : ⌊roundQ binary64 ((n : ℚ) * r)⌋.toNat ≤ n * 24000 / sr :=
    (Nat.le_div_iff_mul_le h0).2 hmul
  have hdm := Nat.div_add_mod (n * 24000) sr
  have hmod := Nat.mod_lt (n * 24000) h0
  -- `(c + 1) * sr` exceeds `n * 24000 - 1 / 16`
  have hgt : (n : ℚ) * 24000 - 1 / 16
      < ((⌊roundQ binary64 ((n : ℚ) * r)⌋.toNat : ℚ) + 1) * sr :=
    lt_of_le_of_lt hylo (mul_lt_mul_of_pos_right hclt hsr)
  have hgt' : n * 24000 < (⌊roundQ binary64 ((n : ℚ) * r)⌋.toNat + 1) * sr + 1 := by
    have h4 : ((n * 24000 : Nat) : ℚ)
        < (((⌊roundQ binary64 ((n : ℚ) * r)⌋.toNat + 1) * sr + 1 : Nat) : ℚ) := by
      push_cast; linarith
    exact Nat.cast_lt.1 h4
  refine ⟨_, hcount, hmul, hle, ?_, ?_, ?_⟩
  · -- `k ≤ c + 1`
    have h7 : n * 24000 / sr * sr ≤ (⌊roundQ binary64 ((n : ℚ) * r)⌋.toNat + 1) * sr := by
      have := Nat.div_mul_le_self (n * 24000) sr
      omega
    exact Nat.le_of_mul_le_mul_right h7 h0
  · intro hnd
    apply le_antisymm hle
    have hmpos : 0 < n * 24000 % sr := Nat.pos_of_ne_zero (fun h => hnd (Nat.dvd_of_mod_eq_zero h))
    -- `k * sr < n * 24000 ≤ (c + 1) * sr`
    have h6 : n * 24000 / sr * sr < (⌊roundQ binary64 ((n : ℚ) * r)⌋.toNat + 1) * sr := by
      nlinarith
    exact Nat.lt_succ_iff.1 (lt_of_mul_lt_mul_right h6 (Nat.zero_le sr))
  · intro hexact
    by_cases hd : sr ∣ n * 24000
    · obtain ⟨k, hk⟩ := hd
      have hkdiv : n * 24000 / sr = k := by rw [hk]; exact Nat.mul_div_cancel_left k h0
      have hnr : (n : ℚ) * r = (k : ℚ) := by
        rw [hreq, hexact]
        have : ((n * 24000 : Nat) : ℚ) = ((sr * k : Nat) : ℚ) := by rw [hk]
        push_cast at this
        field_simp
        linarith
      have hk53 : k < 2 ^ 53 := by
        have : k ≤ n * 24000 := by rw [hk]; exact Nat.le_mul_of_pos_left k h0
        omega
      have hrk : roundQ binary64 ((n : ℚ) * r) = (k : ℚ) := by
        rw [hnr]
        have := roundQ_intCast binary64 (k : Int)
          (by rw [abs_of_nonneg (Int.natCast_nonneg k)]; exact_mod_cast hk53) (by decide)
        exact_mod_cast this
      rw [hkdiv, hrk]
      simp
    · apply le_antisymm hle
      have hmpos : 0 < n * 24000 % sr :=
        Nat.pos_of_ne_zero (fun h => hd (Nat.dvd_of_mod_eq_zero h))
      have h6 : n * 24000 / sr * sr < (⌊roundQ binary64 ((n : ℚ) * r)⌋.toNat + 1) * sr := by
        nlinarith
      exact Nat.lt_succ_iff.1 (lt_of_mul_lt_mul_right h6 (Nat.zero_le sr))

/-- Index safety of the loop of `linearResample`: for an output index below `outCount` the
source position `i0` and its clamped successor `i1` are inside the input, and the
interpolation weight `t` is a finite number in `[0, 1]`. -/
theorem resampleAt_spec (x : List FP) (sr i c : Nat) (h0 : 0 < sr) (h1 : sr < 2 ^ 32)
    (hn : x.length < 2 ^ 32) (hc : c * sr ≤ x.length * 24000) (hi : i < c) :
    ∃ (i0 i1 : Nat) (t : ℚ) (hi0 : i0 < x.length) (hi1 : i1 < x.length),
      0 ≤ t ∧ t ≤ 1 ∧ i1 = min (i0 + 1) (x.length - 1) ∧
      resampleAt x (resampleRatio sr) i = some (FP.toFloat (FP.add binary64
        (FP.mul binary64 (FP.sub binary64 (FP.fin 1) (FP.fin t)) x[i0])
        (FP.mul binary64 (FP.fin t) x[i1]))) := by
  obtain ⟨r, hr, -, hlo, hhi⟩ := resampleRatio_spec sr h0 h1
  have hsr : (0 : ℚ) < (sr : ℚ) := by exact_mod_cast h0
  have hsr1 : (1 : ℚ) ≤ (sr : ℚ) := by exact_mod_cast h0
  have hsr2 : (sr : ℚ) < 2 ^ 32 := by exact_mod_cast h1
  have hn2 : (x.length : ℚ) < 2 ^ 32 := by exact_mod_cast hn
  have hi0' : (0 : ℚ) ≤ (i : ℚ) := Nat.cast_nonneg i
  have hc1 : 24000 / (sr : ℚ) * (1 - 1 / 2 ^ 53) * sr = 24000 * (1 - 1 / 2 ^ 53) := by
    field_simp; ring
  have hc2 : 24000 / (sr : ℚ) * (1 + 1 / 2 ^ 53) * sr = 24000 * (1 + 1 / 2 ^ 53) := by
    field_simp; ring
  have hrs_lo : 24000 * (1 - 1 / 2 ^ 53) ≤ r * sr := by
    rw [← hc1]; exact mul_le_mul_of_nonneg_right hlo hsr.le
  have hrs_hi : r * sr ≤ 24000 * (1 + 1 / 2 ^ 53) := by
    rw [← hc2]; exact mul_le_mul_of_nonneg_right hhi hsr.le
  have hrpos : 0 < r := by
    by_contra hcon
    have : r * sr ≤ 0 := mul_nonpos_of_nonpos_of_nonneg (not_lt.1 hcon) hsr.le
    linarith
  have hr_hi : r ≤ 2 ^ 15 := by
    have h3 : r * 1 ≤ r * sr := mul_le_mul_of_nonneg_left hsr1 hrpos.le
    linarith
  -- `(i + 1) * sr ≤ n * 24000`
  have hisr : ((i : ℚ) + 1) * sr ≤ (x.length : ℚ) * 24000 := by
    have : (i + 1) * sr ≤ x.length * 24000 := le_trans (Nat.mul_le_mul_right sr hi) hc
    exact_mod_cast this
  -- `i * (1 + ε) < n * r`
  have hkey : (i : ℚ) * (1 + 1 / 2 ^ 53) < (x.length : ℚ) * r := by
    have h3 : (i : ℚ) * (1 + 1 / 2 ^ 53) * sr < (x.length : ℚ) * (24000 * (1 - 1 / 2 ^ 53)) := by
      nlinarith
    have h4 : (x.length : ℚ) * (24000 * (1 - 1 / 2 ^ 53)) ≤ (x.length : ℚ) * (r * sr) :=
      mul_le_mul_of_nonneg_left hrs_lo (Nat.cast_nonneg _)
    have h5 : (i : ℚ) * (1 + 1 / 2 ^ 53) * sr < (x.length : ℚ) * r * sr := by
      rw [mul_assoc (x.length : ℚ)]; linarith
    exact lt_of_mul_lt_mul_right h5 hsr.le
  have hq_lt : (i : ℚ) / r * (1 + 1 / 2 ^ 53) < (x.length : ℚ) := by
    rw [div_mul_eq_mul_div, div_lt_iff₀ hrpos]
    exact hkey
  have hq0 : (i : ℚ) / r = 0 ∨ 1 / 2 ^ 64 ≤ (i : ℚ) / r := by
    rcases Nat.eq_zero_or_pos i with h | h
    · left; simp [h]
    · right
      have hi1 : (1 : ℚ) ≤ (i : ℚ) := by exact_mod_cast h
      rw [le_div_iff₀ hrpos]
      nlinarith
  have hq_nn : 0 ≤ (i : ℚ) / r := div_nonneg hi0' hrpos.le
  have hq2 : (i : ℚ) / r ≤ 2 ^ 64 := by nlinarith
  obtain ⟨hfin, -, hshi, hs0⟩ := round64_nonneg hq0 hq2
  have hs_lt : roundQ binary64 ((i : ℚ) / r) < (x.length : ℚ) := lt_of_le_of_lt hshi hq_lt
  obtain ⟨hsz, -, hcle, hclt⟩ := toSizeT_floor_fin hs0 (lt_trans hs_lt (by linarith))
  have hi0lt : ⌊roundQ binary64 ((i : ℚ) / r)⌋.toNat < x.length := by
    have : (⌊roundQ binary64 ((i : ℚ) / r)⌋.toNat : ℚ) < (x.length : ℚ) :=
      lt_of_le_of_lt hcle hs_lt
    exact_mod_cast this
  have hi1eq : min ((⌊roundQ binary64 ((i : ℚ) / r)⌋.toNat + 1) % 2 ^ 64)
      ((x.length + (2 ^ 64 - 1)) % 2 ^ 64)
      = min (⌊roundQ binary64 ((i : ℚ) / r)⌋.toNat + 1) (x.length - 1) := by
    have e1 : (⌊roundQ binary64 ((i : ℚ) / r)⌋.toNat + 1) % 2 ^ 64
        = ⌊roundQ binary64 ((i : ℚ) / r)⌋.toNat + 1 :=
      Nat.mod_eq_of_lt (lt_of_le_of_lt (Nat.succ_le_of_lt hi0lt)
        (lt_trans hn (by norm_num)))
    have e2 : x.length + (2 ^ 64 - 1) = (x.length - 1) + 2 ^ 64 := by
      have : 0 < x.length := Nat.lt_of_le_of_lt (Nat.zero_le _) hi0lt
      have h64 : 0 < 2 ^ 64 := by norm_num
      omega
    rw [e1, e2, Nat.add_mod_right, Nat.mod_eq_of_lt (lt_of_le_of_lt (Nat.sub_le _ _)
      (lt_trans hn (by norm_num)))]
  have hi1lt : min (⌊roundQ binary64 ((i : ℚ) / r)⌋.toNat + 1) (x.length - 1) < x.length :=
    lt_of_le_of_lt (min_le_right _ _) (by omega)
  -- the interpolation weight
  have htabs : |roundQ binary64 ((i : ℚ) / r) + -(⌊roundQ binary64 ((i : ℚ) / r)⌋.toNat : ℚ)|
      ≤ ((1 : Nat) : ℚ) := by
    rw [abs_le]; push_cast; constructor <;> linarith
  have ht := round_fin_abs_le binary64 (by decide) (by decide) (by decide) 1 (by decide)
    (le_trans (by norm_num) maxFinite_binary64) htabs
  refine ⟨⌊roundQ binary64 ((i : ℚ) / r)⌋.toNat,
    min (⌊roundQ binary64 ((i : ℚ) / r)⌋.toNat + 1) (x.length - 1),
    roundQ binary64 (roundQ binary64 ((i : ℚ) / r) + -(⌊roundQ binary64 ((i : ℚ) / r)⌋.toNat : ℚ)),
    hi0lt, hi1lt, roundQ_nonneg binary64 (by linarith), ?_, rfl, ?_⟩
  · have := (abs_le.1 ht.2).2
    simpa using this
  · have hi53 : i < 2 ^ 53 := by
      have h3 : c ≤ c * sr := Nat.le_mul_of_pos_right c h0
      omega
    unfold resampleAt
    rw [hr, ofNat_binary64 i hi53]
    simp only [FP.div, if_neg hrpos.ne']
    rw [hfin, hsz]
    simp only [Option.bind_eq_bind, Option.some_bind, hi1eq]
    rw [List.getElem?_eq_getElem hi0lt, List.getElem?_eq_getElem hi1lt,
      ofNat_binary64 _ (by omega)]
    simp only [Option.some_bind, FP.sub, FP.neg, FP.add, ht.1]
    rfl

/-- The resampler returns `outCount` samples. -/
theorem linearResample_length (x : List FP) (sr : Nat) (h0 : 0 < sr) (h1 : sr < 2 ^ 32)
    (hne : sr ≠ TARGET_RATE) (hn : x.length < 2 ^ 32) :
    ∃ (c : Nat) (out : List FP), resampleCount x.length sr = some c ∧
      linearResample x sr = some out ∧ out.length = c := by
  obtain ⟨c, hc, hmul, -⟩ := resampleCount_spec x.length sr h0 h1 hn
  obtain ⟨out, hout, hlen, -⟩ := mapM_option_exists (resampleAt x (resampleRatio sr))
    (fun _ => True) (List.range c) (by
      intro i hi
      obtain ⟨i0, i1, t, hi0, hi1, -, -, -, h⟩ :=
        resampleAt_spec x sr i c h0 h1 hn hmul (List.mem_range.1 hi)
      exact ⟨_, h, trivial⟩)
  refine ⟨c, out, hc, ?_, by simpa using hlen⟩
  unfold linearResample
  rw [if_neg hne, hc]
  exact hout

/-- Claim C4 (resampler identity).  When the source rate equals the target rate, 24000 Hz,
`linearResample` returns its input, for every input, the empty one included. -/
theorem C4_resampler_identity :
    TARGET_RATE = 24000 ∧ (∀ x : List FP, linearResample x 24000 = some x) ∧
    linearResample [] 24000 = some [] := by
  refine ⟨rfl, fun x => ?_, ?_⟩ <;> simp [linearResample, TARGET_RATE]

/-- Counterexample to C3 as stated: at a source rate of 44000 Hz an input of 55 samples gives
29 output samples, while `⌊55 * 24000 / 44000⌋ = 30`. -/
theorem C3_counterexample :
    ∃ out, linearResample (List.replicate 55 (FP.fin 0)) 44000 = some out ∧
      out.length = 29 ∧ (List.replicate 55 (FP.fin 0)).length * 24000 / 44000 = 30 := by
  obtain ⟨c, out, hc, hout, hlen⟩ := linearResample_length (List.replicate 55 (FP.fin 0)) 44000
    (by norm_num) (by norm_num) (by decide) (by simp)
  have h29 : resampleCount (List.replicate 55 (FP.fin 0)).length 44000 = some 29 := by
    rw [List.length_replicate]
    decide!
  rw [h29] at hc
  refine ⟨out, hout, ?_, by simp⟩
  rw [hlen]
  exact (Option.some.inj hc).symm

/-- Claim C3 (resampler length law, amended).  For every mono input of fewer than `2 ^ 32`
samples and every source rate `0 < sr < 2 ^ 32`, `linearResample` returns
`⌊len * 24000 / sr⌋` samples or one sample fewer, and exactly `⌊len * 24000 / sr⌋` samples
whenever `sr` does not divide `len * 24000` or `24000 / sr` is a `double`. -/
theorem C3_resampler_length (x : List FP) (sr : Nat) (h0 : 0 < sr) (h1 : sr < 2 ^ 32)
    (hn : x.length < 2 ^ 32) :
    ∃ out, linearResample x sr = some out ∧
      (out.length = x.length * 24000 / sr ∨ out.length + 1 = x.length * 24000 / sr) ∧
      (¬ sr ∣ x.length * 24000 → out.length = x.length * 24000 / sr) ∧
      (roundQ binary64 (24000 / (sr : ℚ)) = 24000 / (sr : ℚ) →
        out.length = x.length * 24000 / sr) := by
  by_cases hne : sr = TARGET_RATE
  · have h24 : sr = 24000 := hne
    subst h24
    refine ⟨x, by simp [linearResample, TARGET_RATE], Or.inl ?_, fun _ => ?_, fun _ => ?_⟩ <;>
      simp
  · obtain ⟨c, hc, -, hle, hge, hnd, hex⟩ := resampleCount_spec x.length sr h0 h1 hn
    obtain ⟨c', out, hc', hout, hlen⟩ := linearResample_length x sr h0 h1 hne hn
    rw [hc] at hc'
    have hcc : c' = c := (Option.some.inj hc').symm
    subst hcc
    refine ⟨out, hout, ?_, ?_, ?_⟩
    · rw [hlen]; omega
    · rw [hlen]; exact hnd
    · rw [hlen]; exact hex

/-- Witness of C3: three samples at 48000 Hz, where `24000 / 48000` is a `double`. -/
theorem C3_resampler_length_witness :
    ∃ out, linearResample [FP.fin 0, FP.fin (1 / 2), FP.fin 1] 48000 = some out ∧
      (out.length = [FP.fin 0, FP.fin (1 / 2), FP.fin 1].length * 24000 / 48000 ∨
        out.length + 1 = [FP.fin 0, FP.fin (1 / 2), FP.fin 1].length * 24000 / 48000) ∧
      (¬ 48000 ∣ [FP.fin 0, FP.fin (1 / 2), FP.fin 1].length * 24000 →
        out.length = [FP.fin 0, FP.fin (1 / 2), FP.fin 1].length * 24000 / 48000) ∧
      (roundQ binary64 (24000 / ((48000 : Nat) : ℚ)) = 24000 / ((48000 : Nat) : ℚ) →
        out.length = [FP.fin 0, FP.fin (1 / 2), FP.fin 1].length * 24000 / 48000) :=
  C3_resampler_length [FP.fin 0, FP.fin (1 / 2), FP.fin 1] 48000 (by norm_num) (by norm_num)
    (by simp)

/-! ## Theorems: one packet through the pipeline -/

/-- Adding the square of a sample keeps the accumulated sum above a `float` it has reached. -/
theorem gateStep_ge {acc : FP} {c : ℚ} (hc0 : 0 ≤ c) (hc : roundQ binary32 c = c) {v : Int}
    (h1 : -32768 ≤ v) (h2 : v ≤ 32767) (h : acc.GeQ c) : (gateStep acc v).GeQ c := by
  obtain ⟨T, hT, hT0, -, -⟩ := gate_square h1 h2
  unfold gateStep
  rw [hT]
  rcases h with rfl | ⟨A, rfl, hA⟩
  · left; rfl
  · have hr := roundQ_mono binary32 (by decide) (by linarith : c ≤ A + T)
    rw [hc] at hr
    simp only [FP.add, FP.round]
    split_ifs with hov
    · left
      have : ¬ (A + T < 0) := not_lt.2 (by linarith)
      simp [this]
    · right
      exact ⟨_, rfl, hr⟩

theorem gateFold_ge (s : List Int) {c : ℚ} (hc0 : 0 ≤ c) (hc : roundQ binary32 c = c)
    (h16 : ∀ v ∈ s, -32768 ≤ v ∧ v ≤ 32767) :
    ∀ acc : FP, acc.GeQ c → (s.foldl gateStep acc).GeQ c := by
  induction s with
  | nil => intro acc h; exact h
  | cons v s ih =>
    intro acc h
    rw [List.foldl_cons]
    exact ih (fun w hw => h16 w (List.mem_cons_of_mem v hw)) _
      (gateStep_ge hc0 hc (h16 v (List.mem_cons_self v s)).1 (h16 v (List.mem_cons_self v s)).2 h)

theorem range_map_const {α : Type} (n : Nat) (c : α) :
    (List.range n).map (fun _ => c) = List.replicate n c := by
  rw [List.map_const', List.length_range]

/-- The downmix of a stereo packet of constant value one half. -/
theorem downmix_half (n : Nat) (hn : 2 * n < 2 ^ 32) :
    downmixToMono (List.replicate (2 * n) (FP.fin (1 / 2))) n 2
      = some (List.replicate n (FP.fin (1 / 2))) := by
  unfold downmixToMono
  rw [mapM_option_eq_map _ (fun _ => FP.fin (1 / 2)), range_map_const]
  intro i hi
  have hi' : i < n := List.mem_range.1 hi
  have h0 : (i * 2 + 0) % 2 ^ 32 = i * 2 := Nat.mod_eq_of_lt (by omega)
  have h1 : (i * 2 + 1) % 2 ^ 32 = i * 2 + 1 := Nat.mod_eq_of_lt (by omega)
  have hr : List.range 2 = [0, 1] := rfl
  have hval : FP.toFloat (FP.div binary64
      (FP.add binary64 (FP.add binary64 (FP.fin 0) (FP.fin (1 / 2))) (FP.fin (1 / 2)))
      (FP.ofNat binary64 (max 1 2))) = FP.fin (1 / 2) := by decide!
  unfold downmixFrame
  rw [hr, List.foldlM_cons, h0, List.getElem?_replicate, if_pos (by omega)]
  simp only [Option.map_some', Option.bind_eq_bind, Option.some_bind]
  rw [List.foldlM_cons, h1, List.getElem?_replicate, if_pos (by omega)]
  simp only [Option.map_some', Option.bind_eq_bind, Option.some_bind, List.foldlM_nil,
    Option.pure_def, hval]

/-- Resampling a constant signal of value one half from 48000 Hz. -/
theorem resample_half (n : Nat) (hn : 2 * n < 2 ^ 32) :
    linearResample (List.replicate (2 * n) (FP.fin (1 / 2))) 48000
      = some (List.replicate n (FP.fin (1 / 2))) := by
  have hratio : resampleRatio 48000 = FP.fin (1 / 2) := by decide!
  have hround0 : FP.round binary64 0 = FP.fin 0 := by decide!
  have hcount : resampleCount (2 * n) 48000 = some n := by
    unfold resampleCount
    rw [hratio, ofNat_binary64 _ (by omega)]
    simp only [FP.mul]
    have hq : ((2 * n : Nat) : ℚ) * (1 / 2) = ((n : Int) : ℚ) := by push_cast; ring
    have hrn : roundQ binary64 ((n : Int) : ℚ) = ((n : Int) : ℚ) :=
      roundQ_intCast binary64 n
        (by rw [abs_of_nonneg (Int.natCast_nonneg n)]; exact_mod_cast (by omega : n < 2 ^ 53))
        (by decide)
    rw [hq, round_eq_fin binary64 (by decide) (by decide), hrn]
    · have := toSizeT_floor_fin (y := ((n : Int) : ℚ)) (by positivity)
        (by exact_mod_cast (by omega : (n : Int) < 2 ^ 64))
      rw [this.1, Int.floor_intCast, Int.toNat_ofNat]
    · rw [abs_of_nonneg (by positivity)]
      exact le_trans (by exact_mod_cast (by omega : (n : Int) ≤ 2 ^ 64)) maxFinite_binary64
  unfold linearResample
  rw [if_neg (by decide), List.length_replicate, hcount]
  show (List.range n).mapM _ = _
  rw [mapM_option_eq_map _ (fun _ => FP.fin (1 / 2)), range_map_const]
  intro i hi
  have hi' : i < n := List.mem_range.1 hi
  have hq : (i : ℚ) / (1 / 2) = ((2 * i : Nat) : ℚ) := by push_cast; ring
  have hrn : roundQ binary64 (((2 * i : Nat) : Int) : ℚ) = (((2 * i : Nat) : Int) : ℚ) :=
    roundQ_intCast binary64 _
      (by rw [abs_of_nonneg (Int.natCast_nonneg _)]; exact_mod_cast (by omega : 2 * i < 2 ^ 53))
      (by decide)
  have hcast : (((2 * i : Nat) : Int) : ℚ) = ((2 * i : Nat) : ℚ) := by norm_cast
  rw [hcast] at hrn
  have hsz := toSizeT_floor_fin (y := ((2 * i : Nat) : ℚ)) (by positivity)
    (by exact_mod_cast (by omega : 2 * i < 2 ^ 64))
  have hfl : ⌊((2 * i : Nat) : ℚ)⌋.toNat = 2 * i := by
    rw [Int.floor_natCast, Int.toNat_ofNat]
  have hval : FP.toFloat (FP.add binary64
      (FP.mul binary64 (FP.sub binary64 (FP.fin 1) (FP.fin 0)) (FP.fin (1 / 2)))
      (FP.mul binary64 (FP.fin 0) (FP.fin (1 / 2)))) = FP.fin (1 / 2) := by decide!
  unfold resampleAt
  rw [hratio, ofNat_binary64 i (by omega)]
  simp only [FP.div, if_neg (by norm_num : ¬ ((1 : ℚ) / 2 = 0))]
  rw [hq, round_eq_fin binary64 (by decide) (by decide), hrn, hsz.1, hfl]
  · simp only [Option.bind_eq_bind, Option.some_bind, List.length_replicate]
    rw [List.getElem?_replicate, if_pos (by omega), List.getElem?_replicate, if_pos
      (lt_of_le_of_lt (min_le_left _ _) (lt_of_le_of_lt (Nat.mod_le _ _) (by omega))),
      ofNat_binary64 _ (by omega)]
    simp only [Option.some_bind, FP.sub, FP.neg, FP.add, add_neg_cancel, hround0]
    exact congrArg some hval
  · rw [abs_of_nonneg (by positivity)]
    exact le_trans (by exact_mod_cast (by omega : 2 * i ≤ 2 ^ 64)) maxFinite_binary64

theorem quantize_const (n : Nat) (x : FP) (v : Int) (h : quantizeInt x = some v)
    (h1 : -32768 ≤ v) (h2 : v ≤ 32767) :
    floatMonoToS16 (List.replicate n x) = some (List.replicate n v) := by
  unfold floatMonoToS16
  rw [mapM_option_eq_map _ (fun _ => v), List.map_replicate]
  intro a ha
  rw [List.eq_of_mem_replicate ha, h]
  simp [toInt16_of_range h1 h2]

/-- A packet of constant amplitude 16383 passes the gate, whatever its length. -/
theorem gate_16383 (n : Nat) (hn : 0 < n) (hn2 : n ≤ 2400) :
    gateSuppress (List.replicate n (16383 : Int)) = false := by
  obtain ⟨m, rfl⟩ : ∃ m, n = m + 1 := ⟨n - 1, by omega⟩
  rw [gateSuppress_eq (replicate_ne_nil _ _ hn)]
  have hfirst : gateStep (FP.fin 0) 16383 = FP.fin 268402688 := by decide!
  have hrep : roundQ binary32 268402688 = 268402688 := by decide!
  have hge : (gateSum (List.replicate (m + 1) (16383 : Int))).GeQ 268402688 := by
    unfold gateSum
    rw [List.replicate_succ, List.foldl_cons, hfirst]
    exact gateFold_ge _ (by norm_num) hrep
      (fun v hv => by rw [List.eq_of_mem_replicate hv]; norm_num) _ (Or.inr ⟨_, rfl, le_rfl⟩)
  rw [List.length_replicate, (ofNat32_spec (m + 1)).1 (by omega)]
  have hnq : (0 : ℚ) < ((m + 1 : Nat) : ℚ) := by positivity
  have hnq2 : ((m + 1 : Nat) : ℚ) ≤ 2400 := by exact_mod_cast hn2
  apply rms_not_lt_of_ge
  apply div32_geQ hnq
  rcases hge with h | ⟨A, hA, hA2⟩
  · exact Or.inl h
  · exact Or.inr ⟨A, hA, by linarith⟩

theorem emitChunks_full (s : List Int) (h : s.length = CHUNK_SAMPLES) :
    emitChunks s [] = ([s], []) := by
  obtain ⟨h1, h2, h3⟩ := emitChunks_spec s []
  have hlen := congrArg List.length h2
  rw [List.length_append, List.nil_append, List.length_flatten] at hlen
  have hc : CHUNK_SAMPLES = 2400 := rfl
  rcases hf : (emitChunks s []).1 with _ | ⟨f, fs⟩
  · rw [hf] at hlen
    simp at hlen
    omega
  · rw [hf] at hlen h1 h2
    have hfl : f.length = CHUNK_SAMPLES := h1 f (List.mem_cons_self f fs)
    rcases fs with _ | ⟨g, gs⟩
    · simp only [List.map_cons, List.map_nil, List.sum_cons, List.sum_nil, add_zero] at hlen
      have hz : (emitChunks s []).2 = [] := List.length_eq_zero.1 (by omega)
      rw [hz] at h2
      simp only [List.flatten_cons, List.flatten_nil, List.append_nil, List.nil_append] at h2
      rw [Prod.ext_iff]
      exact ⟨by rw [hf, h2], hz⟩
    · have hgl : g.length = CHUNK_SAMPLES :=
        h1 g (List.mem_cons_of_mem f (List.mem_cons_self g gs))
      simp only [List.map_cons, List.sum_cons] at hlen
      omega

theorem emitChunks_nil (carry : List Int) (h : carry.length < CHUNK_SAMPLES) :
    emitChunks [] carry = ([], carry) := by
  obtain ⟨h1, h2, -⟩ := emitChunks_spec [] carry
  have hlen := congrArg List.length h2
  rw [List.length_append, List.append_nil, List.length_flatten] at hlen
  rcases hf : (emitChunks [] carry).1 with _ | ⟨f, fs⟩
  · rw [hf] at h2
    rw [Prod.ext_iff]
    exact ⟨hf, by simpa using h2⟩
  · rw [hf] at hlen h1
    have hfl : f.length = CHUNK_SAMPLES := h1 f (List.mem_cons_self f fs)
    simp only [List.map_cons, List.sum_cons] at hlen
    omega

/-- Claim C9 (end-to-end scenario).  With an empty carry buffer, a packet of 4800 interleaved
stereo `float` frames at 48000 Hz with every sample equal to `0.5` is downmixed to 4800 samples
of `0.5`, resampled to 2400 samples of `0.5`, quantized to 2400 samples of `16383`, passes the
gate, and `emitChunks` writes exactly one frame of 2400 samples all equal to `16383` and leaves
the carry buffer empty. -/
theorem C9_end_to_end (isExt : Bool) :
    downmixToMono (List.replicate 9600 (FP.fin (1 / 2))) 4800 2
      = some (List.replicate 4800 (FP.fin (1 / 2))) ∧
    linearResample (List.replicate 4800 (FP.fin (1 / 2))) 48000
      = some (List.replicate 2400 (FP.fin (1 / 2))) ∧
    floatMonoToS16 (List.replicate 2400 (FP.fin (1 / 2))) = some (List.replicate 2400 16383) ∧
    gateSuppress (List.replicate 2400 16383) = false ∧
    processPacket ⟨true, isExt, 48000, 2⟩
        ⟨false, 4800, List.replicate 9600 (FP.fin (1 / 2)), []⟩ []
      = some ([List.replicate 2400 16383], []) := by
  have hd := downmix_half 4800 (by norm_num)
  have hr := resample_half 2400 (by norm_num)
  have hq := quantize_const 2400 (FP.fin (1 / 2)) 16383 (by decide!) (by norm_num) (by norm_num)
  have hg := gate_16383 2400 (by norm_num) le_rfl
  have he := emitChunks_full (List.replicate 2400 (16383 : Int)) (List.length_replicate _ _)
  refine ⟨hd, hr, hq, hg, ?_⟩
  have hdec : decodePacket ⟨true, isExt, 48000, 2⟩
      ⟨false, 4800, List.replicate 9600 (FP.fin (1 / 2)), []⟩
      = some (List.replicate 9600 (FP.fin (1 / 2))) := by
    unfold decodePacket
    rw [if_neg (by decide), if_pos rfl, if_pos (by rw [List.length_replicate]; exact le_refl 9600)]
    exact congrArg some (List.take_of_length_le
      (by rw [List.length_replicate]; exact le_refl 9600))
  unfold processPacket
  simp only [Option.bind_eq_bind]
  rw [hdec, Option.some_bind]
  erw [hd]
  rw [Option.some_bind]
  erw [hr]
  rw [Option.some_bind, hq, Option.some_bind, hg, if_neg Bool.false_ne_true, he]
  rfl

theorem round64_zero : FP.round binary64 0 = FP.fin 0 := by decide!

theorem round32_zero : FP.round binary32 0 = FP.fin 0 := by decide!

/-- The packet decoded by the capture loop when it is all zero, or silent with a sample count
that fits `uint32_t`. -/
theorem decode_zero (mix : WavFmt) (pkt : Packet)
    (h : (pkt.silent = true ∧ pkt.numFrames * mix.srcChans < 2 ^ 32) ∨ pkt.AllZero mix) :
    decodePacket mix pkt = some (List.replicate (pkt.numFrames * mix.srcChans) (FP.fin 0)) := by
  unfold decodePacket
  rcases h with ⟨hs, hlt⟩ | ⟨hs, ⟨hf, hlen, hall⟩ | ⟨hf, hlen, hall⟩⟩
  · rw [if_pos hs, Nat.mod_eq_of_lt hlt]
  · rw [if_neg (by rw [hs]; exact Bool.false_ne_true), if_pos hf, if_pos hlen]
    refine congrArg some (List.eq_replicate_iff.2 ⟨?_, hall⟩)
    rw [List.length_take]; exact min_eq_left hlen
  · rw [if_neg (by rw [hs]; exact Bool.false_ne_true), if_neg (by rw [hf]; exact Bool.false_ne_true),
      if_pos hlen]
    refine congrArg some (List.eq_replicate_iff.2 ⟨?_, ?_⟩)
    · rw [List.length_map, List.length_take]; exact min_eq_left hlen
    · intro x hx
      obtain ⟨v, hv, rfl⟩ := List.mem_map.1 hx
      rw [hall v hv]
      decide!

/-- The downmix of an all-zero buffer is all zero. -/
theorem downmix_zero (n c : Nat) (hc : c < 2 ^ 32) :
    downmixToMono (List.replicate (n * c) (FP.fin 0)) n c = some (List.replicate n (FP.fin 0)) := by
  unfold downmixToMono
  rw [mapM_option_eq_map _ (fun _ => FP.fin 0), range_map_const]
  intro i hi
  have hi' : i < n := List.mem_range.1 hi
  obtain ⟨acc, hacc, hP⟩ := foldlM_option_range_inv
    (fun acc k => ((List.replicate (n * c) (FP.fin 0))[(i * c + k) % 2 ^ 32]?).map
      (fun x => FP.add binary64 acc x))
    (fun _ acc => acc = FP.fin 0) (FP.fin 0) c rfl
    (by
      intro k x hk hx
      have hidx : (i * c + k) % 2 ^ 32 < n * c :=
        lt_of_le_of_lt (Nat.mod_le _ _) (by nlinarith)
      refine ⟨FP.fin 0, ?_, rfl⟩
      show ((List.replicate (n * c) (FP.fin 0))[(i * c + k) % 2 ^ 32]?).map
        (fun y => FP.add binary64 x y) = _
      rw [List.getElem?_replicate, if_pos hidx, hx]
      simp only [Option.map_some', FP.add, add_zero, round64_zero])
  have hm : FP.ofNat binary64 (max 1 c) = FP.fin ((max 1 c : Nat) : ℚ) :=
    ofNat_binary64 _ (max_lt (by norm_num) (by omega))
  have hmpos : ((max 1 c : Nat) : ℚ) ≠ 0 := by
    have : 0 < max 1 c := lt_of_lt_of_le Nat.zero_lt_one (le_max_left 1 c)
    exact_mod_cast this.ne'
  unfold downmixFrame
  rw [hacc, hP, hm]
  simp only [Option.map_some', FP.div, if_neg hmpos, zero_div, round64_zero, FP.toFloat,
    round32_zero]

/-- Resampling an all-zero signal gives an all-zero signal. -/
theorem resample_zero (n sr : Nat) (h0 : 0 < sr) (h1 : sr < 2 ^ 32) (hn : n < 2 ^ 32) :
    ∃ c : Nat, linearResample (List.replicate n (FP.fin 0)) sr
      = some (List.replicate c (FP.fin 0)) := by
  by_cases hne : sr = TARGET_RATE
  · exact ⟨n, by rw [linearResample, if_pos hne]⟩
  · have hlen : (List.replicate n (FP.fin 0)).length < 2 ^ 32 := by
      rw [List.length_replicate]; exact hn
    obtain ⟨c, hc, hmul, -⟩ := resampleCount_spec (List.replicate n (FP.fin 0)).length sr h0 h1 hlen
    refine ⟨c, ?_⟩
    unfold linearResample
    rw [if_neg hne, hc]
    show (List.range c).mapM _ = _
    rw [mapM_option_eq_map _ (fun _ => FP.fin 0), range_map_const]
    intro i hi
    obtain ⟨i0, i1, t, hi0, hi1, ht0, ht1, -, h⟩ :=
      resampleAt_spec (List.replicate n (FP.fin 0)) sr i c h0 h1 hlen hmul (List.mem_range.1 hi)
    rw [h, List.getElem_replicate, List.getElem_replicate]
    have hsub := round_fin_abs_le binary64 (by decide) (by decide) (by decide) 1 (by decide)
      (le_trans (by norm_num) maxFinite_binary64) (q := 1 + -t)
      (by rw [abs_le]; push_cast; constructor <;> linarith)
    simp only [FP.sub, FP.neg, FP.add, FP.mul, hsub.1, mul_zero, round64_zero, add_zero,
      FP.toFloat, round32_zero]

/-- An all-zero packet, or a silent packet whose sample count fits `uint32_t`, is stopped by
the silence gate or, when resampling leaves no sample, adds nothing to the carry buffer: no
frame is written and the carry buffer is unchanged. -/
theorem silence_emits_nothing (mix : WavFmt) (pkt : Packet) (carry : List Int)
    (hr0 : 0 < mix.srcRate) (hr1 : mix.srcRate < 2 ^ 32) (hc : mix.srcChans < 2 ^ 32)
    (hf : pkt.numFrames < 2 ^ 32)
    (hz : (pkt.silent = true ∧ pkt.numFrames * mix.srcChans < 2 ^ 32) ∨ pkt.AllZero mix)
    (hcarry : carry.length < CHUNK_SAMPLES) :
    processPacket mix pkt carry = some ([], carry) := by
  obtain ⟨c, hres⟩ := resample_zero pkt.numFrames mix.srcRate hr0 hr1 hf
  have hq := quantize_const c (FP.fin 0) 0 (by decide!) (by norm_num) (by norm_num)
  unfold processPacket
  simp only [Option.bind_eq_bind]
  rw [decode_zero mix pkt hz, Option.some_bind, downmix_zero _ _ hc, Option.some_bind, hres,
    Option.some_bind, hq, Option.some_bind]
  rcases Nat.eq_zero_or_pos c with rfl | hpos
  · have hg : gateSuppress (List.replicate 0 (0 : Int)) = false := rfl
    rw [hg, if_neg Bool.false_ne_true]
    exact congrArg some (emitChunks_nil carry hcarry)
  · have hg : gateSuppress (List.replicate c (0 : Int)) = true := by
      rw [gate_decision _ (replicate_ne_nil c 0 hpos)
        (fun v hv => by rw [List.eq_of_mem_replicate hv]; norm_num)
        (Or.inr (by rw [sumSquares_replicate]; norm_num))]
      rw [sumSquares_replicate, List.length_replicate]
      have : (0 : Int) < c := by exact_mod_cast hpos
      linarith
    rw [hg, if_pos rfl]
    rfl

/-- The bound on the sample count of a silent packet cannot be dropped from
`silence_emits_nothing`: the silent branch sizes the zero buffer in `uint32_t`, so for a packet
with the silent flag, `2 ^ 31` frames and two channels the buffer has
`2 ^ 31 * 2 mod 2 ^ 32 = 0` samples and `downmixToMono` reads `in[0]` past its end.  Such a
packet is larger than the one-second buffer that `main` requests from the audio client. -/
theorem silent_packet_uint32_wrap (carry : List Int) :
    decodePacket ⟨true, true, 48000, 2⟩ ⟨true, 2147483648, [], []⟩ = some [] ∧
    processPacket ⟨true, true, 48000, 2⟩ ⟨true, 2147483648, [], []⟩ carry = none := by
  have hdec : decodePacket ⟨true, true, 48000, 2⟩ ⟨true, 2147483648, [], []⟩ = some [] := by
    decide!
  have hdm : downmixToMono [] 2147483648 2 = none :=
    mapM_option_none _ _ 0 (List.mem_range.2 (by norm_num)) (by decide!)
  refine ⟨hdec, ?_⟩
  unfold processPacket
  simp only [Option.bind_eq_bind]
  rw [hdec, Option.some_bind]
  show (downmixToMono [] 2147483648 2).bind _ = none
  rw [hdm]
  rfl

/-! ## Theorems: batching independence of emitChunks -/

/-- A sample sequence has only one decomposition into frames of `K` samples followed by a
remainder shorter than `K`. -/
theorem chunks_unique (K : Nat) (F : List (List Int)) :
    ∀ (F' : List (List Int)) (C C' : List Int), (∀ f ∈ F, f.length = K) →
      (∀ f ∈ F', f.length = K) → C.length < K → C'.length < K →
      F.flatten ++ C = F'.flatten ++ C' → F = F' ∧ C = C' := by
  induction F with
  | nil =>
    intro F' C C' _ hF' hC _ h
    cases F' with
    | nil => exact ⟨rfl, by simpa using h⟩
    | cons f' Fs' =>
      exfalso
      have hlen := congrArg List.length h
      have hf' := hF' f' (List.mem_cons_self f' Fs')
      simp only [List.flatten_nil, List.nil_append, List.flatten_cons, List.length_append] at hlen
      omega
  | cons f Fs ih =>
    intro F' C C' hF hF' hC hC' h
    have hf := hF f (List.mem_cons_self f Fs)
    cases F' with
    | nil =>
      exfalso
      have hlen := congrArg List.length h
      simp only [List.flatten_nil, List.nil_append, List.flatten_cons, List.length_append] at hlen
      omega
    | cons f' Fs' =>
      have hf' := hF' f' (List.mem_cons_self f' Fs')
      rw [List.flatten_cons, List.flatten_cons, List.append_assoc, List.append_assoc] at h
      obtain ⟨h1, h2⟩ := List.append_inj h (by rw [hf, hf'])
      obtain ⟨h3, h4⟩ := ih Fs' C C' (fun g hg => hF g (List.mem_cons_of_mem f hg))
        (fun g hg => hF' g (List.mem_cons_of_mem f' hg)) hC hC' h2
      exact ⟨by rw [h1, h3], h4⟩

/-- Claim C17 (chunker batching independence).  For every carry buffer `c` and all batches `a`
and `b`, calling `emitChunks` with `a` and then with `b` writes the same sequence of frames
and leaves the same carry buffer as one call with `a ++ b` from the same carry buffer. -/
theorem C17_batching_independence (c a b : List Int) :
    (emitChunks a c).1 ++ (emitChunks b (emitChunks a c).2).1 = (emitChunks (a ++ b) c).1 ∧
    (emitChunks b (emitChunks a c).2).2 = (emitChunks (a ++ b) c).2 := by
  obtain ⟨a1, a2, -⟩ := emitChunks_spec a c
  obtain ⟨b1, b2, b3⟩ := emitChunks_spec b (emitChunks a c).2
  obtain ⟨c1, c2, c3⟩ := emitChunks_spec (a ++ b) c
  apply chunks_unique CHUNK_SAMPLES _ _ _ _ _ c1 b3 c3
  · rw [List.flatten_append, List.append_assoc, b2, ← List.append_assoc, a2, c2,
      List.append_assoc]
  · intro f hf
    rcases List.mem_append.1 hf with h | h
    · exact a1 f h
    · exact b1 f h

/-! ## Theorems: downmix with zero channels, parseFormat, quantizer order -/

theorem downmixFrame_zero_chans (inp : List FP) (i : Nat) :
    downmixFrame inp 0 i = some (FP.fin 0) := by
  have h : FP.toFloat (FP.div binary64 (FP.fin 0) (FP.ofNat binary64 (max 1 0))) = FP.fin 0 := by
    decide!
  unfold downmixFrame
  rw [List.range_zero]
  exact congrArg some h

/-- Claim C14, the claim as stated fails.  On the buffer `[0.5]` with one frame, `downmixToMono`
with `channelCount = 0` returns `[0.0]` while with `channelCount = 1` it returns `[0.5]`. -/
theorem C14_counterexample :
    downmixToMono [FP.fin (1 / 2)] 1 0 = some [FP.fin 0] ∧
    downmixToMono [FP.fin (1 / 2)] 1 1 = some [FP.fin (1 / 2)] ∧
    downmixToMono [FP.fin (1 / 2)] 1 0 ≠ downmixToMono [FP.fin (1 / 2)] 1 1 := by
  decide!

/-- Claim C14 (downmix with zero channels), amended.  With `channelCount = 0` the divisor is
`max(1, 0) = 1`, so nothing is divided by zero; for every frame count `n` and every buffer
(also an empty one) no sample is read and `downmixToMono` returns `n` samples that are all
`0.0`. -/
theorem C14_downmix_zero_channels (inp : List FP) (n : Nat) :
    FP.ofNat binary64 (max 1 0) = FP.fin 1 ∧
    downmixToMono inp n 0 = some (List.replicate n (FP.fin 0)) ∧
    (List.replicate n (FP.fin 0)).length = n := by
  refine ⟨by decide!, ?_, List.length_replicate _ _⟩
  unfold downmixToMono
  rw [mapM_option_eq_map (downmixFrame inp 0) (fun _ => FP.fin 0) (List.range n)
    (fun i _ => downmixFrame_zero_chans inp i)]
  rw [range_map_const]

/-- Claim C16 (format parsing).  For every raw format record, whatever the values of the
Windows constants, the descriptor returned by `parseFormat` has `srcRate` and `srcChans`
equal to the record's `nSamplesPerSec` and `nChannels`, `isExt` true exactly when the format
tag is `WAVE_FORMAT_EXTENSIBLE`, and `isFloat` true exactly when the tag is extensible and
the sub-format is `KSDATAFORMAT_SUBTYPE_IEEE_FLOAT`, or the tag is not extensible and is
`WAVE_FORMAT_IEEE_FLOAT`. -/
theorem C16_format_parsing (k : WinConsts) (wfx : WAVEFORMATEXTENSIBLE) :
    (parseFormat k wfx).1.srcRate = wfx.Format.nSamplesPerSec ∧
    (parseFormat k wfx).1.srcChans = wfx.Format.nChannels ∧
    ((parseFormat k wfx).1.isExt = true ↔ wfx.Format.wFormatTag = k.WAVE_FORMAT_EXTENSIBLE) ∧
    ((parseFormat k wfx).1.isFloat = true ↔
      (wfx.Format.wFormatTag = k.WAVE_FORMAT_EXTENSIBLE ∧
        wfx.SubFormat = k.KSDATAFORMAT_SUBTYPE_IEEE_FLOAT) ∨
      (wfx.Format.wFormatTag ≠ k.WAVE_FORMAT_EXTENSIBLE ∧
        wfx.Format.wFormatTag = k.WAVE_FORMAT_IEEE_FLOAT)) := by
  unfold parseFormat
  by_cases h : wfx.Format.wFormatTag = k.WAVE_FORMAT_EXTENSIBLE
  · rw [if_pos h]
    simp [h]
  · rw [if_neg h]
    simp [h]

theorem truncQ_mono {a b : ℚ} (h : a ≤ b) : FP.truncQ a ≤ FP.truncQ b := by
  unfold FP.truncQ
  by_cases ha : 0 ≤ a
  · rw [if_pos ha, if_pos (le_trans ha h)]
    exact Int.floor_mono h
  · rw [if_neg ha]
    have ha0 : a < 0 := not_le.1 ha
    by_cases hb : 0 ≤ b
    · rw [if_pos hb]
      exact le_trans (Int.ceil_le.2 (by exact_mod_cast ha0.le)) (Int.floor_nonneg.2 hb)
    · rw [if_neg hb]
      exact Int.ceil_mono h

/-- The value the quantizer computes for a finite sample, written out. -/
theorem quantizeInt_fin_eq (q : ℚ) :
    quantizeInt (FP.fin q) = some (FP.truncQ (roundQ binary32
      (max (-1) (min 1 q) * (if max (-1) (min 1 q) < 0 then 32768 else 32767)))) := by
  have hc1 : (-1 : ℚ) ≤ max (-1) (min 1 q) := le_max_left _ _
  have hc2 : max (-1) (min 1 q) ≤ (1 : ℚ) := max_le (by norm_num) (min_le_left _ _)
  unfold quantizeInt
  simp only [clamp_fin, FP.lt, FP.mul, decide_eq_true_eq]
  by_cases hneg : max (-1) (min 1 q) < 0
  · rw [if_pos hneg, if_pos hneg]
    have hb := roundQ32_bounds (q := max (-1) (min 1 q) * 32768) (-32768) 0 (by decide) (by decide)
      (by push_cast; linarith) (by push_cast; linarith)
    have hfin : FP.round binary32 (max (-1) (min 1 q) * 32768)
        = FP.fin (roundQ binary32 (max (-1) (min 1 q) * 32768)) := by
      apply round_eq_fin binary32 (by decide) (by decide)
      rw [maxFinite_binary32, abs_le]
      constructor <;> linarith
    have ht := truncQ_bounds (-32768) 0 (by decide) (by decide) hb.1 hb.2
    rw [hfin]
    simp only [FP.toInt]
    rw [if_pos ⟨by omega, by omega⟩]
  · rw [if_neg hneg, if_neg hneg]
    have hnn : (0 : ℚ) ≤ max (-1) (min 1 q) := not_lt.1 hneg
    have hb := roundQ32_bounds (q := max (-1) (min 1 q) * 32767) 0 32767 (by decide) (by decide)
      (by push_cast; linarith) (by push_cast; linarith)
    have hfin : FP.round binary32 (max (-1) (min 1 q) * 32767)
        = FP.fin (roundQ binary32 (max (-1) (min 1 q) * 32767)) := by
      apply round_eq_fin binary32 (by decide) (by decide)
      rw [maxFinite_binary32, abs_le]
      constructor <;> linarith
    have ht := truncQ_bounds 0 32767 (by decide) (by decide) hb.1 hb.2
    rw [hfin]
    simp only [FP.toInt]
    rw [if_pos ⟨by omega, by omega⟩]

/-- The quantizer is monotone on finite samples. -/
theorem quantizeInt_fin_mono {a b : ℚ} (h : a ≤ b) :
    ∃ va vb : Int, quantizeInt (FP.fin a) = some va ∧ quantizeInt (FP.fin b) = some vb ∧
      va ≤ vb := by
  obtain ⟨va, hva, _, _, hsa, hsa'⟩ := quantizeInt_fin a
  obtain ⟨vb, hvb, _, _, hsb, hsb'⟩ := quantizeInt_fin b
  refine ⟨va, vb, hva, hvb, ?_⟩
  have hc : max (-1) (min 1 a) ≤ max (-1) (min 1 b) := max_le_max le_rfl (min_le_min le_rfl h)
  have ea := quantizeInt_fin_eq a
  have eb := quantizeInt_fin_eq b
  rw [hva] at ea
  rw [hvb] at eb
  have ea' := Option.some.inj ea
  have eb' := Option.some.inj eb
  by_cases hb0 : b < 0
  · have hcb : max (-1) (min 1 b) < 0 :=
      max_lt (by norm_num) (lt_of_le_of_lt (min_le_right _ _) hb0)
    have hca : max (-1) (min 1 a) < 0 := lt_of_le_of_lt hc hcb
    rw [if_pos hca] at ea'
    rw [if_pos hcb] at eb'
    rw [ea', eb']
    exact truncQ_mono (roundQ_mono binary32 (by decide) (by linarith))
  · have hb1 : 0 ≤ b := not_lt.1 hb0
    by_cases ha0 : a < 0
    · exact le_trans (hsa ha0) (hsb' hb1)
    · have ha1 : 0 ≤ a := not_lt.1 ha0
      have hca : ¬ max (-1) (min 1 a) < 0 :=
        not_lt.2 (le_max_of_le_right (le_min (by norm_num) ha1))
      have hcb : ¬ max (-1) (min 1 b) < 0 :=
        not_lt.2 (le_max_of_le_right (le_min (by norm_num) hb1))
      rw [if_neg hca] at ea'
      rw [if_neg hcb] at eb'
      rw [ea', eb']
      exact truncQ_mono (roundQ_mono binary32 (by decide) (by linarith))

/-- Claim C18 (quantizer monotonicity).  For all samples `x <= y` (finite of any magnitude or
infinite; the comparison is false when one is NaN) `floatMonoToS16` returns values
`vx ≤ vy` for `[x]` and `[y]`; and for every sample `x` the value returned for `[x]` is
`≤ 0` when `x < 0`, `≥ 0` when `x > 0` and `0` when `x` is `0.0`. -/
theorem C18_quantizer_monotone :
    (∀ x y : FP, FP.le x y = true →
      ∃ vx vy : Int, floatMonoToS16 [x] = some [vx] ∧ floatMonoToS16 [y] = some [vy] ∧
        vx ≤ vy) ∧
    (∀ x : FP, ∃ v : Int, floatMonoToS16 [x] = some [v] ∧
      (FP.lt x (FP.fin 0) = true → v ≤ 0) ∧ (FP.lt (FP.fin 0) x = true → 0 ≤ v) ∧
      (x = FP.fin 0 → v = 0)) := by
  have key : ∀ x : FP, ∃ v : Int, quantizeInt x = some v ∧ floatMonoToS16 [x] = some [v] ∧
      -32768 ≤ v ∧ v ≤ 32767 := by
    intro x
    obtain ⟨v, h, h1, h2⟩ := quantizeInt_range x
    refine ⟨v, h, ?_, h1, h2⟩
    rw [floatMonoToS16_singleton h, toInt16_of_range h1 h2]
  have hpos : quantizeInt (FP.inf false) = some 32767 := by decide!
  have hneg : quantizeInt (FP.inf true) = some (-32768) := by decide!
  constructor
  · intro x y hxy
    obtain ⟨vx, qx, fx, x1, x2⟩ := key x
    obtain ⟨vy, qy, fy, y1, y2⟩ := key y
    refine ⟨vx, vy, fx, fy, ?_⟩
    cases x with
    | fin a =>
      cases y with
      | fin b =>
        have hab : a ≤ b := by simpa [FP.le] using hxy
        obtain ⟨va, vb, ha, hb, hle⟩ := quantizeInt_fin_mono hab
        rw [qx] at ha
        rw [qy] at hb
        rw [Option.some.inj ha, Option.some.inj hb]
        exact hle
      | inf s =>
        have hs : s = false := by simpa [FP.le] using hxy
        subst hs
        rw [hpos] at qy
        rw [← Option.some.inj qy]
        exact x2
      | nan => simp [FP.le] at hxy
    | inf s =>
      cases s with
      | true =>
        rw [hneg] at qx
        rw [← Option.some.inj qx]
        exact y1
      | false =>
        cases y with
        | fin b => simp [FP.le] at hxy
        | inf t =>
          have ht : t = false := by simpa [FP.le] using hxy
          subst ht
          rw [qx] at qy
          rw [Option.some.inj qy]
        | nan => simp [FP.le] at hxy
    | nan => simp [FP.le] at hxy
  · intro x
    obtain ⟨v, qx, fx, x1, x2⟩ := key x
    refine ⟨v, fx, ?_, ?_, ?_⟩
    · intro hlt
      cases x with
      | fin a =>
        have ha : a < 0 := by simpa [FP.lt] using hlt
        obtain ⟨w, hw, _, _, hs, _⟩ := quantizeInt_fin a
        rw [qx] at hw
        rw [Option.some.inj hw]
        exact hs ha
      | inf s =>
        have hs : s = true := by simpa [FP.lt] using hlt
        subst hs
        rw [hneg] at qx
        rw [← Option.some.inj qx]
        decide
      | nan => simp [FP.lt] at hlt
    · intro hlt
      cases x with
      | fin a =>
        have ha : 0 < a := by simpa [FP.lt] using hlt
        obtain ⟨w, hw, _, _, _, hs⟩ := quantizeInt_fin a
        rw [qx] at hw
        rw [Option.some.inj hw]
        exact hs ha.le
      | inf s =>
        have hs : s = false := by simpa [FP.lt] using hlt
        subst hs
        rw [hpos] at qx
        rw [← Option.some.inj qx]
        decide
      | nan => simp [FP.lt] at hlt
    · intro hx
      subst hx
      have h0 : quantizeInt (FP.fin 0) = some 0 := by decide!
      rw [qx] at h0
      exact Option.some.inj h0

theorem C18_quantizer_monotone_witness :
    FP.le (FP.fin (-1 / 2)) (FP.fin (1 / 2)) = true ∧
    ∃ vx vy : Int, floatMonoToS16 [FP.fin (-1 / 2)] = some [vx] ∧
      floatMonoToS16 [FP.fin (1 / 2)] = some [vy] ∧ vx ≤ vy :=
  ⟨by decide!, C18_quantizer_monotone.1 (FP.fin (-1 / 2)) (FP.fin (1 / 2)) (by decide!)⟩

/-! ## Theorems: PCM16 round trip -/

/-- The decoding `v / 32768.0f` of an `int16_t` sample is exact. -/
theorem pcm_decode {v : Int} (h1 : -32768 ≤ v) (h2 : v ≤ 32767) :
    FP.div binary32 (FP.ofInt binary32 v) (FP.fin 32768) = FP.fin ((v : ℚ) / 32768) := by
  have hv : |(v : ℚ)| ≤ 32768 := by
    rw [abs_le]
    constructor <;> [exact_mod_cast (by omega : -(32768 : Int) ≤ v);
      exact_mod_cast (by omega : v ≤ (32768 : Int))]
  rw [ofInt32_int16 h1 h2]
  simp only [FP.div]
  rw [if_neg (by norm_num)]
  have hq : |(v : ℚ) / 32768| ≤ 2 ^ 64 := by
    rw [abs_div, abs_of_pos (by norm_num : (0 : ℚ) < 32768)]
    rw [div_le_iff₀ (by norm_num)]
    linarith
  rw [round32_fin hq]
  have h := roundQ_int_mul_zpow binary32 v (-15) (by
    have : |v| < 16777216 := by rw [abs_lt]; constructor <;> omega
    exact this) (by decide)
  have e : (v : ℚ) * (2 : ℚ) ^ (-15 : Int) = (v : ℚ) / 32768 := by
    rw [zpow_neg, div_eq_mul_inv]
    norm_num
  rw [e] at h
  rw [h]

/-- Quantizing the decoded value of a positive `int16_t` sample loses one unit. -/
theorem quantize_decoded_pos {v : Int} (h1 : 0 < v) (h2 : v ≤ 32767) :
    quantizeInt (FP.fin ((v : ℚ) / 32768)) = some (v - 1) := by
  have hv0 : (0 : ℚ) < v := by exact_mod_cast h1
  have hv1 : (1 : ℚ) ≤ v := by exact_mod_cast h1
  have hv2 : (v : ℚ) ≤ 32767 := by exact_mod_cast h2
  have hq0 : (0 : ℚ) < (v : ℚ) / 32768 := by positivity
  have hq1 : (v : ℚ) / 32768 < 1 := by rw [div_lt_iff₀ (by norm_num)]; linarith
  have hc : max (-1) (min 1 ((v : ℚ) / 32768)) = (v : ℚ) / 32768 := by
    rw [min_eq_right hq1.le, max_eq_right (by linarith)]
  rw [quantizeInt_fin_eq, hc, if_neg (not_lt.2 hq0.le)]
  have hlow : ((v - 1 : Int) : ℚ) ≤ roundQ binary32 ((v : ℚ) / 32768 * 32767) := by
    have hm := roundQ_mono binary32 (by decide) (a := ((v - 1 : Int) : ℚ))
      (b := (v : ℚ) / 32768 * 32767) (by
        push_cast
        rw [div_mul_eq_mul_div, le_div_iff₀ (by norm_num)]
        linarith)
    rwa [roundQ32_int (v - 1) (by rw [abs_le]; constructor <;> omega)] at hm
  have hpos : (0 : ℚ) < (v : ℚ) / 32768 * 32767 := by positivity
  have hhalf : (2 : ℚ) ^ (-1 : Int) ≤ |(v : ℚ) / 32768 * 32767| := by
    rw [abs_of_pos hpos, zpow_neg, zpow_one, div_mul_eq_mul_div, le_div_iff₀ (by norm_num)]
    linarith
  have he : binary32.emin ≤ expo ((v : ℚ) / 32768 * 32767) :=
    le_trans (by decide) (le_expo_of_zpow_le hhalf)
  have herr := abs_roundQ_sub_le binary32 (ne_of_gt hpos) he
  rw [abs_of_pos hpos] at herr
  have hup : roundQ binary32 ((v : ℚ) / 32768 * 32767) < ((v - 1 : Int) : ℚ) + 1 := by
    have h3 := (abs_le.1 herr).2
    have e24 : (2 : ℚ) ^ (-(binary32.prec : Int)) = 1 / 16777216 := by
      rw [show (binary32.prec : Int) = 24 from rfl, zpow_neg]
      norm_num
    rw [e24] at h3
    push_cast
    have h4 : (v : ℚ) / 32768 * 32767 * (1 / 16777216) + (v : ℚ) / 32768 * 32767 < v := by
      have : (v : ℚ) / 32768 * 32767 * (1 / 16777216) + (v : ℚ) / 32768 * 32767
          = (v : ℚ) * (32767 * 16777217 / (32768 * 16777216)) := by ring
      rw [this]
      have hlt : (32767 * 16777217 / (32768 * 16777216) : ℚ) < 1 := by norm_num
      nlinarith
    linarith
  have hnn : (0 : ℚ) ≤ roundQ binary32 ((v : ℚ) / 32768 * 32767) :=
    le_trans (by exact_mod_cast (by omega : (0 : Int) ≤ v - 1)) hlow
  unfold FP.truncQ
  rw [if_pos hnn]
  exact congrArg some (Int.floor_eq_iff.2 ⟨hlow, hup⟩)

/-- Quantizing the decoded value of a non-positive `int16_t` sample gives the sample back. -/
theorem quantize_decoded_nonpos {v : Int} (h1 : -32768 ≤ v) (h2 : v ≤ 0) :
    quantizeInt (FP.fin ((v : ℚ) / 32768)) = some v := by
  have hv1 : (-32768 : ℚ) ≤ v := by exact_mod_cast h1
  have hv2 : (v : ℚ) ≤ 0 := by exact_mod_cast h2
  have hq0 : (v : ℚ) / 32768 ≤ 0 := div_nonpos_of_nonpos_of_nonneg hv2 (by norm_num)
  have hq1 : -1 ≤ (v : ℚ) / 32768 := by rw [le_div_iff₀ (by norm_num)]; linarith
  have hc : max (-1) (min 1 ((v : ℚ) / 32768)) = (v : ℚ) / 32768 := by
    rw [min_eq_right (by linarith), max_eq_right hq1]
  rw [quantizeInt_fin_eq, hc]
  have hr : roundQ binary32 (v : ℚ) = v := roundQ32_int v (by rw [abs_le]; constructor <;> omega)
  by_cases hneg : (v : ℚ) / 32768 < 0
  · rw [if_pos hneg, div_mul_cancel₀ _ (by norm_num : (32768 : ℚ) ≠ 0), hr]
    unfold FP.truncQ
    have hv : ¬ (0 : ℚ) ≤ v := by
      intro h0
      have : (v : ℚ) = 0 := le_antisymm hv2 h0
      rw [this] at hneg
      norm_num at hneg
    rw [if_neg hv, Int.ceil_intCast]
  · have h0 : (v : ℚ) / 32768 = 0 := le_antisymm hq0 (not_lt.1 hneg)
    have hv : (v : ℚ) = 0 := by
      rcases div_eq_zero_iff.1 h0 with h | h
      · exact h
      · norm_num at h
    have hv0 : v = 0 := by exact_mod_cast hv
    subst hv0
    rw [if_neg hneg]
    have : roundQ binary32 (((0 : Int) : ℚ) / 32768 * 32767) = 0 := by
      rw [show (((0 : Int) : ℚ) / 32768 * 32767) = 0 by norm_num, roundQ_zero]
    rw [this]
    simp [FP.truncQ]

/-- Claim C19 (PCM16 decode/quantize round trip).  For every `int16_t` sample `v`, the
integer-PCM input path decodes a one-sample mono packet holding `v` to the `float`
`v / 32768` exactly, and `floatMonoToS16` maps that value to `v` when `v ≤ 0` and to `v - 1`
when `v > 0`. -/
theorem C19_pcm16_round_trip (mix : WavFmt) (v : Int) (hf : mix.isFloat = false)
    (hc : mix.srcChans = 1) (h1 : -32768 ≤ v) (h2 : v ≤ 32767) :
    decodePacket mix ⟨false, 1, [], [v]⟩ = some [FP.fin ((v : ℚ) / 32768)] ∧
    floatMonoToS16 [FP.fin ((v : ℚ) / 32768)] = some [if v ≤ 0 then v else v - 1] := by
  constructor
  · unfold decodePacket
    simp only [hf, hc, Bool.false_eq_true, if_false, List.length_singleton, Nat.mul_one,
      le_refl, if_true, List.take_succ_cons, List.take_zero, List.map_cons, List.map_nil,
      pcm_decode h1 h2]
  · by_cases hv : v ≤ 0
    · rw [if_pos hv, floatMonoToS16_singleton (quantize_decoded_nonpos h1 hv),
        toInt16_of_range h1 h2]
    · rw [if_neg hv, floatMonoToS16_singleton (quantize_decoded_pos (not_le.1 hv) h2),
        toInt16_of_range (by omega) (by omega)]

theorem C19_pcm16_round_trip_witness :
    decodePacket ⟨false, false, 48000, 1⟩ ⟨false, 1, [], [12345]⟩
      = some [FP.fin (((12345 : Int) : ℚ) / 32768)] ∧
    floatMonoToS16 [FP.fin (((12345 : Int) : ℚ) / 32768)]
      = some [if (12345 : Int) ≤ 0 then 12345 else 12345 - 1] :=
  C19_pcm16_round_trip ⟨false, false, 48000, 1⟩ 12345 rfl rfl (by decide) (by decide)

/-! ## Theorems: capture loop -/

/-- The iteration body from the acquired packet on is the conversion followed by the gate and
`emitChunks`. -/
theorem processPacket_eq_convert (mix : WavFmt) (pkt : Packet) (carry : List Int) :
    processPacket mix pkt carry = (convertPacket mix pkt).map (fun s16 =>
      if gateSuppress s16 then ([], carry) else emitChunks s16 carry) := by
  unfold processPacket convertPacket
  simp only [Option.bind_eq_bind, Option.pure_def]
  cases decodePacket mix pkt with
  | none => rfl
  | some a =>
    simp only [Option.some_bind]
    cases downmixToMono a pkt.numFrames mix.srcChans with
    | none => rfl
    | some b =>
      simp only [Option.some_bind]
      cases linearResample b mix.srcRate with
      | none => rfl
      | some c =>
        simp only [Option.some_bind]
        cases floatMonoToS16 c with
        | none => rfl
        | some d =>
          simp only [Option.some_bind, Option.map_some']
          split_ifs <;> rfl

/-- The conversion of a packet of 4800 stereo frames of constant value one half at 48000 Hz. -/
theorem convert_half (isExt : Bool) :
    convertPacket ⟨true, isExt, 48000, 2⟩
        ⟨false, 4800, List.replicate 9600 (FP.fin (1 / 2)), []⟩
      = some (List.replicate 2400 16383) := by
  have hd := downmix_half 4800 (by norm_num)
  have hr := resample_half 2400 (by norm_num)
  have hq := quantize_const 2400 (FP.fin (1 / 2)) 16383 (by decide!) (by norm_num) (by norm_num)
  have hdec : decodePacket ⟨true, isExt, 48000, 2⟩
      ⟨false, 4800, List.replicate 9600 (FP.fin (1 / 2)), []⟩
      = some (List.replicate 9600 (FP.fin (1 / 2))) := by
    unfold decodePacket
    rw [if_neg (by decide), if_pos rfl, if_pos (by rw [List.length_replicate]; exact le_refl 9600)]
    exact congrArg some (List.take_of_length_le
      (by rw [List.length_replicate]; exact le_refl 9600))
  unfold convertPacket
  simp only [Option.bind_eq_bind]
  rw [hdec, Option.some_bind]
  erw [hd]
  rw [Option.some_bind]
  erw [hr]
  rw [Option.some_bind, hq]

/-- An iteration whose poll succeeded with a non-zero size and whose packet was acquired. -/
theorem loopIteration_packet (mix : WavFmt) (env : IterEnv) (carry s16 : List Int)
    (hp : env.pollFailed = false) (hn : env.packetFrames ≠ 0) (hg : env.getFailed = false)
    (hc : convertPacket mix env.pkt = some s16) :
    loopIteration mix env carry = some (
      if gateSuppress s16 then IterResult.next true [] carry false
      else
        IterResult.next (!(env.ferrorStdout || env.escapeDown))
          (emitChunks s16 carry).1 (emitChunks s16 carry).2 false) := by
  unfold loopIteration
  rw [hp, if_neg Bool.false_ne_true, if_neg hn, hg, if_neg Bool.false_ne_true, hc]
  rfl

/-- Claim C11, the claim as stated fails.  In an iteration whose poll returns no frames, and in
an iteration whose packet (here four silent frames) is suppressed by the silence gate, the run
flag stays true although the stop key is down, and the loop goes on to the next iteration. -/
theorem C11_counterexample :
    loopIteration ⟨true, true, 48000, 2⟩
        ⟨false, 0, false, ⟨false, 0, [], []⟩, false, false, true⟩ []
      = some (IterResult.next true [] [] true) ∧
    loopIteration ⟨true, true, 48000, 2⟩
        ⟨false, 4, false, ⟨true, 4, [], []⟩, false, false, true⟩ []
      = some (IterResult.next true [] [] false) ∧
    captureLoop ⟨true, true, 48000, 2⟩
        [⟨false, 0, false, ⟨false, 0, [], []⟩, false, false, true⟩,
         ⟨false, 4, false, ⟨true, 4, [], []⟩, false, false, true⟩] []
      = some (LoopEnd.stillRunning, [], []) := by
  decide!

/-- Claim C11 (stop check), amended.  The two stop conditions are looked at only at the end of
an iteration that reaches `emitChunks`.  An iteration whose poll succeeds and returns no frames
sleeps and leaves the run flag true, whatever the stop key and the sink state are; so does an
iteration whose converted packet is suppressed by the silence gate.  In an iteration whose poll
succeeds with a non-zero size and whose packet is acquired, converted and not suppressed, the
run flag at the end of the iteration is false exactly when the sink is in a failed state or the
stop key is down, and then the loop is left after the frames of that iteration, whatever would
follow. -/
theorem C11_stop_check (mix : WavFmt) (env : IterEnv) (carry : List Int) :
    (env.pollFailed = false → env.packetFrames = 0 →
      loopIteration mix env carry = some (IterResult.next true [] carry true)) ∧
    (∀ s16 : List Int, env.pollFailed = false → env.packetFrames ≠ 0 → env.getFailed = false →
      convertPacket mix env.pkt = some s16 →
      (gateSuppress s16 = true →
        loopIteration mix env carry = some (IterResult.next true [] carry false)) ∧
      (gateSuppress s16 = false →
        loopIteration mix env carry
          = some (IterResult.next (!(env.ferrorStdout || env.escapeDown))
              (emitChunks s16 carry).1 (emitChunks s16 carry).2 false) ∧
        ((env.ferrorStdout = true ∨ env.escapeDown = true) → ∀ rest : List IterEnv,
          captureLoop mix (env :: rest) carry
            = some (LoopEnd.stopped, (emitChunks s16 carry).1, (emitChunks s16 carry).2)))) := by
  constructor
  · intro hp hn
    unfold loopIteration
    rw [hp, if_neg Bool.false_ne_true, if_pos hn]
  · intro s16 hp hn hg hc
    have h := loopIteration_packet mix env carry s16 hp hn hg hc
    constructor
    · intro hs
      rw [h, hs, if_pos rfl]
    · intro hs
      rw [hs, if_neg Bool.false_ne_true] at h
      refine ⟨h, ?_⟩
      intro hstop rest
      have hrun : (!(env.ferrorStdout || env.escapeDown)) = false := by
        rcases hstop with h1 | h1 <;> simp [h1]
      rw [hrun] at h
      simp only [captureLoop, h, Bool.false_eq_true, if_false]

theorem C11_stop_check_witness :
    convertPacket ⟨true, true, 24000, 1⟩ ⟨false, 1, [FP.fin (1 / 2)], []⟩ = some [16383] ∧
    gateSuppress [16383] = false ∧
    loopIteration ⟨true, true, 24000, 1⟩
        ⟨false, 1, false, ⟨false, 1, [FP.fin (1 / 2)], []⟩, false, false, true⟩ []
      = some (IterResult.next (!(false || true)) (emitChunks [16383] []).1
          (emitChunks [16383] []).2 false) :=
  ⟨by decide!, by decide!,
    (((C11_stop_check ⟨true, true, 24000, 1⟩
      ⟨false, 1, false, ⟨false, 1, [FP.fin (1 / 2)], []⟩, false, false, true⟩ []).2
      [16383] rfl (by decide) rfl (by decide!)).2 (by decide!)).1⟩

/-- An iteration that reaches the end with the sink in order and the stop key up. -/
theorem loopIteration_pass (mix : WavFmt) (env : IterEnv) (carry s16 : List Int)
    (frames : List (List Int)) (carry1 : List Int)
    (hp : env.pollFailed = false) (hn : env.packetFrames ≠ 0) (hg : env.getFailed = false)
    (hc : convertPacket mix env.pkt = some s16) (hs : gateSuppress s16 = false)
    (hf : env.ferrorStdout = false) (hk : env.escapeDown = false)
    (he : emitChunks s16 carry = (frames, carry1)) :
    loopIteration mix env carry = some (IterResult.next true frames carry1 false) := by
  rw [loopIteration_packet mix env carry s16 hp hn hg hc, hs, if_neg Bool.false_ne_true, hf, hk,
    he]
  rfl

theorem captureLoop_one (mix : WavFmt) (env : IterEnv) (carry : List Int)
    (frames : List (List Int)) (carry1 : List Int)
    (h : loopIteration mix env carry = some (IterResult.next true frames carry1 false)) :
    captureLoop mix [env] carry = some (LoopEnd.stillRunning, frames, carry1) := by
  simp only [captureLoop, h, if_true, Option.map_some', List.append_nil]

/-- Claim C15, the code departs from the claim at `ReleaseBuffer`.  A failure of
`GetNextPacketSize` or of `GetBuffer` ends the iteration in `fail` before anything is written,
whatever else happens in it.  The result of `ReleaseBuffer` is not looked at: an iteration in
which releasing the packet fails acts as if it had succeeded; on a packet of 4800 stereo frames
of value `0.5` at 48000 Hz it writes a frame after the failing call, leaves the run flag true,
and the loop goes on. -/
theorem C15_release_failure_ignored (mix : WavFmt) (env : IterEnv) (carry : List Int) :
    loopIteration mix { env with pollFailed := true } carry
      = some (IterResult.fatal FailSite.getNextPacketSize) ∧
    (∀ k : Nat, loopIteration mix
        { env with pollFailed := false, packetFrames := k + 1, getFailed := true } carry
      = some (IterResult.fatal FailSite.getBuffer)) ∧
    (∀ rest : List IterEnv, captureLoop mix ({ env with pollFailed := true } :: rest) carry
      = some (LoopEnd.fatal FailSite.getNextPacketSize, [], carry)) ∧
    loopIteration mix { env with releaseFailed := true } carry
      = loopIteration mix { env with releaseFailed := false } carry ∧
    loopIteration ⟨true, true, 48000, 2⟩
        ⟨false, 4800, false, ⟨false, 4800, List.replicate 9600 (FP.fin (1 / 2)), []⟩,
          true, false, false⟩ []
      = some (IterResult.next true [List.replicate 2400 16383] [] false) ∧
    captureLoop ⟨true, true, 48000, 2⟩
        [⟨false, 4800, false, ⟨false, 4800, List.replicate 9600 (FP.fin (1 / 2)), []⟩,
          true, false, false⟩] []
      = some (LoopEnd.stillRunning, [List.replicate 2400 16383], []) := by
  have hg := gate_16383 2400 (by norm_num) le_rfl
  have he := emitChunks_full (List.replicate 2400 (16383 : Int)) (List.length_replicate _ _)
  have h4800 : (4800 : Nat) ≠ 0 := by norm_num
  have hit := loopIteration_pass ⟨true, true, 48000, 2⟩
      ⟨false, 4800, false, ⟨false, 4800, List.replicate 9600 (FP.fin (1 / 2)), []⟩,
        true, false, false⟩ [] (List.replicate 2400 16383) [List.replicate 2400 16383] []
      rfl h4800 rfl (convert_half true) hg rfl rfl he
  refine ⟨rfl, fun k => ?_, fun rest => ?_, rfl, hit, captureLoop_one _ _ _ _ _ hit⟩
  · unfold loopIteration
    rw [if_neg Bool.false_ne_true, if_neg (Nat.succ_ne_zero k), if_pos rfl]
  · simp only [captureLoop, loopIteration, if_true]

/-! ## Theorems: rounding error in the whole range, and numbers close to a representable one -/

/-- The error of rounding is at most half a unit in the last place. -/
theorem abs_roundQ_sub_le_half (f : Fmt) (q : ℚ) :
    |roundQ f q - q| ≤ 1 / 2 * (2 : ℚ) ^ qexp f q := by
  have hu : (0 : ℚ) < (2 : ℚ) ^ qexp f q := by positivity
  have hr := abs_rne_sub_le (q / (2 : ℚ) ^ qexp f q)
  have heq : roundQ f q - q
      = ((rne (q / (2 : ℚ) ^ qexp f q) : ℚ) - q / (2 : ℚ) ^ qexp f q) * (2 : ℚ) ^ qexp f q := by
    unfold roundQ
    field_simp
  rw [heq, abs_mul, abs_of_pos hu]
  exact mul_le_mul_of_nonneg_right hr hu.le

/-- The error of rounding to `double`, subnormal range included. -/
theorem round64_err (q : ℚ) :
    |roundQ binary64 q - q| ≤ |q| / 2 ^ 53 + (2 : ℚ) ^ (-1075 : Int) := by
  have hη : (0 : ℚ) < (2 : ℚ) ^ (-1075 : Int) := by positivity
  by_cases hq : q = 0
  · subst hq
    rw [roundQ_zero]
    simp only [sub_zero, abs_zero, zero_div, zero_add]
    exact hη.le
  by_cases he : binary64.emin ≤ expo q
  · have h := abs_roundQ_sub_le binary64 hq he
    have e : (2 : ℚ) ^ (-(binary64.prec : Int)) = 1 / 2 ^ 53 := by
      rw [show (binary64.prec : Int) = 53 from rfl, zpow_neg]
      norm_num
    rw [e] at h
    have : |q| * (1 / 2 ^ 53) = |q| / 2 ^ 53 := by ring
    rw [this] at h
    exact le_trans h (le_add_of_nonneg_right hη.le)
  · have h := abs_roundQ_sub_le_half binary64 q
    have hx : qexp binary64 q = -1074 := by
      unfold qexp
      rw [max_eq_right (not_le.1 he).le]
      rfl
    rw [hx] at h
    have e : (1 / 2 : ℚ) * (2 : ℚ) ^ (-1074 : Int) = (2 : ℚ) ^ (-1075 : Int) := by
      rw [show (-1074 : Int) = -1075 + 1 by norm_num, zpow_add₀ (by norm_num : (2 : ℚ) ≠ 0),
        zpow_one]
      ring
    rw [e] at h
    have : (0 : ℚ) ≤ |q| / 2 ^ 53 := by positivity
    exact le_trans h (le_add_of_nonneg_left this)

/-- An integer plus less than one half rounds to the integer. -/
theorem rne_add_small (k : Int) {δ : ℚ} (h : |δ| < 1 / 2) : rne ((k : ℚ) + δ) = k := by
  have hδ := abs_lt.1 h
  unfold rne
  rcases le_or_lt 0 δ with h0 | h0
  · have hf : ⌊(k : ℚ) + δ⌋ = k := by
      rw [Int.floor_eq_iff]
      constructor <;> linarith
    rw [hf, if_pos (by linarith)]
  · have hf : ⌊(k : ℚ) + δ⌋ = k - 1 := by
      rw [Int.floor_eq_iff]
      push_cast
      constructor <;> linarith
    rw [hf]
    push_cast
    rw [if_neg (by linarith), if_pos (by linarith)]
    ring

/-- A number whose exponent is below `e + 1`. -/
theorem expo_lt_of_lt_zpow {q : ℚ} {e : Int} (hq : q ≠ 0) (h : |q| < (2 : ℚ) ^ (e + 1)) :
    expo q ≤ e := by
  have h1 := lt_of_le_of_lt (zpow_expo_le hq) h
  have h2 := (zpow_lt_zpow_iff_right₀ (by norm_num : (1 : ℚ) < 2)).1 h1
  omega

/-- A representable number is an integer multiple of its unit in the last place. -/
theorem repr_eq_mul (f : Fmt) {v : ℚ} (hv : roundQ f v = v) :
    v = (rne (v / (2 : ℚ) ^ qexp f v) : ℚ) * (2 : ℚ) ^ qexp f v := by
  have h := hv
  unfold roundQ at h
  exact h.symm

/-- A representable non-zero number is at least one unit in the last place below the next
power of two. -/
theorem repr_add_ulp_le (f : Fmt) {v : ℚ} (hv : roundQ f v = v) (hv0 : v ≠ 0) :
    qexp f v ≤ expo v ∧ |v| + (2 : ℚ) ^ qexp f v ≤ (2 : ℚ) ^ (expo v + 1) := by
  have h2 : (2 : ℚ) ≠ 0 := by norm_num
  have hu : (0 : ℚ) < (2 : ℚ) ^ qexp f v := by positivity
  have hM := repr_eq_mul f hv
  have hM0 : rne (v / (2 : ℚ) ^ qexp f v) ≠ 0 := by
    intro h0
    rw [h0] at hM
    simp at hM
    exact hv0 hM
  have habs : |v| = (|rne (v / (2 : ℚ) ^ qexp f v)| : Int) * (2 : ℚ) ^ qexp f v := by
    conv_lhs => rw [hM]
    rw [abs_mul, abs_of_pos hu]
    push_cast
    rfl
  have hM1 : (1 : Int) ≤ |rne (v / (2 : ℚ) ^ qexp f v)| := Int.one_le_abs hM0
  have hM1q : (1 : ℚ) ≤ ((|rne (v / (2 : ℚ) ^ qexp f v)| : Int) : ℚ) := by exact_mod_cast hM1
  have hge : (2 : ℚ) ^ qexp f v ≤ |v| := by
    rw [habs]
    nlinarith
  have hxe : qexp f v ≤ expo v := le_expo_of_zpow_le hge
  refine ⟨hxe, ?_⟩
  have hlt := lt_zpow_expo_succ v
  -- `2 ^ (expo v + 1) = 2 ^ k * 2 ^ qexp` with `k` a natural number
  obtain ⟨k, hk⟩ := Int.eq_ofNat_of_zero_le (by omega : 0 ≤ expo v + 1 - qexp f v)
  have hpow : (2 : ℚ) ^ (expo v + 1) = ((2 ^ k : Int) : ℚ) * (2 : ℚ) ^ qexp f v := by
    have : expo v + 1 = (k : Int) + qexp f v := by omega
    rw [this, zpow_add₀ h2, zpow_natCast]
    push_cast
    rfl
  rw [hpow, habs] at hlt
  have hlt2 : ((|rne (v / (2 : ℚ) ^ qexp f v)| : Int) : ℚ) < ((2 ^ k : Int) : ℚ) :=
    lt_of_mul_lt_mul_right hlt hu.le
  have hlt3 : |rne (v / (2 : ℚ) ^ qexp f v)| < (2 ^ k : Int) := by exact_mod_cast hlt2
  have hle3 : |rne (v / (2 : ℚ) ^ qexp f v)| + 1 ≤ (2 ^ k : Int) := by omega
  have hle4 : ((|rne (v / (2 : ℚ) ^ qexp f v)| : Int) : ℚ) + 1 ≤ ((2 ^ k : Int) : ℚ) := by
    exact_mod_cast hle3
  rw [hpow, habs]
  nlinarith

/-- A number within a quarter of a unit in the last place of a representable number rounds
to it. -/
theorem roundQ_eq_of_close (f : Fmt) {v d : ℚ} (hv : roundQ f v = v) (hv0 : v ≠ 0)
    (h : |d - v| * 2 ^ (f.prec + 2) ≤ |v|) : roundQ f d = v := by
  have h2 : (2 : ℚ) ≠ 0 := by norm_num
  obtain ⟨hxe, hulp⟩ := repr_add_ulp_le f hv hv0
  have hM := repr_eq_mul f hv
  have hu : (0 : ℚ) < (2 : ℚ) ^ qexp f v := by positivity
  have hadd := qexp_add f v
  have hxlow : expo v ≤ qexp f v + ((f.prec : Int) - 1) := by
    rw [hadd]; exact le_max_left _ _
  have hlt := lt_zpow_expo_succ v
  have hge := zpow_expo_le hv0
  -- the distance is below a quarter of a unit in the last place
  have hpow : (2 : ℚ) ^ (expo v + 1) ≤ (2 : ℚ) ^ qexp f v * 2 ^ f.prec := by
    rw [← zpow_natCast (2 : ℚ) f.prec, ← zpow_add₀ h2]
    exact zpow_le_zpow_right₀ (by norm_num) (by omega)
  have hp2 : (2 : ℚ) ^ (f.prec + 2) = 4 * 2 ^ f.prec := by rw [pow_add]; ring
  have hpp : (0 : ℚ) < 2 ^ f.prec := by positivity
  have hdist : |d - v| * 4 < (2 : ℚ) ^ qexp f v := by
    have h3 : |d - v| * 4 * 2 ^ f.prec < (2 : ℚ) ^ qexp f v * 2 ^ f.prec := by
      rw [hp2] at h
      calc |d - v| * 4 * 2 ^ f.prec = |d - v| * (4 * 2 ^ f.prec) := by ring
        _ ≤ |v| := h
        _ < (2 : ℚ) ^ (expo v + 1) := hlt
        _ ≤ _ := hpow
    exact lt_of_mul_lt_mul_right h3 hpp.le
  have hxv : (2 : ℚ) ^ qexp f v ≤ (2 : ℚ) ^ expo v := zpow_le_zpow_right₀ (by norm_num) hxe
  have hdv0 : (0 : ℚ) ≤ |d - v| := abs_nonneg _
  have htri1 : |d| ≤ |v| + |d - v| := by
    have := abs_add (d - v) v
    rw [sub_add_cancel] at this
    linarith
  have htri2 : |v| ≤ |d| + |d - v| := by
    have := abs_add (v - d) d
    rw [sub_add_cancel, abs_sub_comm v d] at this
    linarith
  have hd0 : d ≠ 0 := by
    intro h0
    have hd : |d| = 0 := by rw [h0, abs_zero]
    have hvpos : 0 < |v| := abs_pos.2 hv0
    linarith
  have hed : expo d ≤ expo v := expo_lt_of_lt_zpow hd0 (by linarith)
  have hed2 : expo v - 1 ≤ expo d := by
    apply le_expo_of_zpow_le
    have e : (2 : ℚ) ^ (expo v - 1) = (2 : ℚ) ^ expo v / 2 := by
      rw [zpow_sub₀ h2, zpow_one]
    rw [e]
    linarith
  have haddd := qexp_add f d
  have hx1 : qexp f d ≤ qexp f v := by
    have := max_le_max hed (le_refl f.emin)
    omega
  have hx2 : qexp f v - 1 ≤ qexp f d := by
    have h5 : max (expo v) f.emin - 1 ≤ max (expo d) f.emin := by
      rcases max_cases (expo v) f.emin with ⟨h6, -⟩ | ⟨h6, -⟩
      · rw [h6]; exact le_trans hed2 (le_max_left _ _)
      · rw [h6]; exact le_trans (by omega) (le_max_right _ _)
    omega
  have hud : (0 : ℚ) < (2 : ℚ) ^ qexp f d := by positivity
  unfold roundQ
  rcases (by omega : qexp f d = qexp f v ∨ qexp f d = qexp f v - 1) with hcase | hcase
  · have hδ : |(d - v) / (2 : ℚ) ^ qexp f d| < 1 / 2 := by
      rw [abs_div, abs_of_pos hud, div_lt_iff₀ hud, hcase]
      linarith
    have hdq : d / (2 : ℚ) ^ qexp f d
        = ((rne (v / (2 : ℚ) ^ qexp f v) : Int) : ℚ) + (d - v) / (2 : ℚ) ^ qexp f d := by
      rw [hcase]
      field_simp
      linarith
    rw [hdq, rne_add_small _ hδ, hcase]
    exact hM.symm
  · have hpw : (2 : ℚ) ^ qexp f v = 2 * (2 : ℚ) ^ qexp f d := by
      rw [hcase, zpow_sub₀ h2, zpow_one]
      ring
    have hδ : |(d - v) / (2 : ℚ) ^ qexp f d| < 1 / 2 := by
      rw [abs_div, abs_of_pos hud, div_lt_iff₀ hud]
      linarith
    have hdq : d / (2 : ℚ) ^ qexp f d
        = ((rne (v / (2 : ℚ) ^ qexp f v) * 2 : Int) : ℚ) + (d - v) / (2 : ℚ) ^ qexp f d := by
      have hv' : v = (rne (v / (2 : ℚ) ^ qexp f v) : ℚ) * (2 * (2 : ℚ) ^ qexp f d) := by
        rw [← hpw]; exact hM
      push_cast
      field_simp
      linarith
    rw [hdq, rne_add_small _ hδ]
    push_cast
    have hv' : v = (rne (v / (2 : ℚ) ^ qexp f v) : ℚ) * (2 * (2 : ℚ) ^ qexp f d) := by
      rw [← hpw]; exact hM
    linarith

/-! ## Theorems: source positions of the resampler -/

/-- The source position `srcPos = i / ratio` computed for an output index below `outCount`:
it is finite, non-negative and below the input length, and scaled by 24000 it is within
`1 / 16` of `i * srcRate`. -/
theorem resamplePos_spec (n sr i c : Nat) (h0 : 0 < sr) (h1 : sr < 2 ^ 32) (hn : n < 2 ^ 32)
    (hc : c * sr ≤ n * 24000) (hi : i < c)
    (r : ℚ) (hlo : 24000 / (sr : ℚ) * (1 - 1 / 2 ^ 53) ≤ r)
    (hhi : r ≤ 24000 / (sr : ℚ) * (1 + 1 / 2 ^ 53)) :
    0 < r ∧ FP.round binary64 ((i : ℚ) / r) = FP.fin (roundQ binary64 ((i : ℚ) / r)) ∧
      0 ≤ roundQ binary64 ((i : ℚ) / r) ∧ roundQ binary64 ((i : ℚ) / r) < (n : ℚ) ∧
      (i : ℚ) * sr - 1 / 16 ≤ roundQ binary64 ((i : ℚ) / r) * 24000 ∧
      roundQ binary64 ((i : ℚ) / r) * 24000 ≤ (i : ℚ) * sr + 1 / 16 := by
  have hsr : (0 : ℚ) < (sr : ℚ) := by exact_mod_cast h0
  have hsr1 : (1 : ℚ) ≤ (sr : ℚ) := by exact_mod_cast h0
  have hsr2 : (sr : ℚ) < 2 ^ 32 := by exact_mod_cast h1
  have hn2 : (n : ℚ) < 2 ^ 32 := by exact_mod_cast hn
  have hi0' : (0 : ℚ) ≤ (i : ℚ) := Nat.cast_nonneg i
  have hc1 : 24000 / (sr : ℚ) * (1 - 1 / 2 ^ 53) * sr = 24000 * (1 - 1 / 2 ^ 53) := by
    field_simp; ring
  have hc2 : 24000 / (sr : ℚ) * (1 + 1 / 2 ^ 53) * sr = 24000 * (1 + 1 / 2 ^ 53) := by
    field_simp; ring
  have hrs_lo : 24000 * (1 - 1 / 2 ^ 53) ≤ r * sr := by
    rw [← hc1]; exact mul_le_mul_of_nonneg_right hlo hsr.le
  have hrs_hi : r * sr ≤ 24000 * (1 + 1 / 2 ^ 53) := by
    rw [← hc2]; exact mul_le_mul_of_nonneg_right hhi hsr.le
  have hrpos : 0 < r := by
    by_contra hcon
    have : r * sr ≤ 0 := mul_nonpos_of_nonpos_of_nonneg (not_lt.1 hcon) hsr.le
    linarith
  have hr_hi : r ≤ 2 ^ 15 := by
    have h3 : r * 1 ≤ r * sr := mul_le_mul_of_nonneg_left hsr1 hrpos.le
    linarith
  have hisr : ((i : ℚ) + 1) * sr ≤ (n : ℚ) * 24000 := by
    have : (i + 1) * sr ≤ n * 24000 := le_trans (Nat.mul_le_mul_right sr hi) hc
    exact_mod_cast this
  have hkey : (i : ℚ) * (1 + 1 / 2 ^ 53) < (n : ℚ) * r := by
    have h3 : (i : ℚ) * (1 + 1 / 2 ^ 53) * sr < (n : ℚ) * (24000 * (1 - 1 / 2 ^ 53)) := by
      nlinarith
    have h4 : (n : ℚ) * (24000 * (1 - 1 / 2 ^ 53)) ≤ (n : ℚ) * (r * sr) :=
      mul_le_mul_of_nonneg_left hrs_lo (Nat.cast_nonneg _)
    have h5 : (i : ℚ) * (1 + 1 / 2 ^ 53) * sr < (n : ℚ) * r * sr := by
      rw [mul_assoc (n : ℚ)]; linarith
    exact lt_of_mul_lt_mul_right h5 hsr.le
  have hq_lt : (i : ℚ) / r * (1 + 1 / 2 ^ 53) < (n : ℚ) := by
    rw [div_mul_eq_mul_div, div_lt_iff₀ hrpos]
    exact hkey
  have hq0 : (i : ℚ) / r = 0 ∨ 1 / 2 ^ 64 ≤ (i : ℚ) / r := by
    rcases Nat.eq_zero_or_pos i with h | h
    · left; simp [h]
    · right
      have hi1 : (1 : ℚ) ≤ (i : ℚ) := by exact_mod_cast h
      rw [le_div_iff₀ hrpos]
      nlinarith
  have hq_nn : 0 ≤ (i : ℚ) / r := div_nonneg hi0' hrpos.le
  have hq2 : (i : ℚ) / r ≤ 2 ^ 64 := by nlinarith
  obtain ⟨hfin, hslo, hshi, hs0⟩ := round64_nonneg hq0 hq2
  have hs_lt : roundQ binary64 ((i : ℚ) / r) < (n : ℚ) := lt_of_le_of_lt hshi hq_lt
  -- the error of the position, scaled by 24000
  have hqr : (i : ℚ) / r * r = i := div_mul_cancel₀ _ hrpos.ne'
  have hA : (i : ℚ) * sr ≤ 2 ^ 47 := by nlinarith
  have hA0 : (0 : ℚ) ≤ (i : ℚ) * sr := mul_nonneg hi0' hsr.le
  have hrs0 : (0 : ℚ) < r * sr := mul_pos hrpos hsr
  have hup1 : roundQ binary64 ((i : ℚ) / r) * (r * sr) ≤ (i : ℚ) * sr * (1 + 1 / 2 ^ 53) := by
    have := mul_le_mul_of_nonneg_right hshi hrs0.le
    have e : (i : ℚ) / r * (1 + 1 / 2 ^ 53) * (r * sr)
        = (i : ℚ) / r * r * sr * (1 + 1 / 2 ^ 53) := by ring
    rw [e, hqr] at this
    exact this
  have hup2 : roundQ binary64 ((i : ℚ) / r) * (24000 * (1 - 1 / 2 ^ 53))
      ≤ roundQ binary64 ((i : ℚ) / r) * (r * sr) := mul_le_mul_of_nonneg_left hrs_lo hs0
  have hlo1 : (i : ℚ) * sr * (1 - 1 / 2 ^ 53) ≤ roundQ binary64 ((i : ℚ) / r) * (r * sr) := by
    have := mul_le_mul_of_nonneg_right hslo hrs0.le
    have e : (i : ℚ) / r * (1 - 1 / 2 ^ 53) * (r * sr)
        = (i : ℚ) / r * r * sr * (1 - 1 / 2 ^ 53) := by ring
    rw [e, hqr] at this
    exact this
  have hlo2 : roundQ binary64 ((i : ℚ) / r) * (r * sr)
      ≤ roundQ binary64 ((i : ℚ) / r) * (24000 * (1 + 1 / 2 ^ 53)) :=
    mul_le_mul_of_nonneg_left hrs_hi hs0
  refine ⟨hrpos, hfin, hs0, hs_lt, ?_, ?_⟩
  · by_contra hcon
    have hlt := not_le.1 hcon
    linarith
  · by_contra hcon
    have hlt := not_le.1 hcon
    linarith

/-- The index `i0` computed for an output index below `outCount`: it is inside the input, and
it is `i * srcRate / 24000` or one less; it is `i * srcRate / 24000` when 24000 does not
divide `i * srcRate`. -/
theorem resampleI0_spec (n sr i c : Nat) (h0 : 0 < sr) (h1 : sr < 2 ^ 32) (hn : n < 2 ^ 32)
    (hc : c * sr ≤ n * 24000) (hi : i < c) :
    ∃ i0 : Nat, resampleI0 (resampleRatio sr) i = some i0 ∧ i0 < n ∧
      i0 ≤ i * sr / 24000 ∧ i * sr / 24000 ≤ i0 + 1 ∧
      (¬ 24000 ∣ i * sr → i0 = i * sr / 24000) := by
  obtain ⟨r, hr, -, hlo, hhi⟩ := resampleRatio_spec sr h0 h1
  obtain ⟨hrpos, hfin, hs0, hs_lt, herr1, herr2⟩ :=
    resamplePos_spec n sr i c h0 h1 hn hc hi r hlo hhi
  have hn2 : (n : ℚ) < 2 ^ 32 := by exact_mod_cast hn
  obtain ⟨hsz, -, hcle, hclt⟩ := toSizeT_floor_fin hs0 (lt_trans hs_lt (by linarith))
  have hi53 : i < 2 ^ 53 := by
    have h3 : c ≤ c * sr := Nat.le_mul_of_pos_right c h0
    omega
  have hI0 : resampleI0 (resampleRatio sr) i = some ⌊roundQ binary64 ((i : ℚ) / r)⌋.toNat := by
    unfold resampleI0
    rw [hr, ofNat_binary64 i hi53]
    simp only [FP.div, if_neg hrpos.ne']
    rw [hfin, hsz]
  have hi0lt : ⌊roundQ binary64 ((i : ℚ) / r)⌋.toNat < n := by
    have : (⌊roundQ binary64 ((i : ℚ) / r)⌋.toNat : ℚ) < (n : ℚ) := lt_of_le_of_lt hcle hs_lt
    exact_mod_cast this
  -- `i0 * 24000 ≤ i * sr`
  have hmul : ⌊roundQ binary64 ((i : ℚ) / r)⌋.toNat * 24000 ≤ i * sr := by
    have h4 : ((⌊roundQ binary64 ((i : ℚ) / r)⌋.toNat * 24000 : Nat) : ℚ)
        < ((i * sr + 1 : Nat) : ℚ) := by
      push_cast; linarith
    have h5 := Nat.cast_lt.1 h4
    omega
  -- `i * sr ≤ (i0 + 1) * 24000`
  have hgt : i * sr < (⌊roundQ binary64 ((i : ℚ) / r)⌋.toNat + 1) * 24000 + 1 := by
    have h4 : ((i * sr : Nat) : ℚ)
        < (((⌊roundQ binary64 ((i : ℚ) / r)⌋.toNat + 1) * 24000 + 1 : Nat) : ℚ) := by
      push_cast; linarith
    exact Nat.cast_lt.1 h4
  refine ⟨_, hI0, hi0lt, ?_, ?_, ?_⟩
  · exact (Nat.le_div_iff_mul_le (by norm_num)).2 hmul
  · have h7 : i * sr / 24000 * 24000 ≤ (⌊roundQ binary64 ((i : ℚ) / r)⌋.toNat + 1) * 24000 := by
      have := Nat.div_mul_le_self (i * sr) 24000
      omega
    exact Nat.le_of_mul_le_mul_right h7 (by norm_num)
  · intro hnd
    apply le_antisymm ((Nat.le_div_iff_mul_le (by norm_num)).2 hmul)
    have hmpos : 0 < i * sr % 24000 :=
      Nat.pos_of_ne_zero (fun h => hnd (Nat.dvd_of_mod_eq_zero h))
    have hdm := Nat.div_add_mod (i * sr) 24000
    have h6 : i * sr / 24000 * 24000 < (⌊roundQ binary64 ((i : ℚ) / r)⌋.toNat + 1) * 24000 := by
      omega
    exact Nat.lt_succ_iff.1 (lt_of_mul_lt_mul_right h6 (Nat.zero_le 24000))

/-- The body of the loop of `linearResample` reads `in[i0]` and `in[i1]` for the index `i0`
it computes. -/
theorem resampleAt_reads (x : List FP) (ratio : FP) (i i0 : Nat)
    (h : resampleI0 ratio i = some i0) :
    resampleAt x ratio i
      = (x[i0]?).bind (fun a =>
          (x[min ((i0 + 1) % 2 ^ 64) ((x.length + (2 ^ 64 - 1)) % 2 ^ 64)]?).bind (fun b =>
            some (interpolate (FP.sub binary64 (FP.div binary64 (FP.ofNat binary64 i) ratio)
              (FP.ofNat binary64 i0)) a b))) := by
  unfold resampleI0 at h
  unfold resampleAt
  simp only [Option.bind_eq_bind, h, Option.some_bind]
  rfl

/-- The index `i1`, computed in `size_t`, is `min (i0 + 1) (n - 1)` when `i0` is inside the
input. -/
theorem resampleI1_eq {n i0 : Nat} (hn : n < 2 ^ 32) (hi0 : i0 < n) :
    min ((i0 + 1) % 2 ^ 64) ((n + (2 ^ 64 - 1)) % 2 ^ 64) = min (i0 + 1) (n - 1) := by
  have e1 : (i0 + 1) % 2 ^ 64 = i0 + 1 :=
    Nat.mod_eq_of_lt (lt_of_le_of_lt (Nat.succ_le_of_lt hi0) (lt_trans hn (by norm_num)))
  have e2 : n + (2 ^ 64 - 1) = (n - 1) + 2 ^ 64 := by
    have h64 : 0 < 2 ^ 64 := by norm_num
    omega
  rw [e1, e2, Nat.add_mod_right, Nat.mod_eq_of_lt (lt_of_le_of_lt (Nat.sub_le _ _)
    (lt_trans hn (by norm_num)))]

/-- Claim C13, the claim as stated fails.  At the source rate 44100 Hz the output index 240,
which is executed for an input of 443 samples, has `i0 = 440`, while
`floor(240 * 44100 / 24000) = 441`: on an input whose sample 440 is NaN and whose other
samples are zero the output sample 240 is NaN, computed from the positions 440 and 441. -/
theorem C13_counterexample :
    resampleCount 443 44100 = some 241 ∧
    resampleI0 (resampleRatio 44100) 240 = some 440 ∧ 240 * 44100 / 24000 = 441 ∧
    resampleAt (List.replicate 440 (FP.fin 0) ++ [FP.nan, FP.fin 0, FP.fin 0])
      (resampleRatio 44100) 240 = some FP.nan := by
  decide!

/-- Claim C13 (resampler index safety), amended.  For every source rate `0 < sr < 2^32` and
every input of length `n < 2^32`, the count `outCount` is at most `floor(n * 24000 / sr)`, the
resampler returns, and each executed output index `i < outCount` reads exactly the source
positions `i0` and `i1 = min(i0 + 1, n - 1)`, both `< n`, where `i0`, computed in `double` as
`floor(i / ratio)`, is `floor(i * sr / 24000)` or one less, and is `floor(i * sr / 24000)`
whenever 24000 does not divide `i * sr`.  For `n = 0` the count is `0`, the output is empty
and the loop body, with the clamp `n - 1`, is not executed. -/
theorem C13_resampler_index_safety (x : List FP) (sr : Nat) (h0 : 0 < sr) (h1 : sr < 2 ^ 32)
    (hn : x.length < 2 ^ 32) :
    ∃ c : Nat, resampleCount x.length sr = some c ∧ c ≤ x.length * 24000 / sr ∧
      (sr ≠ TARGET_RATE →
        linearResample x sr = (List.range c).mapM (resampleAt x (resampleRatio sr))) ∧
      (∃ out : List FP, linearResample x sr = some out) ∧
      (∀ i : Nat, i < c →
        ∃ (i0 : Nat) (t : FP) (hi0 : i0 < x.length) (hi1 : min (i0 + 1) (x.length - 1) < x.length),
          resampleI0 (resampleRatio sr) i = some i0 ∧
          (i0 = i * sr / 24000 ∨ i0 + 1 = i * sr / 24000) ∧
          (¬ 24000 ∣ i * sr → i0 = i * sr / 24000) ∧
          resampleAt x (resampleRatio sr) i
            = some (interpolate t (x.get ⟨i0, hi0⟩) (x.get ⟨min (i0 + 1) (x.length - 1), hi1⟩))) ∧
      (x = [] → c = 0 ∧ linearResample x sr = some []) := by
  obtain ⟨c, hc, hmul, hle, -⟩ := resampleCount_spec x.length sr h0 h1 hn
  have hlin : sr ≠ TARGET_RATE →
      linearResample x sr = (List.range c).mapM (resampleAt x (resampleRatio sr)) := by
    intro hne
    unfold linearResample
    rw [if_neg hne, hc]
    rfl
  refine ⟨c, hc, hle, hlin, ?_, ?_, ?_⟩
  · by_cases hne : sr = TARGET_RATE
    · exact ⟨x, by unfold linearResample; rw [if_pos hne]⟩
    · obtain ⟨c', out, -, hout, -⟩ := linearResample_length x sr h0 h1 hne hn
      exact ⟨out, hout⟩
  · intro i hi
    obtain ⟨i0, hI0, hi0, hlo, hhi, hex⟩ := resampleI0_spec x.length sr i c h0 h1 hn hmul hi
    have hi1 : min (i0 + 1) (x.length - 1) < x.length :=
      lt_of_le_of_lt (min_le_right _ _) (by omega)
    refine ⟨i0, FP.sub binary64 (FP.div binary64 (FP.ofNat binary64 i) (resampleRatio sr))
      (FP.ofNat binary64 i0), hi0, hi1, hI0, by omega, hex, ?_⟩
    rw [resampleAt_reads x _ i i0 hI0, resampleI1_eq hn hi0, List.getElem?_eq_getElem hi0,
      List.getElem?_eq_getElem hi1]
    rfl
  · intro hx
    subst hx
    have hc0 : c = 0 := by
      have : c ≤ 0 := by simpa using hle
      omega
    refine ⟨hc0, ?_⟩
    by_cases hne : sr = TARGET_RATE
    · unfold linearResample; rw [if_pos hne]
    · rw [hlin hne, hc0]
      rfl

theorem C13_resampler_index_safety_witness :
    ∃ c : Nat, resampleCount [FP.fin 0, FP.fin 1, FP.fin 0].length 48000 = some c ∧
      c ≤ [FP.fin 0, FP.fin 1, FP.fin 0].length * 24000 / 48000 ∧
      (48000 ≠ TARGET_RATE →
        linearResample [FP.fin 0, FP.fin 1, FP.fin 0] 48000
          = (List.range c).mapM (resampleAt [FP.fin 0, FP.fin 1, FP.fin 0] (resampleRatio 48000))) ∧
      (∃ out : List FP, linearResample [FP.fin 0, FP.fin 1, FP.fin 0] 48000 = some out) ∧
      (∀ i : Nat, i < c →
        ∃ (i0 : Nat) (t : FP) (hi0 : i0 < [FP.fin 0, FP.fin 1, FP.fin 0].length)
          (hi1 : min (i0 + 1) ([FP.fin 0, FP.fin 1, FP.fin 0].length - 1)
            < [FP.fin 0, FP.fin 1, FP.fin 0].length),
          resampleI0 (resampleRatio 48000) i = some i0 ∧
          (i0 = i * 48000 / 24000 ∨ i0 + 1 = i * 48000 / 24000) ∧
          (¬ 24000 ∣ i * 48000 → i0 = i * 48000 / 24000) ∧
          resampleAt [FP.fin 0, FP.fin 1, FP.fin 0] (resampleRatio 48000) i
            = some (interpolate t ([FP.fin 0, FP.fin 1, FP.fin 0].get ⟨i0, hi0⟩)
                ([FP.fin 0, FP.fin 1, FP.fin 0].get
                  ⟨min (i0 + 1) ([FP.fin 0, FP.fin 1, FP.fin 0].length - 1), hi1⟩))) ∧
      ([FP.fin 0, FP.fin 1, FP.fin 0] = [] →
        c = 0 ∧ linearResample [FP.fin 0, FP.fin 1, FP.fin 0] 48000 = some []) :=
  C13_resampler_index_safety [FP.fin 0, FP.fin 1, FP.fin 0] 48000 (by decide) (by decide)
    (by decide)

/-! ## Theorems: the interpolation of the resampler -/

theorem maxFinite_binary64_large : (2 : ℚ) ^ 130 ≤ maxFinite binary64 := by
  decide!

theorem roundQ64_one : roundQ binary64 1 = 1 := by
  have := roundQ_intCast binary64 1 (by decide) (by decide)
  simpa using this

/-- Rounding to `double` keeps a bound that is a power of two. -/
theorem round64_abs_le_pow {q : ℚ} (k : Nat) (h : |q| ≤ 2 ^ k) :
    |roundQ binary64 q| ≤ 2 ^ k := by
  have hr : roundQ binary64 ((2 : ℚ) ^ k) = 2 ^ k := by
    have := roundQ_int_mul_zpow binary64 1 (k : Int) (by decide)
      (le_trans (by decide) (Int.natCast_nonneg k))
    simpa using this
  have habs := abs_le.1 h
  refine abs_le.2 ⟨?_, ?_⟩
  · have := roundQ_mono binary64 (by decide) habs.1
    rwa [roundQ_neg, hr] at this
  · have := roundQ_mono binary64 (by decide) habs.2
    rwa [hr] at this

/-- The weight `1 - t` computed in `double` for `t` in `[0, 1]`. -/
theorem weight_spec {t : ℚ} (ht0 : 0 ≤ t) (ht1 : t ≤ 1) :
    0 ≤ roundQ binary64 (1 + -t) ∧ roundQ binary64 (1 + -t) ≤ 1 ∧
      |roundQ binary64 (1 + -t) - (1 + -t)| ≤ 1 / 2 ^ 53 + (2 : ℚ) ^ (-1075 : Int) := by
  refine ⟨roundQ_nonneg binary64 (by linarith), ?_, ?_⟩
  · have := roundQ_mono binary64 (by decide) (a := 1 + -t) (b := 1) (by linarith)
    rwa [roundQ64_one] at this
  · have h := round64_err (1 + -t)
    have h1 : |1 + -t| ≤ 1 := by rw [abs_le]; constructor <;> linarith
    have h2 : |1 + -t| / 2 ^ 53 ≤ 1 / 2 ^ 53 := by
      apply div_le_div_of_nonneg_right h1 (by positivity)
    linarith

/-- A non-zero `float` has magnitude at least `2 ^ (-149)`. -/
theorem float_abs_ge {v : ℚ} (hv : roundQ binary32 v = v) (hv0 : v ≠ 0) :
    (2 : ℚ) ^ (-149 : Int) ≤ |v| := by
  obtain ⟨hxe, -⟩ := repr_add_ulp_le binary32 hv hv0
  have hadd := qexp_add binary32 v
  have hx : (-149 : Int) ≤ qexp binary32 v := by
    have h1 : binary32.emin ≤ max (expo v) binary32.emin := le_max_right _ _
    have h2 : binary32.emin = -126 := rfl
    have h3 : ((binary32.prec : Int)) = 24 := rfl
    omega
  calc (2 : ℚ) ^ (-149 : Int) ≤ (2 : ℚ) ^ expo v :=
        zpow_le_zpow_right₀ (by norm_num) (le_trans hx hxe)
    _ ≤ |v| := zpow_expo_le hv0

/-- Interpolating between a `float` and itself gives it back. -/
theorem interpQ_const {t v : ℚ} (ht0 : 0 ≤ t) (ht1 : t ≤ 1) (hv : roundQ binary32 v = v) :
    interpQ t v v = v := by
  unfold interpQ
  by_cases hv0 : v = 0
  · subst hv0
    simp only [mul_zero, roundQ_zero, add_zero]
  obtain ⟨hu0, hu1, hue⟩ := weight_spec ht0 ht1
  have hw : 0 < |v| := abs_pos.2 hv0
  have hη0 : (0 : ℚ) < (2 : ℚ) ^ (-1075 : Int) := by positivity
  have hη1 : (2 : ℚ) ^ (-1075 : Int) ≤ 1 / 2 ^ 60 := by
    have : (2 : ℚ) ^ (-1075 : Int) ≤ (2 : ℚ) ^ (-60 : Int) :=
      zpow_le_zpow_right₀ (by norm_num) (by norm_num)
    calc (2 : ℚ) ^ (-1075 : Int) ≤ (2 : ℚ) ^ (-60 : Int) := this
      _ = 1 / 2 ^ 60 := by rw [zpow_neg]; norm_num
  have hη2 : (2 : ℚ) ^ (-1075 : Int) ≤ |v| / 2 ^ 60 := by
    have h1 : (2 : ℚ) ^ (-1075 : Int) ≤ (2 : ℚ) ^ (-209 : Int) :=
      zpow_le_zpow_right₀ (by norm_num) (by norm_num)
    have h2 : (2 : ℚ) ^ (-209 : Int) = (2 : ℚ) ^ (-149 : Int) / 2 ^ 60 := by
      rw [show (-209 : Int) = -149 + -60 by norm_num, zpow_add₀ (by norm_num : (2 : ℚ) ≠ 0)]
      rw [zpow_neg (2 : ℚ) 60]
      norm_num
    have h3 : (2 : ℚ) ^ (-149 : Int) / 2 ^ 60 ≤ |v| / 2 ^ 60 :=
      div_le_div_of_nonneg_right (float_abs_ge hv hv0) (by positivity)
    linarith
  -- the four rounding errors
  have he1 : |(roundQ binary64 (1 + -t) - (1 + -t)) * v| ≤ (1 / 2 ^ 53 + 1 / 2 ^ 60) * |v| := by
    rw [abs_mul]
    exact mul_le_mul_of_nonneg_right (by linarith) hw.le
  have huv : |roundQ binary64 (1 + -t) * v| ≤ |v| := by
    rw [abs_mul, abs_of_nonneg hu0]
    calc roundQ binary64 (1 + -t) * |v| ≤ 1 * |v| := mul_le_mul_of_nonneg_right hu1 hw.le
      _ = |v| := one_mul _
  have htv : |t * v| ≤ |v| := by
    rw [abs_mul, abs_of_nonneg ht0]
    calc t * |v| ≤ 1 * |v| := mul_le_mul_of_nonneg_right ht1 hw.le
      _ = |v| := one_mul _
  have he2 := round64_err (roundQ binary64 (1 + -t) * v)
  have he3 := round64_err (t * v)
  have he4 := round64_err
    (roundQ binary64 (roundQ binary64 (1 + -t) * v) + roundQ binary64 (t * v))
  have hd2 : |roundQ binary64 (1 + -t) * v| / 2 ^ 53 ≤ |v| / 2 ^ 53 :=
    div_le_div_of_nonneg_right huv (by positivity)
  have hd3 : |t * v| / 2 ^ 53 ≤ |v| / 2 ^ 53 := div_le_div_of_nonneg_right htv (by positivity)
  obtain ⟨l1, r1⟩ := abs_le.1 he1
  obtain ⟨l2, r2⟩ := abs_le.1 (le_trans he2 (add_le_add hd2 hη2))
  obtain ⟨l3, r3⟩ := abs_le.1 (le_trans he3 (add_le_add hd3 hη2))
  obtain ⟨lv, rv⟩ := abs_le.1 (le_refl |v|)
  obtain ⟨luv, ruv⟩ := abs_le.1 huv
  obtain ⟨ltv, rtv⟩ := abs_le.1 htv
  have hsum : |roundQ binary64 (roundQ binary64 (1 + -t) * v) + roundQ binary64 (t * v)|
      ≤ 2 * |v| := by
    rw [abs_le]
    constructor <;> linarith
  have hd4 : |roundQ binary64 (roundQ binary64 (1 + -t) * v) + roundQ binary64 (t * v)| / 2 ^ 53
      ≤ 2 * |v| / 2 ^ 53 := div_le_div_of_nonneg_right hsum (by positivity)
  obtain ⟨l4, r4⟩ := abs_le.1 (le_trans he4 (add_le_add hd4 hη2))
  apply roundQ_eq_of_close binary32 hv hv0
  have hprec : binary32.prec + 2 = 26 := rfl
  rw [hprec]
  have hclose : |roundQ binary64
      (roundQ binary64 (roundQ binary64 (1 + -t) * v) + roundQ binary64 (t * v)) - v|
      ≤ |v| / 2 ^ 26 := by
    rw [abs_le]
    constructor <;> linarith
  calc _ ≤ |v| / 2 ^ 26 * 2 ^ 26 := mul_le_mul_of_nonneg_right hclose (by positivity)
    _ = |v| := by field_simp

/-- The interpolation is monotone in both samples. -/
theorem interpQ_mono {t a b a' b' : ℚ} (ht0 : 0 ≤ t) (ht1 : t ≤ 1) (ha : a ≤ a')
    (hb : b ≤ b') : interpQ t a b ≤ interpQ t a' b' := by
  obtain ⟨hu0, -, -⟩ := weight_spec ht0 ht1
  unfold interpQ
  apply roundQ_mono binary32 (by decide)
  apply roundQ_mono binary64 (by decide)
  apply add_le_add
  · exact roundQ_mono binary64 (by decide) (mul_le_mul_of_nonneg_left ha hu0)
  · exact roundQ_mono binary64 (by decide) (mul_le_mul_of_nonneg_left hb ht0)

/-- The function `interpolate` on finite arguments of `float` magnitude. -/
theorem interpolate_fin {t a b : ℚ} (ht0 : 0 ≤ t) (ht1 : t ≤ 1) (ha : |a| ≤ 2 ^ 128)
    (hb : |b| ≤ 2 ^ 128) (ho : |interpQ t a b| ≤ maxFinite binary32) :
    interpolate (FP.fin t) (FP.fin a) (FP.fin b) = FP.fin (interpQ t a b) := by
  obtain ⟨hu0, hu1, -⟩ := weight_spec ht0 ht1
  have hmax := maxFinite_binary64_large
  have hfin : ∀ q : ℚ, |q| ≤ 2 ^ 129 → FP.round binary64 q = FP.fin (roundQ binary64 q) :=
    fun q hq => round_eq_fin binary64 (by decide) (by decide) (le_trans hq (by linarith))
  have h1 : |1 + -t| ≤ (2 : ℚ) ^ 129 := by
    rw [abs_le]; constructor <;> linarith
  have h2 : |roundQ binary64 (1 + -t) * a| ≤ (2 : ℚ) ^ 128 := by
    rw [abs_mul, abs_of_nonneg hu0]
    calc roundQ binary64 (1 + -t) * |a| ≤ 1 * |a| :=
          mul_le_mul_of_nonneg_right hu1 (abs_nonneg a)
      _ ≤ 2 ^ 128 := by rw [one_mul]; exact ha
  have h3 : |t * b| ≤ (2 : ℚ) ^ 128 := by
    rw [abs_mul, abs_of_nonneg ht0]
    calc t * |b| ≤ 1 * |b| := mul_le_mul_of_nonneg_right ht1 (abs_nonneg b)
      _ ≤ 2 ^ 128 := by rw [one_mul]; exact hb
  have h4 := round64_abs_le_pow 128 h2
  have h5 := round64_abs_le_pow 128 h3
  have h6 : |roundQ binary64 (roundQ binary64 (1 + -t) * a) + roundQ binary64 (t * b)|
      ≤ (2 : ℚ) ^ 129 := by
    have := abs_add (roundQ binary64 (roundQ binary64 (1 + -t) * a)) (roundQ binary64 (t * b))
    linarith
  unfold interpolate
  simp only [FP.sub, FP.neg, FP.add, FP.mul]
  rw [hfin _ h1]
  simp only [FP.mul]
  rw [hfin _ (le_trans h2 (by norm_num)), hfin _ (le_trans h3 (by norm_num))]
  simp only [FP.add]
  rw [hfin _ h6]
  simp only [FP.toFloat, FP.round]
  have ho' := ho
  unfold interpQ at ho'
  rw [if_neg (not_lt.2 ho')]
  rfl

/-- Interpolating between two finite `float` samples gives a finite value between them. -/
theorem interpolate_between {t a b : ℚ} (ht0 : 0 ≤ t) (ht1 : t ≤ 1)
    (ha : (FP.fin a).IsFloat) (hb : (FP.fin b).IsFloat) :
    ∃ q : ℚ, interpolate (FP.fin t) (FP.fin a) (FP.fin b) = FP.fin q ∧
      min a b ≤ q ∧ q ≤ max a b := by
  have hmx : maxFinite binary32 ≤ 2 ^ 128 := by rw [maxFinite_binary32]; norm_num
  have hlo : interpQ t (min a b) (min a b) = min a b := by
    rcases min_choice a b with h | h <;> rw [h]
    · exact interpQ_const ht0 ht1 ha.1
    · exact interpQ_const ht0 ht1 hb.1
  have hhi : interpQ t (max a b) (max a b) = max a b := by
    rcases max_choice a b with h | h <;> rw [h]
    · exact interpQ_const ht0 ht1 ha.1
    · exact interpQ_const ht0 ht1 hb.1
  have h1 : min a b ≤ interpQ t a b := by
    have := interpQ_mono ht0 ht1 (min_le_left a b) (min_le_right a b)
    rwa [hlo] at this
  have h2 : interpQ t a b ≤ max a b := by
    have := interpQ_mono ht0 ht1 (le_max_left a b) (le_max_right a b)
    rwa [hhi] at this
  obtain ⟨la, ra⟩ := abs_le.1 ha.2
  obtain ⟨lb, rb⟩ := abs_le.1 hb.2
  have ho : |interpQ t a b| ≤ maxFinite binary32 := by
    rw [abs_le]
    constructor
    · exact le_trans (le_min la lb) h1
    · exact le_trans h2 (max_le ra rb)
  exact ⟨interpQ t a b,
    interpolate_fin ht0 ht1 (le_trans ha.2 hmx) (le_trans hb.2 hmx) ho, h1, h2⟩

/-- Claim C20, the claim as stated fails.  On the constant input `[+∞, +∞]` at 48000 Hz the
output is `[NaN]`: the weight is `0` and `1 * ∞ + 0 * ∞` is NaN. -/
theorem C20_counterexample :
    linearResample [FP.inf false, FP.inf false] 48000 = some [FP.nan] := by
  decide!

/-- Claim C20 (resampler range), amended.  For every source rate `0 < sr < 2^32` and every
input `x` of fewer than `2^32` finite `float` samples, `linearResample` returns, every output
sample is finite and lies between two samples of the input, hence between any two bounds
`lo ≤ hi` of the input such as `min(x)` and `max(x)`; in particular inputs in `[-1, 1]` give
outputs in `[-1, 1]` and a constant input gives a constant output of the same value. -/
theorem C20_resampler_range (x : List FP) (sr : Nat) (lo hi : ℚ) (h0 : 0 < sr)
    (h1 : sr < 2 ^ 32) (hn : x.length < 2 ^ 32)
    (hx : ∀ y ∈ x, ∃ q : ℚ, y = FP.fin q ∧ y.IsFloat ∧ lo ≤ q ∧ q ≤ hi) :
    ∃ out : List FP, linearResample x sr = some out ∧
      ∀ o ∈ out, ∃ q qa qb : ℚ, o = FP.fin q ∧ FP.fin qa ∈ x ∧ FP.fin qb ∈ x ∧
        min qa qb ≤ q ∧ q ≤ max qa qb ∧ lo ≤ q ∧ q ≤ hi := by
  by_cases hne : sr = TARGET_RATE
  · refine ⟨x, by unfold linearResample; rw [if_pos hne], ?_⟩
    intro o ho
    obtain ⟨q, rfl, -, hl, hh⟩ := hx o ho
    exact ⟨q, q, q, rfl, ho, ho, by simp, by simp, hl, hh⟩
  · obtain ⟨c, hc, hmul, -⟩ := resampleCount_spec x.length sr h0 h1 hn
    obtain ⟨out, hout, -, hall⟩ := mapM_option_exists (resampleAt x (resampleRatio sr))
      (fun o => ∃ q qa qb : ℚ, o = FP.fin q ∧ FP.fin qa ∈ x ∧ FP.fin qb ∈ x ∧
        min qa qb ≤ q ∧ q ≤ max qa qb ∧ lo ≤ q ∧ q ≤ hi) (List.range c) (by
      intro i hi
      obtain ⟨i0, i1, t, hi0, hi1, ht0, ht1, -, h⟩ :=
        resampleAt_spec x sr i c h0 h1 hn hmul (List.mem_range.1 hi)
      have hm0 : x[i0] ∈ x := List.getElem_mem hi0
      have hm1 : x[i1] ∈ x := List.getElem_mem hi1
      obtain ⟨qa, hqa, hfa, la, ua⟩ := hx _ hm0
      obtain ⟨qb, hqb, hfb, lb, ub⟩ := hx _ hm1
      rw [hqa] at hfa hm0
      rw [hqb] at hfb hm1
      obtain ⟨q, hq, hq1, hq2⟩ := interpolate_between ht0 ht1 hfa hfb
      refine ⟨FP.fin q, ?_, q, qa, qb, rfl, hm0, hm1, hq1, hq2,
        le_trans (le_min la lb) hq1, le_trans hq2 (max_le ua ub)⟩
      rw [h, hqa, hqb]
      exact congrArg some hq)
    refine ⟨out, ?_, hall⟩
    unfold linearResample
    rw [if_neg hne, hc]
    exact hout

theorem C20_resampler_range_witness :
    ∃ out : List FP, linearResample [FP.fin (1 / 2), FP.fin 1, FP.fin (-1)] 48000 = some out ∧
      ∀ o ∈ out, ∃ q qa qb : ℚ, o = FP.fin q ∧
        FP.fin qa ∈ [FP.fin (1 / 2), FP.fin 1, FP.fin (-1)] ∧
        FP.fin qb ∈ [FP.fin (1 / 2), FP.fin 1, FP.fin (-1)] ∧
        min qa qb ≤ q ∧ q ≤ max qa qb ∧ -1 ≤ q ∧ q ≤ 1 :=
  C20_resampler_range [FP.fin (1 / 2), FP.fin 1, FP.fin (-1)] 48000 (-1) 1 (by decide)
    (by decide) (by decide) (by
      intro y hy
      simp only [List.mem_cons, List.mem_singleton, List.not_mem_nil, or_false] at hy
      rcases hy with rfl | rfl | rfl
      · exact ⟨1 / 2, rfl, by decide!, by norm_num, by norm_num⟩
      · exact ⟨1, rfl, by decide!, by norm_num, by norm_num⟩
      · exact ⟨-1, rfl, by decide!, by norm_num, by norm_num⟩)

/-! ## Theorems: the downmix as a mean -/

/-- The error of rounding to `float`, subnormal range included. -/
theorem round32_err (q : ℚ) :
    |roundQ binary32 q - q| ≤ |q| / 2 ^ 24 + (2 : ℚ) ^ (-150 : Int) := by
  have hη : (0 : ℚ) < (2 : ℚ) ^ (-150 : Int) := by positivity
  by_cases hq : q = 0
  · subst hq
    rw [roundQ_zero]
    simp only [sub_zero, abs_zero, zero_div, zero_add]
    exact hη.le
  by_cases he : binary32.emin ≤ expo q
  · have h := abs_roundQ_sub_le binary32 hq he
    have e : (2 : ℚ) ^ (-(binary32.prec : Int)) = 1 / 2 ^ 24 := by
      rw [show (binary32.prec : Int) = 24 from rfl, zpow_neg]
      norm_num
    rw [e] at h
    have : |q| * (1 / 2 ^ 24) = |q| / 2 ^ 24 := by ring
    rw [this] at h
    exact le_trans h (le_add_of_nonneg_right hη.le)
  · have h := abs_roundQ_sub_le_half binary32 q
    have hx : qexp binary32 q = -149 := by
      unfold qexp
      rw [max_eq_right (not_le.1 he).le]
      rfl
    rw [hx] at h
    have e : (1 / 2 : ℚ) * (2 : ℚ) ^ (-149 : Int) = (2 : ℚ) ^ (-150 : Int) := by
      rw [show (-149 : Int) = -150 + 1 by norm_num, zpow_add₀ (by norm_num : (2 : ℚ) ≠ 0),
        zpow_one]
      ring
    rw [e] at h
    have : (0 : ℚ) ≤ |q| / 2 ^ 24 := by positivity
    exact le_trans h (le_add_of_nonneg_left this)

theorem frameSum_succ (inp : List FP) (chans i k : Nat) :
    frameSum inp chans i (k + 1)
      = frameSum inp chans i k + (inp.getD (i * chans + k) (FP.fin 0)).toQ := by
  unfold frameSum
  rw [List.range_succ, List.map_append, List.sum_append]
  simp

/-- The frame `i` of `downmixToMono` on samples in `[-1, 1]`: the result is finite and within
`2 ^ (-24) + (chans + 3) * 2 ^ (-53)` of the arithmetic mean of the samples of the frame. -/
theorem downmixFrame_mean (inp : List FP) (chans i : Nat) (hc : 1 ≤ chans)
    (hidx : (i + 1) * chans ≤ 2 ^ 32) (hlen : (i + 1) * chans ≤ inp.length)
    (hin : ∀ x ∈ inp, x.InUnit) :
    ∃ q : ℚ, downmixFrame inp chans i = some (FP.fin q) ∧
      |q - frameSum inp chans i chans / chans| ≤ 1 / 2 ^ 24 + ((chans : ℚ) + 3) / 2 ^ 53 := by
  have hη1 : (2 : ℚ) ^ (-1075 : Int) ≤ 1 / 2 ^ 54 := by
    calc (2 : ℚ) ^ (-1075 : Int) ≤ (2 : ℚ) ^ (-54 : Int) :=
        zpow_le_zpow_right₀ (by norm_num) (by norm_num)
      _ = 1 / 2 ^ 54 := by rw [zpow_neg]; norm_num
  have hη2 : (2 : ℚ) ^ (-150 : Int) ≤ 1 / 2 ^ 54 := by
    calc (2 : ℚ) ^ (-150 : Int) ≤ (2 : ℚ) ^ (-54 : Int) :=
        zpow_le_zpow_right₀ (by norm_num) (by norm_num)
      _ = 1 / 2 ^ 54 := by rw [zpow_neg]; norm_num
  have hc32 : chans ≤ 2 ^ 32 := le_trans (Nat.le_mul_of_pos_left chans (Nat.succ_pos i)) hidx
  obtain ⟨acc, hacc, a, ha, hab, herr⟩ := foldlM_option_range_inv
    (fun acc c => (inp[(i * chans + c) % 2 ^ 32]?).map (fun x => FP.add binary64 acc x))
    (fun k acc => ∃ a : ℚ, acc = FP.fin a ∧ |a| ≤ k ∧
      |a - frameSum inp chans i k| ≤ (k : ℚ) * ((k : ℚ) + 1) / 2 ^ 53) (FP.fin 0) chans
    ⟨0, rfl, by simp, by simp [frameSum]⟩
    (by
      intro k x hk hP
      obtain ⟨a, rfl, hak, hae⟩ := hP
      have hlt : i * chans + k < (i + 1) * chans := by
        rw [Nat.add_mul, Nat.one_mul]; omega
      have hmod : (i * chans + k) % 2 ^ 32 = i * chans + k :=
        Nat.mod_eq_of_lt (lt_of_lt_of_le hlt hidx)
      have hidx2 : i * chans + k < inp.length := lt_of_lt_of_le hlt hlen
      obtain ⟨q, hq, hq1, hq2⟩ := hin _ (List.getElem_mem hidx2)
      have hsum : |a + q| ≤ ((k + 1 : Nat) : ℚ) := by
        push_cast
        exact le_trans (abs_add a q) (add_le_add hak (abs_le.2 ⟨hq1, hq2⟩))
      have hr := round_fin_abs_le binary64 (by decide) (by decide) (by decide) (k + 1)
        (by have : k + 1 < 2 ^ 53 := by omega
            exact_mod_cast this)
        (le_trans (by exact_mod_cast (by omega : k + 1 ≤ 2 ^ 64)) maxFinite_binary64) hsum
      have he := round64_err (a + q)
      have hfs : frameSum inp chans i (k + 1) = frameSum inp chans i k + q := by
        rw [frameSum_succ, List.getD_eq_getElem _ _ hidx2, hq]
        rfl
      refine ⟨FP.fin (roundQ binary64 (a + q)), ?_, _, rfl, by exact_mod_cast hr.2, ?_⟩
      · show (inp[(i * chans + k) % 2 ^ 32]?).map (fun x => FP.add binary64 (FP.fin a) x) = _
        rw [hmod, List.getElem?_eq_getElem hidx2, hq]
        simp only [Option.map_some', FP.add, hr.1]
      · rw [hfs]
        have hd : |a + q| / 2 ^ 53 ≤ ((k : ℚ) + 1) / 2 ^ 53 := by
          apply div_le_div_of_nonneg_right _ (by positivity)
          exact_mod_cast hsum
        have hk0 : (0 : ℚ) ≤ (k : ℚ) := Nat.cast_nonneg k
        obtain ⟨l1, r1⟩ := abs_le.1 hae
        obtain ⟨l2, r2⟩ := abs_le.1 (le_trans he (add_le_add hd hη1))
        have e1 : (((k + 1 : Nat) : ℚ)) * ((((k + 1 : Nat) : ℚ)) + 1) / 2 ^ 53
            = (k : ℚ) * ((k : ℚ) + 1) / 2 ^ 53 + 2 * ((k : ℚ) + 1) / 2 ^ 53 := by
          push_cast; ring
        have e2 : 2 * ((k : ℚ) + 1) / 2 ^ 53 = ((k : ℚ) + 1) / 2 ^ 53 + ((k : ℚ) + 1) / 2 ^ 53 := by
          ring
        have e3 : (1 : ℚ) / 2 ^ 53 ≤ ((k : ℚ) + 1) / 2 ^ 53 :=
          div_le_div_of_nonneg_right (by linarith) (by positivity)
        rw [e1, e2, abs_le]
        constructor <;> linarith)
  have hm : FP.ofNat binary64 (max 1 chans) = FP.fin (chans : ℚ) := by
    rw [max_eq_right hc]
    exact ofNat_binary64 _ (by omega)
  have hcpos : (0 : ℚ) < (chans : ℚ) := by exact_mod_cast hc
  have hc1 : (1 : ℚ) ≤ (chans : ℚ) := by exact_mod_cast hc
  have hquot : |a / (chans : ℚ)| ≤ 1 := by
    rw [abs_div, abs_of_pos hcpos, div_le_one hcpos]
    exact hab
  have hr := round_fin_abs_le binary64 (by decide) (by decide) (by decide) 1 (by decide)
    (le_trans (by norm_num) maxFinite_binary64) (q := a / (chans : ℚ))
    (by simpa using hquot)
  have hm1 : |roundQ binary64 (a / (chans : ℚ))| ≤ 1 := by simpa using hr.2
  have hr32 := round_fin_abs_le binary32 (by decide) (by decide) (by decide) 1 (by decide)
    (by rw [maxFinite_binary32]; norm_num) (q := roundQ binary64 (a / (chans : ℚ)))
    (by simpa using hm1)
  refine ⟨roundQ binary32 (roundQ binary64 (a / (chans : ℚ))), ?_, ?_⟩
  · unfold downmixFrame
    rw [hacc, ha, hm]
    simp only [Option.map_some', FP.div, if_neg hcpos.ne', hr.1, FP.toFloat, hr32.1]
  · have he1 := round64_err (a / (chans : ℚ))
    have he2 := round32_err (roundQ binary64 (a / (chans : ℚ)))
    have hd1 : |a / (chans : ℚ)| / 2 ^ 53 ≤ 1 / 2 ^ 53 :=
      div_le_div_of_nonneg_right hquot (by positivity)
    have hd2 : |roundQ binary64 (a / (chans : ℚ))| / 2 ^ 24 ≤ 1 / 2 ^ 24 :=
      div_le_div_of_nonneg_right hm1 (by positivity)
    have hdiv : |a / (chans : ℚ) - frameSum inp chans i chans / chans|
        ≤ ((chans : ℚ) + 1) / 2 ^ 53 := by
      rw [← sub_div, abs_div, abs_of_pos hcpos, div_le_iff₀ hcpos]
      have : ((chans : ℚ) + 1) / 2 ^ 53 * chans = (chans : ℚ) * ((chans : ℚ) + 1) / 2 ^ 53 := by
        ring
      rw [this]
      exact herr
    obtain ⟨l1, r1⟩ := abs_le.1 (le_trans he1 (add_le_add hd1 hη1))
    obtain ⟨l2, r2⟩ := abs_le.1 (le_trans he2 (add_le_add hd2 hη2))
    obtain ⟨l3, r3⟩ := abs_le.1 hdiv
    have e : ((chans : ℚ) + 3) / 2 ^ 53
        = ((chans : ℚ) + 1) / 2 ^ 53 + 1 / 2 ^ 53 + 1 / 2 ^ 53 := by ring
    rw [e, abs_le]
    constructor <;> linarith

/-- A finite `float` is a `double`. -/
theorem float_is_double {q : ℚ} (hq : roundQ binary32 q = q) : roundQ binary64 q = q := by
  by_cases hq0 : q = 0
  · rw [hq0, roundQ_zero]
  have h2 : (2 : ℚ) ≠ 0 := by norm_num
  have hM := repr_eq_mul binary32 hq
  have hu : (0 : ℚ) < (2 : ℚ) ^ qexp binary32 q := by positivity
  have hadd := qexp_add binary32 q
  have hp : ((binary32.prec : Int)) = 24 := rfl
  have hemin : binary32.emin = -126 := rfl
  have hx : (-149 : Int) ≤ qexp binary32 q := by
    have h1 : binary32.emin ≤ max (expo q) binary32.emin := le_max_right _ _
    omega
  have hxe : expo q + 1 ≤ qexp binary32 q + 24 := by
    have h1 : expo q ≤ max (expo q) binary32.emin := le_max_left _ _
    omega
  have hlt := lt_zpow_expo_succ q
  have hpow : (2 : ℚ) ^ (expo q + 1) ≤ 16777216 * (2 : ℚ) ^ qexp binary32 q := by
    calc (2 : ℚ) ^ (expo q + 1) ≤ (2 : ℚ) ^ (qexp binary32 q + 24) :=
        zpow_le_zpow_right₀ (by norm_num) hxe
      _ = 16777216 * (2 : ℚ) ^ qexp binary32 q := by
        rw [zpow_add₀ h2]
        norm_num
        ring
  have habs : |q| = ((|rne (q / (2 : ℚ) ^ qexp binary32 q)| : Int) : ℚ)
      * (2 : ℚ) ^ qexp binary32 q := by
    conv_lhs => rw [hM]
    rw [abs_mul, abs_of_pos hu]
    push_cast
    rfl
  have hMlt : ((|rne (q / (2 : ℚ) ^ qexp binary32 q)| : Int) : ℚ) < ((16777216 : Int) : ℚ) := by
    have h3 : ((|rne (q / (2 : ℚ) ^ qexp binary32 q)| : Int) : ℚ) * (2 : ℚ) ^ qexp binary32 q
        < 16777216 * (2 : ℚ) ^ qexp binary32 q := by
      rw [← habs]; exact lt_of_lt_of_le hlt hpow
    have := lt_of_mul_lt_mul_right h3 hu.le
    exact_mod_cast this
  have hMi : |rne (q / (2 : ℚ) ^ qexp binary32 q)| < (16777216 : Int) := by exact_mod_cast hMlt
  have := roundQ_int_mul_zpow binary64 (rne (q / (2 : ℚ) ^ qexp binary32 q)) (qexp binary32 q)
    (lt_trans hMi (by decide)) (le_trans (by decide) hx)
  rw [← hM] at this
  exact this

/-- With one channel a frame of `downmixToMono` is the sample itself. -/
theorem downmixFrame_one (inp : List FP) (i : Nat) (hi : i < 2 ^ 32) (hlen : i < inp.length)
    (hf : (inp.get ⟨i, hlen⟩).IsFloat) :
    downmixFrame inp 1 i = some (inp.get ⟨i, hlen⟩) := by
  have hmod : (i * 1 + 0) % 2 ^ 32 = i := by
    rw [Nat.mul_one, Nat.add_zero]; exact Nat.mod_eq_of_lt hi
  have hone : FP.ofNat binary64 (max 1 1) = FP.fin 1 := by decide!
  unfold downmixFrame
  rw [foldlM_option_range_succ, List.range_zero]
  simp only [List.foldlM_nil, Option.pure_def, Option.some_bind, hmod, hone]
  rw [List.getElem?_eq_getElem hlen]
  simp only [Option.map_some', List.get_eq_getElem] at hf ⊢
  cases hx : inp[i] with
  | fin q =>
    rw [hx] at hf
    have h64 := float_is_double hf.1
    have hmax : |q| ≤ maxFinite binary64 :=
      le_trans hf.2 (le_trans (by rw [maxFinite_binary32]; norm_num) maxFinite_binary64_large)
    have hr64 : FP.round binary64 q = FP.fin q := by
      rw [round_eq_fin binary64 (by decide) (by decide) hmax, h64]
    have hr32 : FP.round binary32 q = FP.fin q := by
      rw [round_eq_fin binary32 (by decide) (by decide) hf.2, hf.1]
    simp only [FP.add, zero_add, hr64, FP.div, if_neg (one_ne_zero), div_one, FP.toFloat, hr32]
  | inf s =>
    cases s <;> simp [FP.add, FP.div, FP.toFloat]
  | nan => simp [FP.add, FP.div, FP.toFloat]

theorem range_map_getD_eq_take {α : Type} (l : List α) (d : α) (n : Nat) (hn : n ≤ l.length) :
    (List.range n).map (fun i => l.getD i d) = l.take n := by
  apply List.ext_getElem
  · simp [hn]
  · intro i h1 h2
    have hi : i < n := by simpa using h1
    simp only [List.getElem_map, List.getElem_range, List.getElem_take]
    exact List.getD_eq_getElem _ _ (lt_of_lt_of_le hi hn)

/-! ## Theorems: the downmix and the mean of the specification -/

/-- The inner loop of `downmixToMono` accumulates the samples of the frame in order. -/
theorem downmixFold_eq (inp : List FP) (base c : Nat) (hidx : base + c ≤ 2 ^ 32)
    (hlen : base + c ≤ inp.length) (g : FP → Nat → Option FP)
    (hg : ∀ acc k, g acc k = (inp[(base + k) % 2 ^ 32]?).map (fun x => FP.add binary64 acc x)) :
    ∀ k : Nat, k ≤ c → (List.range k).foldlM g (FP.fin 0)
      = some (((inp.drop base).take k).foldl (FP.add binary64) (FP.fin 0)) := by
  intro k
  induction k with
  | zero => intro _; rfl
  | succ k ih =>
    intro hk
    have hlt : base + k < inp.length := by omega
    have hmod : (base + k) % 2 ^ 32 = base + k := Nat.mod_eq_of_lt (by omega)
    have hget : (inp.drop base)[k]? = some inp[base + k] := by
      rw [List.getElem?_drop, List.getElem?_eq_getElem hlt]
    rw [foldlM_option_range_succ, ih (by omega), Option.some_bind, hg, hmod,
      List.getElem?_eq_getElem hlt, List.take_succ, hget, List.foldl_append]
    rfl

/-- A frame of `downmixToMono` is the mean of the specification of the samples of the frame. -/
theorem downmixFrame_eq_specMean (inp : List FP) (c i : Nat) (hc : 1 ≤ c)
    (hidx : (i + 1) * c ≤ 2 ^ 32) (hlen : (i + 1) * c ≤ inp.length) :
    downmixFrame inp c i = some (specMean ((inp.drop (i * c)).take c)) := by
  have he : (i + 1) * c = i * c + c := by rw [Nat.add_mul, Nat.one_mul]
  rw [he] at hidx hlen
  have hfold := downmixFold_eq inp (i * c) c hidx hlen
    (fun acc k => (inp[(i * c + k) % 2 ^ 32]?).map (fun x => FP.add binary64 acc x))
    (fun _ _ => rfl) c le_rfl
  have hl : ((inp.drop (i * c)).take c).length = c := by
    rw [List.length_take, List.length_drop]
    omega
  unfold downmixFrame specMean
  rw [hfold, hl, max_eq_right hc]
  rfl

/-- Claim C12 (downmix definition).  For every frame count `n`, every channel count `c ≥ 1`
and every interleaved buffer holding `n * c` samples of any kind (finite, infinite or NaN),
the sample count `n * c` fitting the `uint32_t` index: `downmixToMono` returns exactly `n`
samples, and sample `i` is the arithmetic mean of the `c` samples
`interleaved[i*c .. i*c + c - 1]` as the specification defines it, the sum accumulated in
`double`, divided by `c` and narrowed to `float`.  For `c = 1` and `float` samples the output
equals the input.  For finite samples in `[-1, 1]` sample `i` is finite and within
`2^-24 + (c + 3) * 2^-53` of the exact mean. -/
theorem C12_downmix_mean (inp : List FP) (n c : Nat) (hc : 1 ≤ c) (hsz : n * c ≤ 2 ^ 32)
    (hlen : n * c ≤ inp.length) :
    downmixToMono inp n c = some (specDownmix inp n c) ∧
    (specDownmix inp n c).length = n ∧
    (∀ i : Nat, i < n →
      (specDownmix inp n c)[i]? = some (specMean ((inp.drop (i * c)).take c))) ∧
    ((∀ y ∈ inp, y.IsFloat) → c = 1 → downmixToMono inp n c = some (inp.take n)) ∧
    ((∀ y ∈ inp, y.InUnit) →
      ∀ i : Nat, i < n → ∃ q : ℚ, (specDownmix inp n c)[i]? = some (FP.fin q) ∧
        |q - frameSum inp c i c / c| ≤ 1 / 2 ^ 24 + ((c : ℚ) + 3) / 2 ^ 53) := by
  have hframe : ∀ i : Nat, i < n →
      downmixFrame inp c i = some (specMean ((inp.drop (i * c)).take c)) := by
    intro i hi
    have hle : (i + 1) * c ≤ n * c := Nat.mul_le_mul_right c hi
    exact downmixFrame_eq_specMean inp c i hc (le_trans hle hsz) (le_trans hle hlen)
  have hget : ∀ i : Nat, i < n →
      (specDownmix inp n c)[i]? = some (specMean ((inp.drop (i * c)).take c)) := by
    intro i hi
    unfold specDownmix
    rw [List.getElem?_map, List.getElem?_range hi]
    rfl
  have hdm : downmixToMono inp n c = some (specDownmix inp n c) := by
    unfold downmixToMono specDownmix
    exact mapM_option_eq_map _ _ _ (fun i hi => hframe i (List.mem_range.1 hi))
  refine ⟨hdm, by simp [specDownmix], hget, ?_, ?_⟩
  · intro hf hc1
    subst hc1
    rw [Nat.mul_one] at hsz hlen
    unfold downmixToMono
    rw [mapM_option_eq_map (downmixFrame inp 1) (fun i => inp.getD i (FP.fin 0)) (List.range n),
      range_map_getD_eq_take inp _ n hlen]
    intro i hi
    have hi2 : i < n := List.mem_range.1 hi
    have hil : i < inp.length := lt_of_lt_of_le hi2 hlen
    rw [downmixFrame_one inp i (by omega) hil (hf _ (List.get_mem inp i hil)),
      List.getD_eq_getElem _ _ hil]
    rfl
  · intro hin i hi
    have hle : (i + 1) * c ≤ n * c := Nat.mul_le_mul_right c hi
    obtain ⟨q, hq, hb⟩ := downmixFrame_mean inp c i hc (le_trans hle hsz) (le_trans hle hlen) hin
    refine ⟨q, ?_, hb⟩
    rw [hget i hi, ← hframe i hi, hq]

/-- Witness of C12: two stereo frames. -/
theorem C12_downmix_mean_witness :
    downmixToMono [FP.fin (1 / 2), FP.fin (-1), FP.fin 1, FP.fin (1 / 4)] 2 2
      = some (specDownmix [FP.fin (1 / 2), FP.fin (-1), FP.fin 1, FP.fin (1 / 4)] 2 2) ∧
    specDownmix [FP.fin (1 / 2), FP.fin (-1), FP.fin 1, FP.fin (1 / 4)] 2 2
      = [FP.fin (-1 / 4), FP.fin (5 / 8)] :=
  ⟨(C12_downmix_mean [FP.fin (1 / 2), FP.fin (-1), FP.fin 1, FP.fin (1 / 4)] 2 2 (by decide)
    (by decide) (by decide)).1, by decide!⟩

/-! ## Theorems: the accumulated sum of the gate on long packets -/

/-- Rounding to `float` of a number that is zero or at least one: the relative error is at
most `2 ^ (-24)`, and the result is again zero or at least one. -/
theorem round32_rel {q : ℚ} (h : q = 0 ∨ 1 ≤ q) :
    q * (1 - 1 / 2 ^ 24) ≤ roundQ binary32 q ∧ roundQ binary32 q ≤ q * (1 + 1 / 2 ^ 24) ∧
      (roundQ binary32 q = 0 ∨ 1 ≤ roundQ binary32 q) := by
  rcases h with rfl | h1
  · rw [roundQ_zero]
    exact ⟨by norm_num, by norm_num, Or.inl rfl⟩
  · have hq : 0 < q := by linarith
    have he : binary32.emin ≤ expo q := by
      have : (0 : Int) ≤ expo q := le_expo_of_zpow_le (by
        rw [abs_of_pos hq, zpow_zero]; exact h1)
      have h3 : binary32.emin = -126 := rfl
      omega
    have herr := abs_roundQ_sub_le binary32 hq.ne' he
    rw [abs_of_pos hq] at herr
    have hpow : (2 : ℚ) ^ (-(binary32.prec : Int)) = 1 / 2 ^ 24 := by
      have : (binary32.prec : Int) = 24 := rfl
      rw [this]; norm_num
    rw [hpow] at herr
    have := abs_le.1 herr
    have h1r : roundQ binary32 1 = 1 := by
      have := roundQ32_nat 1 (by norm_num)
      exact_mod_cast this
    have hm := roundQ_mono binary32 (by decide) h1
    rw [h1r] at hm
    exact ⟨by linarith, by linarith, Or.inr hm⟩

/-- The square `float(v) * float(v)` of a sample, with its relative error. -/
theorem gate_square_rel {v : Int} (h1 : -32768 ≤ v) (h2 : v ≤ 32767) :
    ∃ T : ℚ, FP.mul binary32 (FP.ofInt binary32 v) (FP.ofInt binary32 v) = FP.fin T ∧
      (T = 0 ∨ 1 ≤ T) ∧ ((v * v : Int) : ℚ) * (1 - 1 / 2 ^ 24) ≤ T ∧
      T ≤ ((v * v : Int) : ℚ) * (1 + 1 / 2 ^ 24) := by
  have hsq : (0 : Int) ≤ v * v := mul_self_nonneg v
  have hsq2 : v * v ≤ 2 ^ 30 := by nlinarith
  have hcast : ((v * v : Int) : ℚ) = (v : ℚ) * v := by push_cast; rfl
  have habs : |(v : ℚ) * v| ≤ 2 ^ 64 := by
    rw [← hcast, abs_of_nonneg (by exact_mod_cast hsq)]
    have : ((v * v : Int) : ℚ) ≤ ((2 ^ 30 : Int) : ℚ) := by exact_mod_cast hsq2
    push_cast at this ⊢
    linarith
  have h01 : ((v * v : Int) : ℚ) = 0 ∨ 1 ≤ ((v * v : Int) : ℚ) := by
    rcases eq_or_lt_of_le hsq with h | h
    · left; rw [← h]; norm_num
    · right; exact_mod_cast (by omega : (1 : Int) ≤ v * v)
  obtain ⟨r1, r2, r3⟩ := round32_rel h01
  refine ⟨roundQ binary32 ((v * v : Int) : ℚ), ?_, r3, r1, r2⟩
  rw [ofInt32_int16 h1 h2]
  simp only [FP.mul, round32_fin habs, hcast]

/-- The lower invariant of the accumulation: the sum is `+∞`, or it is finite, zero or at
least one, and at least `L` times the exact sum. -/
theorem gateStep_lower {acc : FP} {E L : ℚ} {v : Int} (h1 : -32768 ≤ v) (h2 : v ≤ 32767)
    (hE : 0 ≤ E) (hL : L ≤ 1 - 1 / 2 ^ 24)
    (h : acc = FP.inf false ∨ ∃ a : ℚ, acc = FP.fin a ∧ (a = 0 ∨ 1 ≤ a) ∧ E * L ≤ a) :
    gateStep acc v = FP.inf false ∨ ∃ a : ℚ, gateStep acc v = FP.fin a ∧ (a = 0 ∨ 1 ≤ a) ∧
      (E + ((v * v : Int) : ℚ)) * (L - 1 / 2 ^ 24) ≤ a := by
  obtain ⟨T, hT, hT01, hTlo, -⟩ := gate_square_rel h1 h2
  have hy : (0 : ℚ) ≤ ((v * v : Int) : ℚ) := by exact_mod_cast mul_self_nonneg v
  unfold gateStep
  rw [hT]
  rcases h with rfl | ⟨a, rfl, ha01, haL⟩
  · left; rfl
  · have ha0 : 0 ≤ a := by rcases ha01 with h | h <;> linarith
    have hT0 : 0 ≤ T := by rcases hT01 with h | h <;> linarith
    have hq01 : a + T = 0 ∨ 1 ≤ a + T := by
      rcases ha01 with h | h
      · rcases hT01 with h' | h'
        · left; rw [h, h']; norm_num
        · right; linarith
      · right; linarith
    obtain ⟨r1, -, r3⟩ := round32_rel hq01
    simp only [FP.add, FP.round]
    split_ifs with hov
    · left
      have : ¬ (a + T < 0) := not_lt.2 (add_nonneg ha0 hT0)
      simp [this]
    · right
      refine ⟨_, rfl, r3, ?_⟩
      have hx1 : 0 ≤ E * (1 - 1 / 2 ^ 24 - L) := mul_nonneg hE (by linarith)
      have hy1 : 0 ≤ ((v * v : Int) : ℚ) * (1 - 1 / 2 ^ 24 - L) := mul_nonneg hy (by linarith)
      have hsum : (E + ((v * v : Int) : ℚ)) * L ≤ a + T := by nlinarith
      have hx2 : 0 ≤ (E + ((v * v : Int) : ℚ)) * (1 - L) :=
        mul_nonneg (add_nonneg hE hy) (by linarith)
      nlinarith

/-- The upper invariant of the accumulation: the sum is finite, zero or at least one, and at
most `U` times the exact sum, as long as `U ≤ 2`. -/
theorem gateStep_upper {a E U : ℚ} {v : Int} (h1 : -32768 ≤ v) (h2 : v ≤ 32767)
    (hE : 0 ≤ E) (hEb : E ≤ 2 ^ 60) (hU1 : 1 + 1 / 2 ^ 23 ≤ U) (hU2 : U ≤ 2)
    (ha01 : a = 0 ∨ 1 ≤ a) (haU : a ≤ E * U) :
    ∃ a2 : ℚ, gateStep (FP.fin a) v = FP.fin a2 ∧ (a2 = 0 ∨ 1 ≤ a2) ∧
      a2 ≤ (E + ((v * v : Int) : ℚ)) * (U + 1 / 2 ^ 23) := by
  obtain ⟨T, hT, hT01, -, hThi⟩ := gate_square_rel h1 h2
  have hy : (0 : ℚ) ≤ ((v * v : Int) : ℚ) := by exact_mod_cast mul_self_nonneg v
  have hy2 : ((v * v : Int) : ℚ) ≤ 2 ^ 30 := by
    have : v * v ≤ 2 ^ 30 := by nlinarith
    exact_mod_cast this
  have ha0 : 0 ≤ a := by rcases ha01 with h | h <;> linarith
  have hT0 : 0 ≤ T := by rcases hT01 with h | h <;> linarith
  have hq01 : a + T = 0 ∨ 1 ≤ a + T := by
    rcases ha01 with h | h
    · rcases hT01 with h' | h'
      · left; rw [h, h']; norm_num
      · right; linarith
    · right; linarith
  obtain ⟨-, r2, r3⟩ := round32_rel hq01
  have hEU : E * U ≤ 2 ^ 61 := by nlinarith
  have hfin : FP.round binary32 (a + T) = FP.fin (roundQ binary32 (a + T)) :=
    round32_fin (by rw [abs_of_nonneg (add_nonneg ha0 hT0)]; linarith)
  refine ⟨roundQ binary32 (a + T), ?_, r3, ?_⟩
  · unfold gateStep
    rw [hT]
    simp only [FP.add, hfin]
  · have hx1 : 0 ≤ E * (2 - U) := mul_nonneg hE (by linarith)
    have hy1 : 0 ≤ ((v * v : Int) : ℚ) * (U - (1 + 1 / 2 ^ 23)) := mul_nonneg hy (by linarith)
    have hsum : a + T ≤ (E + ((v * v : Int) : ℚ)) * U := by nlinarith
    have hx2 : 0 ≤ (E + ((v * v : Int) : ℚ)) * U :=
      mul_nonneg (add_nonneg hE hy) (by linarith)
    nlinarith

theorem sumSquares_cons (v : Int) (s : List Int) :
    sumSquares (v :: s) = v * v + sumSquares s := by
  simp [sumSquares]

theorem sumSquares_le (s : List Int) (h16 : ∀ v ∈ s, -32768 ≤ v ∧ v ≤ 32767) :
    sumSquares s ≤ 1073741824 * s.length := by
  induction s with
  | nil => simp [sumSquares]
  | cons v s ih =>
    obtain ⟨h1, h2⟩ := h16 v (List.mem_cons_self v s)
    have := ih (fun w hw => h16 w (List.mem_cons_of_mem v hw))
    rw [sumSquares_cons, List.length_cons]
    push_cast
    nlinarith

/-- The accumulated sum is `+∞` or at least `1 - (k + 1) / 2 ^ 24` times the exact sum after
`k` samples. -/
theorem gateFold_lower (s : List Int) : ∀ (acc : FP) (E : Int) (k : Nat), 0 ≤ E →
    (∀ v ∈ s, -32768 ≤ v ∧ v ≤ 32767) →
    (acc = FP.inf false ∨ ∃ a : ℚ, acc = FP.fin a ∧ (a = 0 ∨ 1 ≤ a) ∧
      (E : ℚ) * (1 - ((k : ℚ) + 1) / 2 ^ 24) ≤ a) →
    (s.foldl gateStep acc = FP.inf false ∨ ∃ a : ℚ, s.foldl gateStep acc = FP.fin a ∧
      (a = 0 ∨ 1 ≤ a) ∧
      ((E + sumSquares s : Int) : ℚ) * (1 - (((k + s.length : Nat) : ℚ) + 1) / 2 ^ 24) ≤ a) := by
  induction s with
  | nil =>
    intro acc E k _ _ h
    have h0 : sumSquares [] = 0 := rfl
    simpa [h0] using h
  | cons v s ih =>
    intro acc E k hE h16 h
    obtain ⟨hv1, hv2⟩ := h16 v (List.mem_cons_self v s)
    have hk0 : (0 : ℚ) ≤ (k : ℚ) := Nat.cast_nonneg k
    have hstep := gateStep_lower (E := (E : ℚ)) (L := 1 - ((k : ℚ) + 1) / 2 ^ 24) hv1 hv2
      (by exact_mod_cast hE) (by
        have : (1 : ℚ) / 2 ^ 24 ≤ ((k : ℚ) + 1) / 2 ^ 24 :=
          div_le_div_of_nonneg_right (by linarith) (by positivity)
        linarith) h
    have hL : 1 - ((k : ℚ) + 1) / 2 ^ 24 - 1 / 2 ^ 24 = 1 - (((k + 1 : Nat) : ℚ) + 1) / 2 ^ 24 := by
      push_cast; ring
    have hEc : (E : ℚ) + ((v * v : Int) : ℚ) = ((E + v * v : Int) : ℚ) := by push_cast; ring
    rw [hL, hEc] at hstep
    have := ih (gateStep acc v) (E + v * v) (k + 1) (add_nonneg hE (mul_self_nonneg v))
      (fun w hw => h16 w (List.mem_cons_of_mem v hw)) hstep
    rw [List.foldl_cons, sumSquares_cons, List.length_cons, ← add_assoc,
      show k + (s.length + 1) = k + 1 + s.length by omega]
    exact this

/-- The accumulated sum of at most `2 ^ 23` samples is finite and at most
`1 + (k + 1) / 2 ^ 23` times the exact sum after `k` samples. -/
theorem gateFold_upper (s : List Int) : ∀ (a : ℚ) (E : Int) (k : Nat), 0 ≤ E →
    (∀ v ∈ s, -32768 ≤ v ∧ v ≤ 32767) → E + sumSquares s ≤ 2 ^ 60 → k + s.length ≤ 2 ^ 23 →
    (a = 0 ∨ 1 ≤ a) → a ≤ (E : ℚ) * (1 + ((k : ℚ) + 1) / 2 ^ 23) →
    ∃ A : ℚ, s.foldl gateStep (FP.fin a) = FP.fin A ∧ (A = 0 ∨ 1 ≤ A) ∧
      A ≤ ((E + sumSquares s : Int) : ℚ) * (1 + (((k + s.length : Nat) : ℚ) + 1) / 2 ^ 23) := by
  induction s with
  | nil =>
    intro a E k _ _ _ _ h01 h
    have h0 : sumSquares [] = 0 := rfl
    exact ⟨a, rfl, h01, by simpa [h0] using h⟩
  | cons v s ih =>
    intro a E k hE h16 hb hk h01 h
    obtain ⟨hv1, hv2⟩ := h16 v (List.mem_cons_self v s)
    have hk0 : (0 : ℚ) ≤ (k : ℚ) := Nat.cast_nonneg k
    have hss := sumSquares_nonneg s
    have hvv := mul_self_nonneg v
    rw [sumSquares_cons] at hb
    rw [List.length_cons] at hk
    have hkq : (k : ℚ) + 1 ≤ 2 ^ 23 := by
      have : k + 1 ≤ 2 ^ 23 := by omega
      exact_mod_cast this
    have hEb : (E : ℚ) ≤ 2 ^ 60 := by
      have : E ≤ 2 ^ 60 := by omega
      exact_mod_cast this
    obtain ⟨a2, ha2, h201, h2U⟩ := gateStep_upper (E := (E : ℚ))
      (U := 1 + ((k : ℚ) + 1) / 2 ^ 23) hv1 hv2 (by exact_mod_cast hE) hEb
      (by
        have : (1 : ℚ) / 2 ^ 23 ≤ ((k : ℚ) + 1) / 2 ^ 23 :=
          div_le_div_of_nonneg_right (by linarith) (by positivity)
        linarith)
      (by
        have : ((k : ℚ) + 1) / 2 ^ 23 ≤ 1 := by
          rw [div_le_one (by positivity)]; exact hkq
        linarith) h01 h
    have hU : 1 + ((k : ℚ) + 1) / 2 ^ 23 + 1 / 2 ^ 23 = 1 + (((k + 1 : Nat) : ℚ) + 1) / 2 ^ 23 := by
      push_cast; ring
    have hEc : (E : ℚ) + ((v * v : Int) : ℚ) = ((E + v * v : Int) : ℚ) := by push_cast; ring
    rw [hU, hEc] at h2U
    obtain ⟨A, hA, hA01, hAU⟩ := ih a2 (E + v * v) (k + 1) (add_nonneg hE hvv)
      (fun w hw => h16 w (List.mem_cons_of_mem v hw)) (by omega) (by omega) h201 h2U
    refine ⟨A, ?_, hA01, ?_⟩
    · rw [List.foldl_cons, ha2]
      exact hA
    · rw [sumSquares_cons, List.length_cons, ← add_assoc,
        show k + (s.length + 1) = k + 1 + s.length by omega]
      exact hAU

/-- The accumulated `float` sum of squares of a packet of `n` samples is `+∞` or at least
`1 - (n + 1) / 2 ^ 24` times the exact sum. -/
theorem gateSum_lower (s : List Int) (h16 : ∀ v ∈ s, -32768 ≤ v ∧ v ≤ 32767) :
    (gateSum s).GeQ (((sumSquares s : Int) : ℚ) * (1 - ((s.length : ℚ) + 1) / 2 ^ 24)) := by
  have := gateFold_lower s (FP.fin 0) 0 0 le_rfl h16
    (Or.inr ⟨0, rfl, Or.inl rfl, by norm_num⟩)
  rw [zero_add, Nat.zero_add] at this
  rcases this with h | ⟨a, ha, -, hlo⟩
  · exact Or.inl h
  · exact Or.inr ⟨a, ha, hlo⟩

/-- The accumulated `float` sum of squares of a packet of `n ≤ 2 ^ 23` samples is finite and at
most `1 + (n + 1) / 2 ^ 23` times the exact sum. -/
theorem gateSum_upper (s : List Int) (h16 : ∀ v ∈ s, -32768 ≤ v ∧ v ≤ 32767)
    (hn : s.length ≤ 2 ^ 23) :
    ∃ A : ℚ, gateSum s = FP.fin A ∧ 0 ≤ A ∧
      A ≤ ((sumSquares s : Int) : ℚ) * (1 + ((s.length : ℚ) + 1) / 2 ^ 23) := by
  have hle := sumSquares_le s h16
  have hb : (0 : Int) + sumSquares s ≤ 2 ^ 60 := by
    have : (s.length : Int) ≤ 2 ^ 23 := by exact_mod_cast hn
    omega
  obtain ⟨A, hA, hA01, hAU⟩ := gateFold_upper s 0 0 0 le_rfl h16 hb (by omega) (Or.inl rfl)
    (by norm_num)
  rw [zero_add, Nat.zero_add] at hAU
  refine ⟨A, hA, ?_, hAU⟩
  rcases hA01 with h | h <;> linarith

/-- The gate on a packet of any length: it passes the packet when the exact sum of squares,
reduced by the factor `1 - (n + 1) / 2 ^ 24`, is at least `62500 * n`. -/
theorem gate_pass_of_ge (s : List Int) (hne : s ≠ []) (h16 : ∀ v ∈ s, -32768 ≤ v ∧ v ≤ 32767)
    (h : 62500 * (s.length : ℚ)
      ≤ ((sumSquares s : Int) : ℚ) * (1 - ((s.length : ℚ) + 1) / 2 ^ 24)) :
    gateSuppress s = false := by
  have hlen : 0 < s.length := List.length_pos.2 hne
  have hnq : (0 : ℚ) < (s.length : ℚ) := by exact_mod_cast hlen
  have hE0 : (0 : ℚ) ≤ ((sumSquares s : Int) : ℚ) := by exact_mod_cast sumSquares_nonneg s
  -- the hypothesis forces `n + 1 < 2 ^ 24`
  have hn24 : (s.length : ℚ) + 1 < 2 ^ 24 := by
    by_contra hcon
    have h1 : (1 : ℚ) ≤ ((s.length : ℚ) + 1) / 2 ^ 24 := by
      rw [le_div_iff₀ (by positivity)]; linarith [not_lt.1 hcon]
    have h2 : ((sumSquares s : Int) : ℚ) * (1 - ((s.length : ℚ) + 1) / 2 ^ 24) ≤ 0 :=
      mul_nonpos_of_nonneg_of_nonpos hE0 (by linarith)
    nlinarith
  have hn : s.length ≤ 16777216 := by
    have : ((s.length + 1 : Nat) : ℚ) < ((2 ^ 24 : Nat) : ℚ) := by push_cast; exact hn24
    have := Nat.cast_lt.1 this
    omega
  have hge : (gateSum s).GeQ (62500 * (s.length : ℚ)) := by
    rcases gateSum_lower s h16 with h1 | ⟨a, ha, hlo⟩
    · exact Or.inl h1
    · exact Or.inr ⟨a, ha, le_trans h hlo⟩
  rw [gateSuppress_eq hne, (ofNat32_spec s.length).1 hn]
  exact rms_not_lt_of_ge (div32_geQ hnq hge)

/-- The gate on a packet of at most `2 ^ 23` samples: it suppresses the packet when the exact
sum of squares, enlarged by the factor `1 + (n + 2) / 2 ^ 23`, is at most `62500 * n`. -/
theorem gate_suppress_of_le (s : List Int) (hne : s ≠ [])
    (h16 : ∀ v ∈ s, -32768 ≤ v ∧ v ≤ 32767) (hn : s.length ≤ 2 ^ 23)
    (h : ((sumSquares s : Int) : ℚ) * (1 + ((s.length : ℚ) + 2) / 2 ^ 23)
      ≤ 62500 * (s.length : ℚ)) :
    gateSuppress s = true := by
  have hlen : 0 < s.length := List.length_pos.2 hne
  have hnq : (0 : ℚ) < (s.length : ℚ) := by exact_mod_cast hlen
  have hnq2 : (s.length : ℚ) ≤ 2 ^ 23 := by exact_mod_cast hn
  have hE0 : (0 : ℚ) ≤ ((sumSquares s : Int) : ℚ) := by exact_mod_cast sumSquares_nonneg s
  obtain ⟨A, hA, hA0, hAU⟩ := gateSum_upper s h16 hn
  -- the sum is below the threshold by a margin
  have hmargin : A ≤ (62500 - 1 / 500) * (s.length : ℚ) := by
    have e1 : ((sumSquares s : Int) : ℚ) * (1 + ((s.length : ℚ) + 2) / 2 ^ 23)
        = ((sumSquares s : Int) : ℚ) * (1 + ((s.length : ℚ) + 1) / 2 ^ 23)
          + ((sumSquares s : Int) : ℚ) / 2 ^ 23 := by ring
    rcases le_or_lt (31000 * (s.length : ℚ)) ((sumSquares s : Int) : ℚ) with hbig | hsmall
    · have : (s.length : ℚ) / 500 ≤ ((sumSquares s : Int) : ℚ) / 2 ^ 23 := by
        rw [div_le_div_iff₀ (by norm_num) (by positivity)]
        nlinarith
      linarith
    · have hfac : 1 + ((s.length : ℚ) + 1) / 2 ^ 23 ≤ 2 + 1 / 2 ^ 23 := by
        have : ((s.length : ℚ) + 1) / 2 ^ 23 ≤ (2 ^ 23 + 1) / 2 ^ 23 :=
          div_le_div_of_nonneg_right (by linarith) (by positivity)
        have e : ((2 : ℚ) ^ 23 + 1) / 2 ^ 23 = 1 + 1 / 2 ^ 23 := by norm_num
        linarith
      have h3 : ((sumSquares s : Int) : ℚ) * (1 + ((s.length : ℚ) + 1) / 2 ^ 23)
          ≤ ((sumSquares s : Int) : ℚ) * (2 + 1 / 2 ^ 23) :=
        mul_le_mul_of_nonneg_left hfac hE0
      nlinarith
  have hq : A / (s.length : ℚ) ≤ 62500 - 1 / 500 := by
    rw [div_le_iff₀ hnq]; exact hmargin
  have hval : roundQ binary32 (62500 - 1 / 500) = 62500 - 1 / 256 := by decide!
  have hm := roundQ_mono binary32 (by decide) hq
  rw [hval] at hm
  have hq0 : 0 ≤ A / (s.length : ℚ) := div_nonneg hA0 hnq.le
  have hfin : FP.round binary32 (A / (s.length : ℚ))
      = FP.fin (roundQ binary32 (A / (s.length : ℚ))) :=
    round32_fin (by rw [abs_of_nonneg hq0]; linarith)
  rw [gateSuppress_eq hne, (ofNat32_spec s.length).1 (by omega), hA]
  simp only [FP.div, if_neg hnq.ne', hfin]
  exact rms_lt_of_le (roundQ_nonneg binary32 hq0) hm

/-- Claim C8 (silence gate decision), amended.  For every non-empty packet `s` of `int16_t`
samples, with `Σ` the exact sum of the squares and `n` the length:
if `n ≤ 268` or `Σ ≤ 2^24`, the capture loop suppresses the packet if and only if
`Σ < 62500 * n`, that is if and only if its RMS is below 250;
for every length, the packet is passed to the chunker when `Σ * (1 - (n + 1) / 2^24) ≥ 62500 * n`;
for `n ≤ 2^23`, the packet is suppressed when `Σ * (1 + (n + 2) / 2^23) ≤ 62500 * n`.
In particular a packet of at most 65536 samples is suppressed when its RMS is at most 249
(`Σ ≤ 62001 * n`) and passed when its RMS is at least 251 (`Σ ≥ 63001 * n`), an all-zero packet
of any length is suppressed, and a packet of at most 268 samples of constant amplitude at least
250 is passed. -/
theorem C8_gate_decision :
    (∀ s : List Int, s ≠ [] → (∀ v ∈ s, -32768 ≤ v ∧ v ≤ 32767) →
      (s.length ≤ 268 ∨ sumSquares s ≤ 16777216) →
      (gateSuppress s = true ↔ sumSquares s < 62500 * s.length)) ∧
    (∀ s : List Int, s ≠ [] → (∀ v ∈ s, -32768 ≤ v ∧ v ≤ 32767) →
      62500 * (s.length : ℚ) ≤ ((sumSquares s : Int) : ℚ) * (1 - ((s.length : ℚ) + 1) / 2 ^ 24) →
      gateSuppress s = false) ∧
    (∀ s : List Int, s ≠ [] → (∀ v ∈ s, -32768 ≤ v ∧ v ≤ 32767) → s.length ≤ 2 ^ 23 →
      ((sumSquares s : Int) : ℚ) * (1 + ((s.length : ℚ) + 2) / 2 ^ 23) ≤ 62500 * (s.length : ℚ) →
      gateSuppress s = true) ∧
    (∀ s : List Int, s ≠ [] → (∀ v ∈ s, -32768 ≤ v ∧ v ≤ 32767) → s.length ≤ 65536 →
      (sumSquares s ≤ 62001 * s.length → gateSuppress s = true) ∧
      (63001 * s.length ≤ sumSquares s → gateSuppress s = false)) ∧
    (∀ n : Nat, 0 < n → gateSuppress (List.replicate n 0) = true) ∧
    (∀ (n : Nat) (v : Int), 0 < n → n ≤ 268 → -32768 ≤ v → v ≤ 32767 → 250 ≤ |v| →
      gateSuppress (List.replicate n v) = false) := by
  refine ⟨gate_decision, gate_pass_of_ge, gate_suppress_of_le, ?_, ?_, ?_⟩
  · intro s hne h16 hn
    have hlen : 0 < s.length := List.length_pos.2 hne
    have hnq : (0 : ℚ) < (s.length : ℚ) := by exact_mod_cast hlen
    have hnq2 : (s.length : ℚ) ≤ 65536 := by exact_mod_cast hn
    have hE0 : (0 : ℚ) ≤ ((sumSquares s : Int) : ℚ) := by exact_mod_cast sumSquares_nonneg s
    constructor
    · intro h
      have hq : ((sumSquares s : Int) : ℚ) ≤ 62001 * (s.length : ℚ) := by exact_mod_cast h
      apply gate_suppress_of_le s hne h16 (le_trans hn (by norm_num))
      have hfac : 1 + ((s.length : ℚ) + 2) / 2 ^ 23 ≤ 1 + 65538 / 2 ^ 23 := by
        have : ((s.length : ℚ) + 2) / 2 ^ 23 ≤ 65538 / 2 ^ 23 :=
          div_le_div_of_nonneg_right (by linarith) (by positivity)
        linarith
      have h3 := mul_le_mul_of_nonneg_left hfac hE0
      have h4 : ((sumSquares s : Int) : ℚ) * (1 + 65538 / 2 ^ 23)
          ≤ 62001 * (s.length : ℚ) * (1 + 65538 / 2 ^ 23) :=
        mul_le_mul_of_nonneg_right hq (by norm_num)
      nlinarith
    · intro h
      have hq : 63001 * (s.length : ℚ) ≤ ((sumSquares s : Int) : ℚ) := by exact_mod_cast h
      apply gate_pass_of_ge s hne h16
      have hfac : 1 - 65537 / 2 ^ 24 ≤ 1 - ((s.length : ℚ) + 1) / 2 ^ 24 := by
        have : ((s.length : ℚ) + 1) / 2 ^ 24 ≤ 65537 / 2 ^ 24 :=
          div_le_div_of_nonneg_right (by linarith) (by positivity)
        linarith
      have h3 := mul_le_mul_of_nonneg_left hfac hE0
      have h4 : 63001 * (s.length : ℚ) * (1 - 65537 / 2 ^ 24)
          ≤ ((sumSquares s : Int) : ℚ) * (1 - 65537 / 2 ^ 24) :=
        mul_le_mul_of_nonneg_right hq (by norm_num)
      nlinarith
  · intro n hn
    have hne : List.replicate n (0 : Int) ≠ [] := replicate_ne_nil n 0 hn
    rw [gate_decision _ hne (by
      intro v hv
      rw [List.eq_of_mem_replicate hv]
      norm_num) (Or.inr (by rw [sumSquares_replicate]; norm_num))]
    rw [sumSquares_replicate, List.length_replicate]
    have : (0 : Int) < n := by exact_mod_cast hn
    linarith
  · intro n v hn hn2 hv1 hv2 hv
    have hne : List.replicate n v ≠ [] := replicate_ne_nil n v hn
    have hiff := gate_decision _ hne (by
      intro w hw
      rw [List.eq_of_mem_replicate hw]
      exact ⟨hv1, hv2⟩) (Or.inl (by rw [List.length_replicate]; exact hn2))
    rw [sumSquares_replicate, List.length_replicate] at hiff
    have hsq : 62500 ≤ v * v := by
      rcases abs_cases v with ⟨h, _⟩ | ⟨h, _⟩ <;> rw [h] at hv <;> nlinarith
    have hnot : ¬ ((n : Int) * (v * v) < 62500 * n) := by
      have : (0 : Int) < n := by exact_mod_cast hn
      nlinarith
    cases hg : gateSuppress (List.replicate n v) with
    | false => rfl
    | true => exact absurd (hiff.1 hg) hnot

/-- Witness of C8: a three-sample packet at the threshold, packets of 2400 samples of constant
amplitude 249 and 251, an all-zero packet and a short packet of amplitude 250. -/
theorem C8_gate_decision_witness :
    (gateSuppress [250, 250, 249] = true ↔
      sumSquares [250, 250, 249] < 62500 * ([250, 250, 249] : List Int).length) ∧
    gateSuppress (List.replicate 2400 (249 : Int)) = true ∧
    gateSuppress (List.replicate 2400 (251 : Int)) = false ∧
    gateSuppress (List.replicate 5 0) = true ∧
    gateSuppress (List.replicate 240 (-250)) = false :=
  ⟨C8_gate_decision.1 [250, 250, 249] (by simp)
      (by intro v hv
          simp only [List.mem_cons, List.mem_singleton, List.not_mem_nil, or_false] at hv
          rcases hv with rfl | rfl | rfl <;> norm_num)
      (Or.inl (by simp)),
    (C8_gate_decision.2.2.2.1 (List.replicate 2400 (249 : Int))
      (replicate_ne_nil 2400 249 (by norm_num))
      (by intro v hv; rw [List.eq_of_mem_replicate hv]; norm_num)
      (by rw [List.length_replicate]; norm_num)).1
      (by rw [sumSquares_replicate, List.length_replicate]; norm_num),
    (C8_gate_decision.2.2.2.1 (List.replicate 2400 (251 : Int))
      (replicate_ne_nil 2400 251 (by norm_num))
      (by intro v hv; rw [List.eq_of_mem_replicate hv]; norm_num)
      (by rw [List.length_replicate]; norm_num)).2
      (by rw [sumSquares_replicate, List.length_replicate]; norm_num),
    C8_gate_decision.2.2.2.2.1 5 (by norm_num),
    C8_gate_decision.2.2.2.2.2 240 (-250) (by norm_num) (by norm_num) (by norm_num) (by norm_num)
      (by norm_num)⟩

/-! ## Theorems: end-to-end silence -/

/-- Claim C10 (end-to-end silence).  For every packet that the capture client can deliver (the
frame count, the channel count and the source rate are `uint32_t` values, the rate is
positive, and for a packet with the silent flag the sample count `numFrames * srcChans` fits
`uint32_t`) that is all zero or carries the silent flag, and every carry buffer with fewer
than 2400 samples, as every carry buffer reached from the empty one is: the pipeline from the
acquired packet to `emitChunks` writes no frame and leaves the carry buffer unchanged, and so
does the whole loop iteration.  This includes the packets so short that resampling leaves no
sample, for which the gate is skipped. -/
theorem C10_end_to_end_silence (mix : WavFmt) (pkt : Packet) (carry : List Int)
    (hr0 : 0 < mix.srcRate) (hr1 : mix.srcRate < 2 ^ 32) (hc : mix.srcChans < 2 ^ 32)
    (hf : pkt.numFrames < 2 ^ 32)
    (hz : (pkt.silent = true ∧ pkt.numFrames * mix.srcChans < 2 ^ 32) ∨ pkt.AllZero mix)
    (hcarry : carry.length < CHUNK_SAMPLES) :
    processPacket mix pkt carry = some ([], carry) ∧
    ∀ env : IterEnv, env.pollFailed = false → env.getFailed = false → env.pkt = pkt →
      ∃ running slept : Bool,
        loopIteration mix env carry = some (IterResult.next running [] carry slept) := by
  have hp := silence_emits_nothing mix pkt carry hr0 hr1 hc hf hz hcarry
  refine ⟨hp, ?_⟩
  intro env hpoll hget hpkt
  unfold loopIteration
  rw [hpoll, if_neg Bool.false_ne_true, hget]
  by_cases h0 : env.packetFrames = 0
  · rw [if_pos h0]
    exact ⟨true, true, rfl⟩
  · rw [if_neg h0, if_neg Bool.false_ne_true, hpkt]
    rw [processPacket_eq_convert] at hp
    cases hconv : convertPacket mix pkt with
    | none => rw [hconv] at hp; cases hp
    | some s16 =>
      rw [hconv] at hp
      simp only [Option.map_some', Option.some.injEq] at hp ⊢
      by_cases hg : gateSuppress s16 = true
      · rw [if_pos hg]
        exact ⟨true, false, rfl⟩
      · rw [if_neg hg] at hp ⊢
        rw [hp]
        exact ⟨_, false, rfl⟩

/-- Witness of C10: one silent stereo frame at 48000 Hz, which resamples to no sample, with a
carry buffer of three samples. -/
theorem C10_end_to_end_silence_witness :
    processPacket ⟨true, true, 48000, 2⟩ ⟨true, 1, [], []⟩ [7, 8, 9] = some ([], [7, 8, 9]) ∧
    ∀ env : IterEnv, env.pollFailed = false → env.getFailed = false →
      env.pkt = ⟨true, 1, [], []⟩ →
      ∃ running slept : Bool,
        loopIteration ⟨true, true, 48000, 2⟩ env [7, 8, 9]
          = some (IterResult.next running [] [7, 8, 9] slept) :=
  C10_end_to_end_silence ⟨true, true, 48000, 2⟩ ⟨true, 1, [], []⟩ [7, 8, 9] (by decide)
    (by decide) (by decide) (by decide) (Or.inl ⟨rfl, by decide⟩) (by decide)

end WASAPILoopback

